import Mathlib

/-!
# mopsolver: maze construction, breadth-first solving and path marking

A shallow embedding of `src/mopsolver.c`.

Modelling conventions.

* The backing array `struct Node **maze` is a list of slots; a slot is `none`
  while it is uninitialised and `some node` once `createMaze` has stored a
  node in it.  The length of the list is the allocated capacity.
* A pointer to a node is the index of the slot holding it (`NULL` is `none`);
  `createMaze` allocates a fresh node for every store, so distinct slots hold
  distinct nodes.
* C `int` values are integers. In `createMaze`, whose counters and capacity
  grow with the input, every `int` operation is checked against the range of
  a 32-bit `int` and an overflow leaves the function without a result. The
  other functions compute indices on a grid that `createMaze` has built, all
  of them bounded by the number of its cells.
* The input stream is the list of the bytes of the file, each given as the
  character with that code. `createMaze` stores the result of `fgetc` in a
  `char`, which is signed, before comparing it with `EOF`, so its loop ends at
  the end of the file or at the first byte 0xFF.
* Allocations are taken to succeed.
* A result of `none` means that the C program has no defined result on that
  input: an access outside the allocation, a read through an uninitialised
  pointer, a store outside `child[3]`, a division by zero, an `int` overflow
  in `createMaze`, or (for the two functions that loop or recurse without a
  structural bound) exhausted fuel.
-/

namespace Mopsolver

/-- Struct representing a cell of the grid (`struct Node`). -/
structure Node where
  visit : Bool
  c : Char
  x : Int
  y : Int
  i : Int
  child : List (Option Int)
  parent : Option Int
deriving DecidableEq

/-- The array of node pointers, one slot per allocated element. -/
abbrev Maze := List (Option Node)

/-- Read through `maze[k]`: the node the slot points to. -/
def getNode (maze : Maze) (k : Int) : Option Node :=
  if 0 ≤ k then maze.getD k.toNat none else none

/-- Write the fields of the node that `maze[k]` points to. -/
def setNode (maze : Maze) (k : Int) (n : Node) : Maze :=
  maze.set k.toNat (some n)

/-- The assignment `(*maze)[k] = node` into the allocation. -/
def storeNode (maze : Maze) (k : Int) (n : Node) : Option Maze :=
  if 0 ≤ k ∧ k.toNat < maze.length then some (maze.set k.toNat (some n)) else none

/-- The call `realloc(*maze, len * sizeof(struct Node *))`: the old slots keep
their content and the new ones are uninitialised. -/
def reallocMaze (maze : Maze) (len : Int) : Maze :=
  maze ++ List.replicate (len.toNat - maze.length) none

/-- Local variables of `createMaze` together with `*row`, `*col`, `*maze`. -/
structure BuildState where
  newLine : Bool
  row : Int
  col : Int
  i : Int
  len : Int
  maze : Maze
deriving DecidableEq

/-- The largest value of the type `int` (32 bits). -/
def INT_MAX : Int := 2147483647

/-- The smallest value of the type `int` (32 bits). -/
def INT_MIN : Int := -2147483648

/-- The value `v` is representable in the type `int`. An `int` operation whose
result is not representable is undefined. -/
def inInt (v : Int) : Bool := decide (INT_MIN ≤ v) && decide (v ≤ INT_MAX)

/-- One iteration of the reading loop of `createMaze` on the character `c`.
The variables `*row`, `*col`, `i` and `len` have type `int`: the iteration is
undefined when the result of one of its `int` operations is not representable
(the increments of `*row`, `*col` and `i`, the index expressions, `len *= 4`,
`i %= *col`). The allocations are taken to succeed. -/
def createMazeStep (s : BuildState) (c : Char) : Option BuildState :=
  if c = '\n' then
    some { s with newLine := true }
  else if c = '0' ∨ c = '1' then
    let row := if s.newLine then s.row + 1 else s.row
    let col := if row = 1 then s.col + 1 else s.col
    let grow : Bool := decide ((row - 1) * col + s.i + 1 ≥ s.len)
    let len := if grow then s.len * 4 else s.len
    let maze := if grow then reallocMaze s.maze len else s.maze
    if row ≠ 1 ∧ col = 0 then none
    else
      let i := if row ≠ 1 then Int.tmod s.i col else s.i
      if inInt row && inInt col && inInt (row - 1) && inInt ((row - 1) * col) &&
          inInt ((row - 1) * col + s.i) && inInt ((row - 1) * col + s.i + 1) &&
          inInt len && !(decide (row ≠ 1) && decide (s.i = INT_MIN) && decide (col = -1)) &&
          inInt (col - 1) && inInt ((row - 1) * col + i) && inInt (i + 1) then
        let node : Node :=
          { visit := false, c := c, x := if row = 1 then col - 1 else i, y := row - 1,
            i := 0, child := [none, none, none], parent := none }
        match storeNode maze ((row - 1) * col + i) node with
        | none => none
        | some maze1 =>
          some { newLine := false, row := row, col := col, i := i + 1, len := len,
                 maze := maze1 }
      else none
  else
    some s

/-- The reading loop `while ((c = fgetc(inFile)) != EOF)` of `createMaze` over
the remaining bytes of the file, each given as the character with that code.
The result of `fgetc` is stored in `char c` before it is compared with `EOF`:
`char` being signed, the byte 0xFF becomes -1, which is `EOF`, so the loop
ends at the end of the file or at the first byte 0xFF. -/
def createMazeLoop (s : BuildState) : List Char → Option BuildState
  | [] => some s
  | c :: cs =>
    if c.toNat = 255 then some s
    else
      match createMazeStep s c with
      | none => none
      | some s1 => createMazeLoop s1 cs

/-- Create the maze from the input; returns the final `*row`, `*col`, `*maze`. -/
def createMaze (inFile : List Char) (row col : Int) : Option (Int × Int × Maze) :=
  match createMazeLoop
      { newLine := true, row := row, col := col, i := 0, len := 25,
        maze := List.replicate 25 none } inFile with
  | none => none
  | some s => some (s.row, s.col, s.maze)

/-- One neighbour block of `solve`: the test on `neighbor = maze[ni]` and, when
it passes, the adoption of the neighbour by `curr = maze[ci]` and its
enqueueing behind `tail`. -/
def visitNeighbor (maze : Maze) (queue : List Int) (ci ni : Int) :
    Option (Maze × List Int) :=
  match getNode maze ci, getNode maze ni with
  | some curr, some neighbor =>
    if neighbor.c = '0' ∧ curr.parent ≠ some ni ∧ neighbor.visit = false then
      if 0 ≤ curr.i ∧ curr.i < 3 then
        let maze1 := setNode maze ci
          { curr with child := curr.child.set curr.i.toNat (some ni), i := curr.i + 1 }
        match getNode maze1 ni with
        | none => none
        | some nb =>
          some (setNode maze1 ni { nb with parent := some ci, visit := true }, queue ++ [ni])
      else none
    else some (maze, queue)
  | _, _ => none

/-- A neighbour block together with its bounds guard. -/
def guardedVisit (inBounds : Bool) (st : Maze × List Int) (ci ni : Int) :
    Option (Maze × List Int) :=
  if inBounds then visitNeighbor st.1 st.2 ci ni else some st

/-- The four neighbour blocks of `solve` for the queue head `hd`, whose node
has coordinates `x`, `y`: west, north, east, south. -/
def expand (row col : Int) (maze : Maze) (queue : List Int) (hd x y : Int) :
    Option (Maze × List Int) :=
  let i := y * col + x
  match guardedVisit (decide (x - 1 ≥ 0)) (maze, queue) hd (i - 1) with
  | none => none
  | some s1 =>
    match guardedVisit (decide (y - 1 ≥ 0)) s1 hd (i - col) with
    | none => none
    | some s2 =>
      match guardedVisit (decide (x + 1 < col)) s2 hd (i + 1) with
      | none => none
      | some s3 => guardedVisit (decide (y + 1 < row)) s3 hd (i + col)

/-- Solve the maze if possible: `queue` is the list from `head` to `tail`.
The fuel bounds the number of (recursive) calls. -/
def solve : Nat → Int → Int → Maze → List Int → Option (Bool × Maze)
  | 0, _, _, _, _ => none
  | fuel + 1, row, col, maze, queue =>
    match queue with
    | [] => some (false, maze)
    | hd :: _ =>
      match getNode maze hd with
      | none => none
      | some curr =>
        if curr.x = col - 1 ∧ curr.y = row - 1 then some (true, maze)
        else
          match expand row col maze queue hd curr.x curr.y with
          | none => none
          | some s => solve fuel row col s.1 s.2.tail

/-- The loop of `updateMaze`; `i` is the counter, the fuel bounds the number
of iterations. -/
def updateMazeLoop : Nat → Maze → Option Int → Int → Option (Int × Maze)
  | _, maze, none, i => some (i, maze)
  | 0, _, some _, _ => none
  | fuel + 1, maze, some k, i =>
    match getNode maze k with
    | none => none
    | some node => updateMazeLoop fuel (setNode maze k { node with c := '+' }) node.parent (i + 1)

/-- Update maze with solution path, starting from `node`; returns the counter. -/
def updateMaze (fuel : Nat) (maze : Maze) (node : Option Int) : Option (Int × Maze) :=
  updateMazeLoop fuel maze node 0

/-- The cells of one printed row: `maze[i * col + j]` for `j = 0 .. col - 1`. -/
def printRowCells (col : Int) (maze : Maze) (i : Int) : List Nat → Option String
  | [] => some ""
  | j :: js =>
    match getNode maze (i * col + j), printRowCells col maze i js with
    | some n, some rest =>
      some ((if n.c = '0' then ". " else if n.c = '1' then "# " else String.mk [n.c, ' ']) ++ rest)
    | _, _ => none

/-- The rows printed by `printMaze`, for the listed row numbers. -/
def printRows (row col : Int) (maze : Maze) : List Nat → Option String
  | [] => some ""
  | i :: is =>
    match printRowCells col maze i (List.range col.toNat), printRows row col maze is with
    | some cells, some rest =>
      some ((if (i : Int) = 0 then "  " else "| ") ++ cells
        ++ (if (i : Int) = row - 1 then " " else "|") ++ "\n" ++ rest)
    | _, _ => none

/-- The border line of `printMaze`. -/
def printBorder (col : Int) : String :=
  "|-" ++ String.join (List.replicate col.toNat "--") ++ "|\n"

/-- Pretty print maze: the text written to the output file. -/
def printMaze (row col : Int) (maze : Maze) : Option String :=
  match printRows row col maze (List.range row.toNat) with
  | none => none
  | some body => some (printBorder col ++ body ++ printBorder col)

/-- Free allocated memory: every one of the `size` pointers is passed to `free`. -/
def freeMem (size : Int) (maze : Maze) : Option Unit :=
  if (List.range size.toNat).all (fun k => (getNode maze k).isSome) then some () else none

/-- The solvability test of `main`: the wall check on entry and goal, then
`solve` on the queue holding index 0. -/
def solveSequence (fuel : Nat) (row col : Int) (maze : Maze) : Option (Bool × Maze) :=
  match getNode maze 0 with
  | none => none
  | some entry =>
    if entry.c ≠ '1' then
      match getNode maze (row * col - 1) with
      | none => none
      | some goal =>
        if goal.c ≠ '1' then solve fuel row col maze [0] else some (false, maze)
    else some (false, maze)

/-- The message `"Solution in %d steps.\n"`. -/
def solutionMessage (n : Int) : String :=
  "Solution in " ++ toString n ++ " steps.\n"

/-- The part of `main` guarded by `s || p`: returns the text written and the maze. -/
def solveAndReport (fuel : Nat) (s p : Bool) (row col : Int) (maze : Maze) :
    Option (String × Maze) :=
  match solveSequence fuel row col maze with
  | none => none
  | some (solveable, maze1) =>
    let out1 := if s && !solveable then "No solution.\n" else ""
    match (if s && solveable then
        (updateMaze fuel maze1 (some (row * col - 1))).map
          (fun r => (solutionMessage r.1, r.2))
      else some ("", maze1)) with
    | none => none
    | some (out2, maze2) =>
      if p then
        match printMaze row col maze2 with
        | none => none
        | some out3 => some (out1 ++ out2 ++ out3, maze2)
      else some (out1 ++ out2, maze2)

/-- The program after argument processing: flags `d`, `s`, `p` and the input
text; returns everything written to the output file. -/
def main (fuel : Nat) (d s p : Bool) (inFile : List Char) : Option String :=
  match createMaze inFile 0 0 with
  | none => none
  | some (row, col, maze) =>
    match (if d then printMaze row col maze else some "") with
    | none => none
    | some outD =>
      match (if s || p then solveAndReport fuel s p row col maze else some ("", maze)) with
      | none => none
      | some (outS, maze1) =>
        match freeMem (row * col) maze1 with
        | none => none
        | some _ => some (outD ++ outS)


/-! ## Reading the input text as lines (used to state the builder's contract) -/

/-- A character is one of the two maze digits. -/
def isBit (c : Char) : Bool := decide (c = '0') || decide (c = '1')

/-- The newline-delimited lines of a text. -/
def splitLines : List Char → List (List Char)
  | [] => [[]]
  | c :: cs =>
    if c = '\n' then [] :: splitLines cs
    else
      match splitLines cs with
      | [] => [[c]]
      | l :: ls => (c :: l) :: ls

/-- The lines of a text joined by newline characters. -/
def joinLines : List (List Char) → List Char
  | [] => []
  | [l] => l
  | l :: m :: ls => l ++ '\n' :: joinLines (m :: ls)

/-- The lines that contain at least one maze digit. -/
def digitLines (t : List Char) : List (List Char) :=
  (splitLines t).filter (fun l => l.any isBit)

/-- The maze digits of a line, in order. -/
def digitsOf (l : List Char) : List Char := l.filter isBit

/-- The node `createMaze` allocates for the digit `ch` at column `x`, row `y`. -/
def freshNode (ch : Char) (x y : Int) : Node :=
  { visit := false, c := ch, x := x, y := y, i := 0, child := [none, none, none],
    parent := none }

/-- The initial local state of `createMaze` for `*row = 0`, `*col = 0`. -/
def initBuild : BuildState :=
  { newLine := true, row := 0, col := 0, i := 0, len := 25, maze := List.replicate 25 none }

/-- The value of `*row` after the row increment of a digit iteration. -/
def stepRow (s : BuildState) : Int := if s.newLine then s.row + 1 else s.row

/-- The value of `*col` after the column increment of a digit iteration. -/
def stepCol (s : BuildState) : Int := if stepRow s = 1 then s.col + 1 else s.col

/-- Whether the digit iteration quadruples the capacity. -/
def stepGrow (s : BuildState) : Bool := decide ((stepRow s - 1) * stepCol s + s.i + 1 ≥ s.len)

/-- The capacity after the growth test of a digit iteration. -/
def stepLen (s : BuildState) : Int := if stepGrow s then s.len * 4 else s.len

/-- The array after the growth test of a digit iteration. -/
def stepMaze (s : BuildState) : Maze :=
  if stepGrow s then reallocMaze s.maze (stepLen s) else s.maze

/-- The column index `i` after `i %= *col` in a digit iteration. -/
def stepI (s : BuildState) : Int := if stepRow s ≠ 1 then Int.tmod s.i (stepCol s) else s.i

/-- The node allocated by a digit iteration. -/
def stepNode (s : BuildState) (c : Char) : Node :=
  { visit := false, c := c, x := if stepRow s = 1 then stepCol s - 1 else stepI s,
    y := stepRow s - 1, i := 0, child := [none, none, none], parent := none }

/-! ## The reading loop in the integers (used to reason about createMaze)

`createMazeStepZ`, `createMazeLoopZ` and `createMazeZ` are the iteration, the
iterations over a list of characters and the result of `createMaze` computed
in the integers: no limit of `int`, no character that ends the reading. They
agree with `createMazeStep`, `createMazeLoop` and `createMaze` on the bytes
before the first byte 0xFF whenever no `int` operation overflows. -/

/-- The characters the reading loop of `createMaze` processes: the bytes of
the file before the first byte 0xFF. -/
def readText (inFile : List Char) : List Char :=
  inFile.takeWhile (fun c => decide (c.toNat ≠ 255))

/-- Every `int` result of a digit iteration from the state `s` is representable. -/
def stepFits (s : BuildState) : Bool :=
  inInt (stepRow s) && inInt (stepCol s) && inInt (stepRow s - 1) &&
    inInt ((stepRow s - 1) * stepCol s) && inInt ((stepRow s - 1) * stepCol s + s.i) &&
    inInt ((stepRow s - 1) * stepCol s + s.i + 1) && inInt (stepLen s) &&
    !(decide (stepRow s ≠ 1) && decide (s.i = INT_MIN) && decide (stepCol s = -1)) &&
    inInt (stepCol s - 1) && inInt ((stepRow s - 1) * stepCol s + stepI s) &&
    inInt (stepI s + 1)

/-- One iteration of the reading loop computed in the integers. -/
def createMazeStepZ (s : BuildState) (c : Char) : Option BuildState :=
  if c = '\n' then
    some { s with newLine := true }
  else if c = '0' ∨ c = '1' then
    let row := if s.newLine then s.row + 1 else s.row
    let col := if row = 1 then s.col + 1 else s.col
    let grow : Bool := decide ((row - 1) * col + s.i + 1 ≥ s.len)
    let len := if grow then s.len * 4 else s.len
    let maze := if grow then reallocMaze s.maze len else s.maze
    if row ≠ 1 ∧ col = 0 then none
    else
      let i := if row ≠ 1 then Int.tmod s.i col else s.i
      let node : Node :=
        { visit := false, c := c, x := if row = 1 then col - 1 else i, y := row - 1,
          i := 0, child := [none, none, none], parent := none }
      match storeNode maze ((row - 1) * col + i) node with
      | none => none
      | some maze1 =>
        some { newLine := false, row := row, col := col, i := i + 1, len := len, maze := maze1 }
  else
    some s

/-- The iterations of the reading loop over the characters `cs`, computed in
the integers. -/
def createMazeLoopZ (s : BuildState) : List Char → Option BuildState
  | [] => some s
  | c :: cs =>
    match createMazeStepZ s c with
    | none => none
    | some s1 => createMazeLoopZ s1 cs

/-- The result of `createMaze` on the characters `cs`, computed in the integers. -/
def createMazeZ (cs : List Char) (row col : Int) : Option (Int × Int × Maze) :=
  match createMazeLoopZ
      { newLine := true, row := row, col := col, i := 0, len := 25,
        maze := List.replicate 25 none } cs with
  | none => none
  | some s => some (s.row, s.col, s.maze)

/-- The number of lines of the text `t` that contain a maze digit. -/
def textRows (t : List Char) : Nat := (digitLines t).length

/-- The number of maze digits in the first line of `t` that contains one. -/
def textCols (t : List Char) : Nat := ((digitLines t).head?.map (List.countP isBit)).getD 0

/-- The capacity arithmetic of `createMaze` stays within `int` on the text
`t`: four times the number of slots `rows * cols` of its grid, plus four, is
representable. -/
def FitsInt (t : List Char) : Prop :=
  4 * (((textRows t : Nat) : Int) * ((textCols t : Nat) : Int) + 1) ≤ INT_MAX

instance (t : List Char) : Decidable (FitsInt t) := by
  unfold FitsInt
  exact inferInstance

/-- The state invariant of the reading loop started from `initBuild`. -/
def BuildInv (s : BuildState) : Prop :=
  s.maze.length = s.len.toNat ∧ 25 ≤ s.len ∧
    ((s.row = 0 ∧ s.col = 0 ∧ s.i = 0 ∧ s.newLine = true) ∨
     (1 ≤ s.row ∧ 1 ≤ s.col ∧ 1 ≤ s.i ∧ s.i ≤ s.col ∧ (s.row = 1 → s.i = s.col) ∧
       (s.row - 1) * s.col + s.i < s.len ∧ s.col < s.len))

/-- The digit rows of a text: the maze digits of each digit-bearing line. -/
def digitRows (t : List Char) : List (List Char) :=
  (digitLines t).map digitsOf

/-- The text with every character other than the maze digits and the newline deleted. -/
def stripText (t : List Char) : List Char :=
  t.filter (fun c => decide (c = '\n') || isBit c)

/-- The reading loop run row by row: each row is read after a newline. -/
def buildRows (s : BuildState) : List (List Char) → Option BuildState
  | [] => some s
  | r :: rs =>
    match createMazeLoopZ { s with newLine := true } r with
    | none => none
    | some s1 => buildRows s1 rs

/-- The values `createMaze` hands back to `main`. -/
def buildResult (s : BuildState) : Int × Int × Maze := (s.row, s.col, s.maze)

/-- The state of the reading loop after `k` full rows of `c` digits and `j`
digits of the next row, `flat` being all digits stored so far. -/
def Filled (c : Nat) (flat : List Char) (k j : Nat) (s : BuildState) : Prop :=
  BuildInv s ∧ flat.length = k * c + j ∧ 1 ≤ j ∧ j ≤ c ∧ s.row = (k : Int) + 1 ∧
    s.i = (j : Int) ∧ s.col = (if k = 0 then (j : Int) else (c : Int)) ∧
    (∀ y x : Nat, ∀ ch : Char, x < c → flat[y * c + x]? = some ch →
      getNode s.maze ((y * c + x : Nat) : Int) = some (freshNode ch (x : Int) (y : Int))) ∧
    (∀ idx : Int, (flat.length : Int) ≤ idx → getNode s.maze idx = none)

/-- The state of the reading loop at a row boundary: nothing read yet, or `k`
full rows of `c` digits read. -/
def Boundary (c : Nat) (flat : List Char) (k : Nat) (s : BuildState) : Prop :=
  (k = 0 ∧ flat = [] ∧ s = initBuild) ∨ (1 ≤ k ∧ Filled c flat (k - 1) c s)

/-! ## The grid as a graph (used to state the solver's contract) -/

/-- The coordinates `(x, y)` lie inside a grid of `row` rows and `col` columns. -/
def InGrid (row col x y : Int) : Prop := 0 ≤ x ∧ x < col ∧ 0 ≤ y ∧ y < row

/-- The cell `q` is one step west, north, east or south of the cell `p`. -/
def StepAdj (p q : Int × Int) : Prop :=
  (q.1 = p.1 - 1 ∧ q.2 = p.2) ∨ (q.1 = p.1 ∧ q.2 = p.2 - 1) ∨
    (q.1 = p.1 + 1 ∧ q.2 = p.2) ∨ (q.1 = p.1 ∧ q.2 = p.2 + 1)

/-- The kind stored in the cell at flat index `k` (a blank when there is none). -/
def kindAt (maze : Maze) (k : Int) : Char :=
  match getNode maze k with
  | some n => n.c
  | none => ' '

/-- The visit flag of the cell at flat index `k`. -/
def visitAt (maze : Maze) (k : Int) : Bool :=
  match getNode maze k with
  | some n => n.visit
  | none => false

/-- The parent pointer of the cell at flat index `k`. -/
def parentAt (maze : Maze) (k : Int) : Option Int :=
  match getNode maze k with
  | some n => n.parent
  | none => none

/-- The child counter of the cell at flat index `k`. -/
def countAt (maze : Maze) (k : Int) : Int :=
  match getNode maze k with
  | some n => n.i
  | none => 0

/-- A rectangular grid: `row ≥ 1`, `col ≥ 1` and the slot at flat index
`y * col + x` holds a node with coordinates `(x, y)` and kind `0` or `1`. -/
def RectGrid (row col : Int) (maze : Maze) : Prop :=
  1 ≤ row ∧ 1 ≤ col ∧
    ∀ x y, InGrid row col x y → ∃ n, getNode maze (y * col + x) = some n ∧
      n.x = x ∧ n.y = y ∧ (n.c = '0' ∨ n.c = '1')

/-- A rectangular grid as `createMaze` leaves it: every visit flag is clear,
every parent is absent and every child counter is 0. -/
def FreshGrid (row col : Int) (maze : Maze) : Prop :=
  RectGrid row col maze ∧
    ∀ x y, InGrid row col x y →
      visitAt maze (y * col + x) = false ∧ parentAt maze (y * col + x) = none ∧
        countAt maze (y * col + x) = 0

/-- The cell at `(x, y)` is inside the grid and open. -/
def OpenCell (row col : Int) (maze : Maze) (p : Int × Int) : Prop :=
  InGrid row col p.1 p.2 ∧ kindAt maze (p.2 * col + p.1) = '0'

/-- A sequence of open cells in which consecutive cells differ by one step
west, north, east or south. -/
def IsPath (row col : Int) (maze : Maze) (ps : List (Int × Int)) : Prop :=
  (∀ p ∈ ps, OpenCell row col maze p) ∧ List.Chain' StepAdj ps

/-- A path from the entry `(0, 0)` to the goal `(col - 1, row - 1)`. -/
def IsSolution (row col : Int) (maze : Maze) (ps : List (Int × Int)) : Prop :=
  IsPath row col maze ps ∧ ps.head? = some (0, 0) ∧ ps.getLast? = some (col - 1, row - 1)

/-! ## Invariants of the breadth-first search -/

/-- The flat index `k` is the index of a cell of the grid. -/
def Cell (row col k : Int) : Prop := ∃ x y, InGrid row col x y ∧ k = y * col + x

/-- The cells at flat indices `k` and `j` are one step apart. -/
def Adj (row col k j : Int) : Prop :=
  ∃ x y x1 y1, InGrid row col x y ∧ InGrid row col x1 y1 ∧ k = y * col + x ∧
    j = y1 * col + x1 ∧ StepAdj (x, y) (x1, y1)

/-- The cell at `k` has been discovered: it is the entry or its visit flag is set. -/
def Disc (row col : Int) (maze : Maze) (k : Int) : Prop :=
  Cell row col k ∧ (k = 0 ∨ visitAt maze k = true)

/-- The in-grid neighbours of the cell at `(x, y)` in the order `solve`
examines them. -/
def nbrs (row col x y : Int) : List Int :=
  (if x - 1 ≥ 0 then [y * col + x - 1] else []) ++
    ((if y - 1 ≥ 0 then [y * col + x - col] else []) ++
      ((if x + 1 < col then [y * col + x + 1] else []) ++
        (if y + 1 < row then [y * col + x + col] else [])))

/-- The number of cells of the grid whose visit flag is clear. -/
def unvisited (row col : Int) (maze : Maze) : Nat :=
  ((Finset.Ico (0 : Int) (row * col)).filter (fun k => visitAt maze k = false)).card

/-- The part of the search invariant that holds at every point of `solve`;
`m0` is the grid before the search, `d` the depth of the discovered cells and
`q` the queue. -/
structure Core (row col : Int) (m0 maze : Maze) (d : Int → Nat) (q : List Int) : Prop where
  rows_pos : 1 ≤ row
  cols_pos : 1 ≤ col
  nodes : ∀ x y, InGrid row col x y → ∃ n, getNode maze (y * col + x) = some n ∧
    n.x = x ∧ n.y = y ∧ (n.c = '0' ∨ n.c = '1')
  kinds : ∀ k, Cell row col k → kindAt maze k = kindAt m0 k
  entry_visit : visitAt maze 0 = false
  entry_parent : parentAt maze 0 = none
  disc_open : ∀ k, Disc row col maze k → kindAt maze k = '0'
  disc_parent : ∀ k, Disc row col maze k → k ≠ 0 →
    ∃ p, parentAt maze k = some p ∧ Disc row col maze p ∧ Adj row col p k ∧ d k = d p + 1
  undisc_parent : ∀ k, Cell row col k → ¬ Disc row col maze k → parentAt maze k = none
  d_entry : d 0 = 0
  lip : ∀ k j, Disc row col maze k → Disc row col maze j → Adj row col k j → d j ≤ d k + 1
  queue_disc : ∀ k ∈ q, Disc row col maze k
  queue_nodup : q.Nodup
  sorted : q.Pairwise (fun a b => d a ≤ d b)
  near : ∀ h, q.head? = some h → ∀ k, Disc row col maze k → d k ≤ d h + 1
  entry_nbr : ∀ k, Disc row col maze k → Adj row col 0 k → parentAt maze k = some 0
  goal_queued : ∀ k, Disc row col maze k → k ∉ q → k ≠ (row - 1) * col + (col - 1)

/-- The search invariant between two calls of `solve`. -/
structure Between (row col : Int) (m0 maze : Maze) (d : Int → Nat) (q : List Int) : Prop where
  core : Core row col m0 maze d q
  closed : ∀ k j, Disc row col maze k → Adj row col k j → kindAt maze j = '0' →
    Disc row col maze j ∨ k ∈ q
  counts : ∀ k, Cell row col k → (k ∈ q ∨ ¬ Disc row col maze k) → countAt maze k = 0

/-- The search invariant while the head `h` of the queue `h :: t` is being
expanded; `pend` lists the neighbours of `h` still to be examined. -/
structure Mid (row col : Int) (m0 maze : Maze) (d : Int → Nat) (h : Int) (t : List Int)
    (pend : List Int) : Prop where
  core : Core row col m0 maze d (h :: t)
  closed : ∀ k j, Disc row col maze k → Adj row col k j → kindAt maze j = '0' →
    Disc row col maze j ∨ k ∈ t ∨ (k = h ∧ j ∈ pend)
  counts : ∀ k, Cell row col k → (k ∈ t ∨ ¬ Disc row col maze k) → countAt maze k = 0
  head_count : 0 ≤ countAt maze h ∧
    countAt maze h + ((pend.filter (fun k => decide (parentAt maze h ≠ some k))).length : Int) ≤ 3

/-- The effect of one adoption on the array: `maze1` is `maze` after the cell
at `h` has adopted the cell at `ni`. -/
structure Adopted (maze maze1 : Maze) (h ni : Int) : Prop where
  kind : ∀ k, kindAt maze1 k = kindAt maze k
  visit : ∀ k, visitAt maze1 k = if k = ni then true else visitAt maze k
  parent : ∀ k, parentAt maze1 k = if k = ni then some h else parentAt maze k
  count : ∀ k, countAt maze1 k = if k = h then countAt maze h + 1 else countAt maze k
  coords : ∀ k n, getNode maze k = some n →
    ∃ n1, getNode maze1 k = some n1 ∧ n1.x = n.x ∧ n1.y = n.y ∧ n1.c = n.c

/-- The flat index of the cell with coordinates `p = (x, y)`. -/
def idxOf (col : Int) (p : Int × Int) : Int := p.2 * col + p.1

/-- The cells reached from `k` by following the parent pointers are `ks`, in
this order, the last of them having no parent. -/
def ParentChain (maze : Maze) : Int → List Int → Prop
  | k, [] => (getNode maze k).isSome ∧ parentAt maze k = none
  | k, p :: rest => (getNode maze k).isSome ∧ parentAt maze k = some p ∧ ParentChain maze p rest

/-- The node `n` with its kind replaced by the path marker. -/
def markNode (n : Node) : Node := { n with c := '+' }

/-- What holds once the solve sequence has answered 1 on the grid `maze`,
leaving the array `maze1`: `ps` is the recorded path from the entry to the
goal, `ks` the flat indices of its cells from the goal back to the entry, `n`
the number of its cells and `maze2` the array after `updateMaze`. -/
structure Solved (row col : Int) (maze maze1 : Maze) (n : Nat) (ps : List (Int × Int))
    (ks : List Int) (maze2 : Maze) : Prop where
  solution : IsSolution row col maze ps
  nodup : ps.Nodup
  length : ps.length = n
  cells : ps.map (idxOf col) = ks.reverse
  shortest : ∀ qs, IsSolution row col maze qs → n ≤ qs.length
  bound : n ≤ (row * col).toNat
  chain : ∃ L, ks = (row * col - 1) :: L ∧ ParentChain maze1 (row * col - 1) L
  update : ∀ fuel2, n ≤ fuel2 →
    updateMaze fuel2 maze1 (some (row * col - 1)) = some ((n : Int), maze2)
  marked : ∀ j, getNode maze2 j =
    if j ∈ ks then (getNode maze1 j).map markNode else getNode maze1 j
  kinds : ∀ x y, InGrid row col x y →
    kindAt maze1 (y * col + x) = kindAt maze (y * col + x)
  chain_open : ∀ j ∈ ks, Cell row col j ∧ kindAt maze1 j = '0'

/-- A decidable test for `FreshGrid`, used to check concrete grids. -/
def checkFresh (row col : Int) (maze : Maze) : Bool :=
  decide (1 ≤ row) && decide (1 ≤ col) &&
    (List.range row.toNat).all (fun y => (List.range col.toNat).all (fun x =>
      match getNode maze ((y : Int) * col + (x : Int)) with
      | some n =>
        decide (n.x = (x : Int)) && decide (n.y = (y : Int)) &&
          (decide (n.c = '0') || decide (n.c = '1')) && !n.visit &&
          decide (n.parent = none) && decide (n.i = 0)
      | none => false))

/-- The 2 by 2 grid without walls, as `createMaze` builds it from `"00\n00"`. -/
def grid22 : Maze :=
  [some (freshNode '0' 0 0), some (freshNode '0' 1 0), some (freshNode '0' 0 1),
   some (freshNode '0' 1 1)]

/-- The array `solve` leaves for `grid22`. -/
def solved22 : Maze :=
  match solveSequence 5 2 2 grid22 with
  | some r => r.2
  | none => []

/-- The 3 by 2 grid `"00\n11\n00"` whose middle row is a row of walls. -/
def grid32 : Maze :=
  [some (freshNode '0' 0 0), some (freshNode '0' 1 0), some (freshNode '1' 0 1),
   some (freshNode '1' 1 1), some (freshNode '0' 0 2), some (freshNode '0' 1 2)]

/-- The 2 by 1 grid `"0\n1"` whose goal is a wall. -/
def grid21 : Maze := [some (freshNode '0' 0 0), some (freshNode '1' 0 1)]

/-- The array `createMaze` builds from the input `"00\n00"`. -/
def built22 : Maze :=
  match createMaze ['0', '0', '\n', '0', '0'] 0 0 with
  | some r => r.2.2
  | none => []

/-- The array `solve` leaves for `built22`. -/
def searched22 : Maze :=
  match solveSequence 5 2 2 built22 with
  | some r => r.2
  | none => []

/-- The array `updateMaze` leaves for `searched22`. -/
def marked22 : Maze :=
  match updateMaze 5 searched22 (some 3) with
  | some r => r.2
  | none => []

/-! ## The layout of the printed maze (used to state the contract of printMaze) -/

/-- The glyph printed for a cell kind: `.` for `0`, `#` for `1`, `+` for `+`. -/
def glyph (kind : Char) : Char :=
  if kind = '0' then '.' else if kind = '1' then '#' else '+'

/-- The border line: `|-`, then `cols` copies of `--`, then `|`. -/
def borderLine (cols : Nat) : List Char :=
  ['|', '-'] ++ ((List.replicate cols ['-', '-']).flatten ++ ['|'])

/-- The cells of row `y`: for `x = 0 .. cols - 1` the glyph of the cell at
flat index `y * cols + x` followed by a space. -/
def cellsLine (cols : Nat) (maze : Maze) (y : Nat) : List Char :=
  ((List.range cols).map
    (fun x : Nat => [glyph (kindAt maze ((y : Int) * (cols : Int) + (x : Int))), ' '])).flatten

/-- The line printed for row `y`: the cells between the frame pieces. -/
def rowLine (rows cols : Nat) (maze : Maze) (y : Nat) : List Char :=
  (if y = 0 then [' ', ' '] else ['|', ' ']) ++
    (cellsLine cols maze y ++ (if y + 1 = rows then [' '] else ['|']))

/-- The lines of the printed maze: border, one line per row, border. -/
def mazeLines (rows cols : Nat) (maze : Maze) : List (List Char) :=
  borderLine cols :: ((List.range rows).map (rowLine rows cols maze) ++ [borderLine cols])

/-- A text made of the given lines, each ended by a newline. -/
def unlines (ls : List (List Char)) : List Char :=
  (ls.map (fun l => l ++ ['\n'])).flatten

/-! ## The history of a run of solve -/

/-- The adoptions made by a run of `solve`, in order.  The pair `(ni, hd)`
stands for one passage through the body of a neighbour block with
`neighbor = maze[ni]` and `curr = maze[hd]`: the store into `curr->child`, the
assignment `neighbor->parent = curr`, the appending of `ni` to the queue and
the setting of `neighbor->visit`.  The indices appended while `hd` is expanded
are those the queue has gained when the four blocks are done. -/
def solveAdopted : Nat → Int → Int → Maze → List Int → Option (List (Int × Int))
  | 0, _, _, _, _ => none
  | fuel + 1, row, col, maze, queue =>
    match queue with
    | [] => some []
    | hd :: _ =>
      match getNode maze hd with
      | none => none
      | some curr =>
        if curr.x = col - 1 ∧ curr.y = row - 1 then some []
        else
          match expand row col maze queue hd curr.x curr.y with
          | none => none
          | some s =>
            match solveAdopted fuel row col s.1 s.2.tail with
            | none => none
            | some r => some ((s.2.drop queue.length).map (fun ni => (ni, hd)) ++ r)

/-- The indices placed in the queue over a run seeded with index 0: the seed,
then the adopted cells in the order of their adoption. -/
def enqueued (adopted : List (Int × Int)) : List Int := 0 :: adopted.map Prod.fst

/-- The number of children the cell at `k` adopts in a run. -/
def childrenOf (adopted : List (Int × Int)) (k : Int) : Nat :=
  (adopted.filter (fun a => decide (a.2 = k))).length

/-- The relation between the array `maze` at the start of the expansion of the
queue head `h` and the array `maze1` after some of its neighbour blocks, `new`
being the cells adopted in between. -/
structure Grown (row col : Int) (maze maze1 : Maze) (h : Int) (new : List Int) : Prop where
  nodup : new.Nodup
  fresh : ∀ k ∈ new, Adj row col h k ∧ ¬ Disc row col maze k ∧ parentAt maze k = none
  disc : ∀ k, Disc row col maze1 k ↔ (Disc row col maze k ∨ k ∈ new)
  parent : ∀ k, parentAt maze1 k = if k ∈ new then some h else parentAt maze k
  count_head : countAt maze1 h = countAt maze h + (new.length : Int)
  count_other : ∀ k, k ≠ h → countAt maze1 k = countAt maze k

/-- The relation between the array `maze` at a call of `solve` with queue `q`
and the array `maze1` the run returns, `adopted` being the adoptions made. -/
structure Ran (row col : Int) (maze maze1 : Maze) (q : List Int)
    (adopted : List (Int × Int)) : Prop where
  nodup : (adopted.map Prod.fst).Nodup
  fresh : ∀ a ∈ adopted, Cell row col a.1 ∧ ¬ Disc row col maze a.1 ∧
    parentAt maze a.1 = none ∧ parentAt maze1 a.1 = some a.2 ∧ Adj row col a.2 a.1
  disc : ∀ k, Disc row col maze1 k ↔ (Disc row col maze k ∨ k ∈ adopted.map Prod.fst)
  stable : ∀ k, Disc row col maze k → parentAt maze1 k = parentAt maze k
  order : ∀ a ∈ adopted, List.Sublist [a.2, a.1] (q ++ adopted.map Prod.fst)
  counts : ∀ k, countAt maze1 k = countAt maze k + (childrenOf adopted k : Int)
  children_le : ∀ k, childrenOf adopted k ≤ 3

/-! ## Theorems -/

/-! ## Memory lemmas -/

theorem getNode_neg (maze : Maze) (k : Int) (h : k < 0) : getNode maze k = none := by
  unfold getNode
  rw [if_neg (by omega)]

theorem getNode_some_bounds {maze : Maze} {k : Int} {n : Node} (h : getNode maze k = some n) :
    0 ≤ k ∧ k.toNat < maze.length := by
  unfold getNode at h
  by_cases hk : 0 ≤ k
  · rw [if_pos hk] at h
    refine ⟨hk, ?_⟩
    by_contra hlt
    rw [List.getD_eq_default _ _ (by omega)] at h
    cases h
  · rw [if_neg hk] at h
    cases h

theorem getNode_setNode_same {maze : Maze} {k : Int} {n0 : Node} (n : Node)
    (h : getNode maze k = some n0) : getNode (setNode maze k n) k = some n := by
  obtain ⟨hk, hlt⟩ := getNode_some_bounds h
  unfold getNode setNode
  rw [if_pos hk]
  simp [List.getD_eq_getElem?_getD, List.getElem?_set, hlt]

theorem getNode_setNode_other (maze : Maze) {k j : Int} (n : Node) (hk : 0 ≤ k)
    (hne : j ≠ k) : getNode (setNode maze k n) j = getNode maze j := by
  unfold getNode setNode
  by_cases hj : 0 ≤ j
  · rw [if_pos hj, if_pos hj]
    have : k.toNat ≠ j.toNat := by omega
    simp [List.getD_eq_getElem?_getD, List.getElem?_set, this]
  · rw [if_neg hj, if_neg hj]


/-! ## The reading loop in the integers: single steps -/

theorem isBit_iff (c : Char) : isBit c = true ↔ (c = '0' ∨ c = '1') := by
  simp [isBit]

theorem isBit_newline : isBit '\n' = false := by decide

theorem createMazeStepZ_newline (s : BuildState) :
    createMazeStepZ s '\n' = some { s with newLine := true } := by
  simp [createMazeStepZ]

theorem createMazeStepZ_other (s : BuildState) (c : Char) (h1 : c ≠ '\n')
    (h2 : isBit c = false) : createMazeStepZ s c = some s := by
  have h3 : ¬ (c = '0' ∨ c = '1') := by
    intro h
    rw [← isBit_iff, h2] at h
    cases h
  simp [createMazeStepZ, h1, h3]

theorem createMazeLoopZ_append (s : BuildState) (a b : List Char) :
    createMazeLoopZ s (a ++ b) = (createMazeLoopZ s a).bind (fun s1 => createMazeLoopZ s1 b) := by
  induction a generalizing s with
  | nil => rfl
  | cons c cs ih =>
    simp only [List.cons_append, createMazeLoopZ]
    cases createMazeStepZ s c with
    | none => rfl
    | some s1 => exact ih s1

/-- The digit branch of `createMazeStepZ`, with its intermediate values named. -/
theorem createMazeStepZ_digit (s : BuildState) {c : Char} (hc : isBit c = true) :
    createMazeStepZ s c =
      if stepRow s ≠ 1 ∧ stepCol s = 0 then none
      else
        match storeNode (stepMaze s) ((stepRow s - 1) * stepCol s + stepI s) (stepNode s c) with
        | none => none
        | some maze1 =>
          some { newLine := false, row := stepRow s, col := stepCol s, i := stepI s + 1,
                 len := stepLen s, maze := maze1 } := by
  have hc2 : c = '0' ∨ c = '1' := (isBit_iff c).1 hc
  have hn : c ≠ '\n' := by
    rcases hc2 with h0 | h0 <;> rw [h0] <;> decide
  simp only [createMazeStepZ, if_neg hn, if_pos hc2]
  rfl

/-- The row, column and flag fields after a digit has been read. -/
theorem createMazeStepZ_digit_fields {s s1 : BuildState} {c : Char} (hc : isBit c = true)
    (h : createMazeStepZ s c = some s1) :
    s1.newLine = false ∧ s1.row = stepRow s ∧ s1.col = stepCol s ∧ s1.i = stepI s + 1 ∧
      s1.len = stepLen s ∧
      storeNode (stepMaze s) ((stepRow s - 1) * stepCol s + stepI s) (stepNode s c)
        = some s1.maze := by
  rw [createMazeStepZ_digit s hc] at h
  by_cases hz : stepRow s ≠ 1 ∧ stepCol s = 0
  · rw [if_pos hz] at h
    cases h
  · rw [if_neg hz] at h
    cases hst : storeNode (stepMaze s) ((stepRow s - 1) * stepCol s + stepI s) (stepNode s c) with
    | none =>
      rw [hst] at h
      cases h
    | some m =>
      rw [hst] at h
      injection h with h
      subst h
      exact ⟨rfl, rfl, rfl, rfl, rfl, rfl⟩

theorem buildInv_init : BuildInv initBuild := by
  refine ⟨by simp [initBuild], by simp [initBuild], Or.inl ⟨rfl, rfl, rfl, rfl⟩⟩

theorem length_reallocMaze (maze : Maze) (len : Int) (h : maze.length ≤ len.toNat) :
    (reallocMaze maze len).length = len.toNat := by
  simp [reallocMaze]
  omega

theorem tmod_wrap {i col : Int} (h1 : 1 ≤ i) (h2 : i ≤ col) :
    Int.tmod i col = if i = col then 0 else i := by
  rw [Int.tmod_eq_emod (by omega) (by omega)]
  by_cases h : i = col
  · rw [if_pos h, h, Int.emod_self]
  · rw [if_neg h]
    exact Int.emod_eq_of_lt (by omega) (by omega)

theorem storeNode_some (maze : Maze) (k : Int) (n : Node) (h0 : 0 ≤ k)
    (h1 : k.toNat < maze.length) : storeNode maze k n = some (maze.set k.toNat (some n)) := by
  unfold storeNode
  rw [if_pos ⟨h0, h1⟩]

theorem length_of_storeNode {maze maze1 : Maze} {k : Int} {n : Node}
    (h : storeNode maze k n = some maze1) : maze1.length = maze.length := by
  unfold storeNode at h
  split at h
  · injection h with h
    subst h
    simp
  · cases h

theorem length_stepMaze (s : BuildState) (h1 : s.maze.length = s.len.toNat) (h2 : 0 ≤ s.len) :
    (stepMaze s).length = (stepLen s).toNat := by
  unfold stepMaze stepLen
  cases stepGrow s with
  | false => simpa using h1
  | true =>
    simp only [if_true]
    apply length_reallocMaze
    omega

/-- The bounds of the store of a digit iteration from a state satisfying the
invariant. -/
theorem step_digit_bounds {s : BuildState} (hinv : BuildInv s) :
    0 ≤ (stepRow s - 1) * stepCol s + stepI s ∧
      (stepRow s - 1) * stepCol s + stepI s + 1 < stepLen s ∧ 25 ≤ stepLen s ∧
      ¬ (stepRow s ≠ 1 ∧ stepCol s = 0) ∧ 1 ≤ stepRow s ∧ 1 ≤ stepCol s ∧ 0 ≤ stepI s ∧
      stepI s + 1 ≤ stepCol s ∧ (stepRow s = 1 → stepI s + 1 = stepCol s) ∧
      stepCol s < stepLen s := by
  obtain ⟨hlen, h25, hcase⟩ := hinv
  rcases hcase with ⟨hr, hcl, hi, hnl⟩ | ⟨hr, hcl, hi1, hi2, hrow1, hcap, hcol⟩
  · have e1 : stepRow s = 1 := by simp [stepRow, hnl, hr]
    have e2 : stepCol s = 1 := by simp [stepCol, e1, hcl]
    have e3 : stepI s = 0 := by simp [stepI, e1, hi]
    have e4 : stepGrow s = false := by
      simp only [stepGrow, e1, e2, hi, decide_eq_false_iff_not]
      omega
    have e5 : stepLen s = s.len := by simp [stepLen, e4]
    rw [e1, e2, e3, e5]
    omega
  · cases hnl : s.newLine with
    | true =>
      have e1 : stepRow s = s.row + 1 := by simp [stepRow, hnl]
      have e2 : stepCol s = s.col := by
        simp only [stepCol, e1]
        rw [if_neg (by omega)]
      have e3 : stepI s = if s.i = s.col then 0 else s.i := by
        simp only [stepI, e1, e2]
        rw [if_pos (by omega)]
        exact tmod_wrap hi1 hi2
      have hmul : (s.row + 1 - 1) * s.col = (s.row - 1) * s.col + s.col := by ring
      have hnn : 0 ≤ (s.row - 1) * s.col := mul_nonneg (by omega) (by omega)
      have e5 : (s.row + 1 - 1) * s.col + s.i + 1 < stepLen s ∧ 25 ≤ stepLen s ∧
          s.col < stepLen s := by
        unfold stepLen stepGrow
        rw [e1, e2]
        by_cases hg : (s.row + 1 - 1) * s.col + s.i + 1 ≥ s.len
        · simp only [hg, decide_True, if_true]
          omega
        · simp only [hg, decide_False]
          simp only [Bool.false_eq_true, if_false]
          omega
      rw [e1, e2, e3]
      split <;> omega
    | false =>
      have e1 : stepRow s = s.row := by simp [stepRow, hnl]
      by_cases hr1 : s.row = 1
      · have e2 : stepCol s = s.col + 1 := by
          simp only [stepCol, e1]
          rw [if_pos hr1]
        have e3 : stepI s = s.i := by
          simp only [stepI, e1]
          rw [if_neg (by omega)]
        have hmul : (s.row - 1) * (s.col + 1) = 0 := by rw [hr1]; ring
        have hi := hrow1 hr1
        have e5 : s.i + 1 < stepLen s ∧ 25 ≤ stepLen s ∧ s.col + 1 < stepLen s := by
          unfold stepLen stepGrow
          rw [e1, e2, hmul]
          by_cases hg : 0 + s.i + 1 ≥ s.len
          · simp only [hg, decide_True, if_true]
            omega
          · simp only [hg, decide_False]
            simp only [Bool.false_eq_true, if_false]
            omega
        rw [e1, e2, e3, hmul]
        omega
      · have e2 : stepCol s = s.col := by
          simp only [stepCol, e1]
          rw [if_neg hr1]
        have e3 : stepI s = if s.i = s.col then 0 else s.i := by
          simp only [stepI, e1, e2]
          rw [if_pos hr1]
          exact tmod_wrap hi1 hi2
        have hnn : 0 ≤ (s.row - 1) * s.col := mul_nonneg (by omega) (by omega)
        have e5 : (s.row - 1) * s.col + s.i + 1 < stepLen s ∧ 25 ≤ stepLen s ∧
            s.col < stepLen s := by
          unfold stepLen stepGrow
          rw [e1, e2]
          by_cases hg : (s.row - 1) * s.col + s.i + 1 ≥ s.len
          · simp only [hg, decide_True, if_true]
            omega
          · simp only [hg, decide_False]
            simp only [Bool.false_eq_true, if_false]
            omega
        rw [e1, e2, e3]
        split <;> omega

/-- A digit iteration from a state satisfying the invariant stores inside the
allocation and re-establishes the invariant. -/
theorem buildInv_step_digit {s : BuildState} {c : Char} (hinv : BuildInv s)
    (hc : isBit c = true) : ∃ s1, createMazeStepZ s c = some s1 ∧ BuildInv s1 := by
  have key := step_digit_bounds hinv
  obtain ⟨hlen, h25, hcase⟩ := hinv
  have hml := length_stepMaze s hlen (by omega)
  obtain ⟨k0, k1, k25, kz, kr, kc, ki0, ki1, krow1, kcol⟩ := key
  have hst := storeNode_some (stepMaze s) ((stepRow s - 1) * stepCol s + stepI s)
    (stepNode s c) k0 (by rw [hml]; omega)
  refine ⟨BuildState.mk false (stepRow s) (stepCol s) (stepI s + 1) (stepLen s)
      ((stepMaze s).set ((stepRow s - 1) * stepCol s + stepI s).toNat (some (stepNode s c))),
      ?_, ?_⟩
  · rw [createMazeStepZ_digit s hc, if_neg kz, hst]
  · refine ⟨?_, k25, Or.inr ⟨kr, kc, ?_, ?_, ?_, ?_, kcol⟩⟩
    · simpa using hml
    · show 1 ≤ stepI s + 1
      omega
    · exact ki1
    · exact krow1
    · show (stepRow s - 1) * stepCol s + (stepI s + 1) < stepLen s
      omega

theorem buildInv_step {s : BuildState} (c : Char) (hinv : BuildInv s) :
    ∃ s1, createMazeStepZ s c = some s1 ∧ BuildInv s1 := by
  by_cases hn : c = '\n'
  · subst hn
    refine ⟨_, createMazeStepZ_newline s, ?_⟩
    obtain ⟨hlen, h25, hcase⟩ := hinv
    refine ⟨hlen, h25, ?_⟩
    rcases hcase with ⟨hr, hcl, hi, _⟩ | h
    · exact Or.inl ⟨hr, hcl, hi, rfl⟩
    · exact Or.inr h
  · cases hb : isBit c with
    | true => exact buildInv_step_digit hinv hb
    | false => exact ⟨s, createMazeStepZ_other s c hn hb, hinv⟩

/-- The reading loop is defined on every text: no store leaves the allocation. -/
theorem createMazeLoopZ_total {s : BuildState} (hinv : BuildInv s) (t : List Char) :
    ∃ s1, createMazeLoopZ s t = some s1 ∧ BuildInv s1 := by
  induction t generalizing s with
  | nil => exact ⟨s, rfl, hinv⟩
  | cons c cs ih =>
    obtain ⟨s1, h1, hinv1⟩ := buildInv_step c hinv
    obtain ⟨s2, h2, hinv2⟩ := ih hinv1
    exact ⟨s2, by simp only [createMazeLoopZ, h1, h2], hinv2⟩

/-! ## The reading loop in the integers: from characters to lines to digit rows -/

theorem createMazeZ_eq (t : List Char) :
    createMazeZ t 0 0 = (createMazeLoopZ initBuild t).map buildResult := by
  unfold createMazeZ
  show (match createMazeLoopZ initBuild t with
    | none => none
    | some s => some (s.row, s.col, s.maze)) = _
  cases createMazeLoopZ initBuild t <;> rfl

theorem createMazeLoopZ_stripText (s : BuildState) (t : List Char) :
    createMazeLoopZ s (stripText t) = createMazeLoopZ s t := by
  induction t generalizing s with
  | nil => rfl
  | cons c cs ih =>
    by_cases hn : c = '\n'
    · subst hn
      have : stripText ('\n' :: cs) = '\n' :: stripText cs := by simp [stripText]
      rw [this]
      simp only [createMazeLoopZ, createMazeStepZ_newline]
      exact ih _
    · cases hb : isBit c with
      | true =>
        have : stripText (c :: cs) = c :: stripText cs := by simp [stripText, hb]
        rw [this]
        simp only [createMazeLoopZ]
        cases createMazeStepZ s c with
        | none => rfl
        | some s1 => exact ih s1
      | false =>
        have : stripText (c :: cs) = stripText cs := by simp [stripText, hb, hn]
        rw [this]
        simp only [createMazeLoopZ, createMazeStepZ_other s c hn hb]
        exact ih s

theorem createMazeLoopZ_digitsOf (s : BuildState) (l : List Char) (h : '\n' ∉ l) :
    createMazeLoopZ s (digitsOf l) = createMazeLoopZ s l := by
  induction l generalizing s with
  | nil => rfl
  | cons c cs ih =>
    have hn : c ≠ '\n' := fun e => h (by simp [e])
    have hcs : '\n' ∉ cs := fun e => h (by simp [e])
    cases hb : isBit c with
    | true =>
      have : digitsOf (c :: cs) = c :: digitsOf cs := by simp [digitsOf, hb]
      rw [this]
      simp only [createMazeLoopZ]
      cases createMazeStepZ s c with
      | none => rfl
      | some s1 => exact ih s1 hcs
    | false =>
      have : digitsOf (c :: cs) = digitsOf cs := by simp [digitsOf, hb]
      rw [this]
      simp only [createMazeLoopZ, createMazeStepZ_other s c hn hb]
      exact ih s hcs

theorem splitLines_ne_nil (t : List Char) : splitLines t ≠ [] := by
  cases t with
  | nil => simp [splitLines]
  | cons c cs =>
    unfold splitLines
    split
    · simp
    · split <;> simp

theorem splitLines_cons_newline (cs : List Char) :
    splitLines ('\n' :: cs) = [] :: splitLines cs := by
  simp [splitLines]

theorem splitLines_cons_other {c : Char} (cs : List Char) (h : c ≠ '\n') :
    ∃ l ls, splitLines cs = l :: ls ∧ splitLines (c :: cs) = (c :: l) :: ls := by
  cases hs : splitLines cs with
  | nil => exact absurd hs (splitLines_ne_nil cs)
  | cons l ls =>
    refine ⟨l, ls, rfl, ?_⟩
    rw [splitLines, if_neg h, hs]

/-- The reading loop over a text is the loop over the digits of its first
line followed by the row-wise loop over the digits of the other lines. -/
theorem createMazeLoopZ_lines (s : BuildState) (t : List Char) :
    ∃ l ls, splitLines t = l :: ls ∧
      createMazeLoopZ s t =
        (createMazeLoopZ s (digitsOf l)).bind (fun s1 => buildRows s1 (ls.map digitsOf)) := by
  induction t generalizing s with
  | nil => exact ⟨[], [], rfl, rfl⟩
  | cons c cs ih =>
    by_cases hn : c = '\n'
    · subst hn
      obtain ⟨l, ls, hsp, hrun⟩ := ih { s with newLine := true }
      refine ⟨[], l :: ls, by rw [splitLines_cons_newline, hsp], ?_⟩
      simp only [createMazeLoopZ, createMazeStepZ_newline]
      rw [hrun]
      simp only [digitsOf, List.filter_nil, createMazeLoopZ, Option.some_bind, List.map_cons,
        buildRows]
      cases createMazeLoopZ { s with newLine := true } (List.filter isBit l) <;> rfl
    · obtain ⟨l, ls, hsp, hfull⟩ := splitLines_cons_other cs hn
      refine ⟨c :: l, ls, hfull, ?_⟩
      cases hb : isBit c with
      | true =>
        have : digitsOf (c :: l) = c :: digitsOf l := by simp [digitsOf, hb]
        rw [this]
        simp only [createMazeLoopZ]
        cases createMazeStepZ s c with
        | none => rfl
        | some s1 =>
          obtain ⟨l2, ls2, hsp2, hrun⟩ := ih s1
          rw [hsp] at hsp2
          injection hsp2 with e1 e2
          subst e1 e2
          exact hrun
      | false =>
        have : digitsOf (c :: l) = digitsOf l := by simp [digitsOf, hb]
        rw [this]
        simp only [createMazeLoopZ, createMazeStepZ_other s c hn hb]
        obtain ⟨l2, ls2, hsp2, hrun⟩ := ih s
        rw [hsp] at hsp2
        injection hsp2 with e1 e2
        subst e1 e2
        exact hrun

theorem buildRows_flag (s : BuildState) (b : Bool) (rows : List (List Char)) :
    (buildRows { s with newLine := b } rows).map buildResult
      = (buildRows s rows).map buildResult := by
  cases rows with
  | nil => rfl
  | cons r rs => rfl

theorem buildRows_filter (s : BuildState) (rows : List (List Char)) :
    (buildRows s (rows.filter (fun r => !r.isEmpty))).map buildResult
      = (buildRows s rows).map buildResult := by
  induction rows generalizing s with
  | nil => rfl
  | cons r rs ih =>
    cases r with
    | nil =>
      simp only [List.isEmpty_nil, Bool.not_true, Bool.false_eq_true, not_false_eq_true,
        List.filter_cons_of_neg, buildRows, createMazeLoopZ]
      rw [ih]
      exact (buildRows_flag s true rs).symm
    | cons d ds =>
      simp only [List.isEmpty_cons, Bool.not_false, List.filter_cons_of_pos, buildRows]
      cases createMazeLoopZ { s with newLine := true } (d :: ds) with
      | none => rfl
      | some s1 => exact ih s1

theorem digitsOf_isEmpty (l : List Char) : (digitsOf l).isEmpty = !l.any isBit := by
  induction l with
  | nil => rfl
  | cons c cs ih =>
    cases hb : isBit c <;> simp [digitsOf, hb] at ih ⊢
    exact ih

theorem digitRows_eq (t : List Char) :
    digitRows t = ((splitLines t).map digitsOf).filter (fun r => !r.isEmpty) := by
  unfold digitRows digitLines
  rw [List.filter_map]
  congr 1
  apply List.filter_congr
  intro l _
  simp [digitsOf_isEmpty]

/-- The result of `createMazeZ` is the result of reading the digit rows of the
text one after the other. -/
theorem createMazeZ_rows (t : List Char) :
    createMazeZ t 0 0 = (buildRows initBuild (digitRows t)).map buildResult := by
  rw [createMazeZ_eq, digitRows_eq, buildRows_filter]
  obtain ⟨l, ls, hsp, hrun⟩ := createMazeLoopZ_lines initBuild t
  rw [hrun, hsp]
  simp only [List.map_cons, buildRows]
  have : ({ initBuild with newLine := true } : BuildState) = initBuild := rfl
  rw [this]
  cases createMazeLoopZ initBuild (digitsOf l) <;> rfl

/-! ## The reading loop in the integers: the row and column counts -/

/-- Reading a non-empty run of digits: the row is incremented at most once, at
the first digit, and the column count grows only while the row is the first. -/
theorem createMazeLoopZ_digits_fields (ds : List Char) (hne : ds ≠ [])
    (hbits : ∀ c ∈ ds, isBit c = true) (s s1 : BuildState)
    (h : createMazeLoopZ s ds = some s1) :
    s1.newLine = false ∧ s1.row = stepRow s ∧
      s1.col = stepCol s + (if stepRow s = 1 then (ds.length : Int) - 1 else 0) := by
  induction ds generalizing s with
  | nil => exact absurd rfl hne
  | cons d ds ih =>
    simp only [createMazeLoopZ] at h
    cases hst : createMazeStepZ s d with
    | none =>
      rw [hst] at h
      cases h
    | some s2 =>
      rw [hst] at h
      obtain ⟨f1, f2, f3, -, -, -⟩ :=
        createMazeStepZ_digit_fields (hbits d (List.mem_cons_self _ _)) hst
      cases ds with
      | nil =>
        simp only [createMazeLoopZ] at h
        injection h with h
        subst h
        refine ⟨f1, f2, ?_⟩
        simp [f3]
      | cons e es =>
        obtain ⟨g1, g2, g3⟩ := ih (by simp)
          (fun c hc => hbits c (List.mem_cons_of_mem _ hc)) s2 h
        have e1 : stepRow s2 = stepRow s := by simp [stepRow, f1, f2]
        have e2 : stepCol s2 = if stepRow s = 1 then stepCol s + 1 else stepCol s := by
          simp [stepCol, e1, f3]
        refine ⟨g1, by rw [g2, e1], ?_⟩
        rw [g3, e1, e2]
        simp only [List.length_cons, Nat.cast_add, Nat.cast_one]
        split <;> omega

theorem buildRows_fields (rows : List (List Char))
    (hrows : ∀ r ∈ rows, r ≠ [] ∧ ∀ c ∈ r, isBit c = true) (s s1 : BuildState)
    (hrow : 0 ≤ s.row) (h : buildRows s rows = some s1) :
    s1.row = s.row + rows.length ∧
      s1.col = (if s.row = 0 then s.col + ((rows.head?.map List.length).getD 0 : Nat)
        else s.col) := by
  induction rows generalizing s with
  | nil =>
    simp only [buildRows] at h
    injection h with h
    subst h
    simp
  | cons r rs ih =>
    simp only [buildRows] at h
    cases hr : createMazeLoopZ { s with newLine := true } r with
    | none =>
      rw [hr] at h
      cases h
    | some s2 =>
      rw [hr] at h
      obtain ⟨hne, hbits⟩ := hrows r (List.mem_cons_self _ _)
      obtain ⟨-, f2, f3⟩ := createMazeLoopZ_digits_fields r hne hbits _ s2 hr
      have e1 : stepRow { s with newLine := true } = s.row + 1 := by simp [stepRow]
      have e2 : stepCol { s with newLine := true } = if s.row = 0 then s.col + 1 else s.col := by
        simp only [stepCol, e1]
        by_cases h0 : s.row = 0
        · rw [if_pos (by omega), if_pos h0]
        · rw [if_neg (by omega), if_neg h0]
      rw [e1] at f2 f3
      rw [e2] at f3
      obtain ⟨g1, g2⟩ := ih (fun r hr => hrows r (List.mem_cons_of_mem _ hr)) s2
        (by omega) h
      refine ⟨?_, ?_⟩
      · rw [g1, f2]
        simp only [List.length_cons, Nat.cast_add, Nat.cast_one]
        omega
      · rw [g2, if_neg (by omega), f3]
        have hlen : 1 ≤ r.length := by
          cases r with
          | nil => exact absurd rfl hne
          | cons _ _ => simp
        simp only [List.head?_cons, Option.map_some', Option.getD_some]
        split <;> split <;> omega

theorem digitRows_spec (t : List Char) :
    ∀ r ∈ digitRows t, r ≠ [] ∧ ∀ c ∈ r, isBit c = true := by
  intro r hr
  rw [digitRows_eq] at hr
  obtain ⟨hmem, hne⟩ := List.mem_filter.1 hr
  obtain ⟨l, -, rfl⟩ := List.mem_map.1 hmem
  refine ⟨?_, ?_⟩
  · intro h
    rw [h] at hne
    simp at hne
  · intro c hc
    exact (List.mem_filter.1 hc).2

theorem createMazeZ_total (t : List Char) :
    ∃ s, buildRows initBuild (digitRows t) = some s ∧
      createMazeZ t 0 0 = some (s.row, s.col, s.maze) := by
  obtain ⟨s0, h0, -⟩ := createMazeLoopZ_total buildInv_init t
  have h1 := createMazeZ_rows t
  rw [createMazeZ_eq, h0] at h1
  cases hb : buildRows initBuild (digitRows t) with
  | none =>
    rw [hb] at h1
    cases h1
  | some s =>
    rw [hb] at h1
    simp only [Option.map_some', Option.some.injEq, buildResult, Prod.mk.injEq] at h1
    obtain ⟨hr, hc, hm⟩ := h1
    refine ⟨s, rfl, ?_⟩
    rw [createMazeZ_eq, h0]
    simp [buildResult, hr, hc, hm]

theorem length_digitsOf (l : List Char) : (digitsOf l).length = l.countP isBit := by
  unfold digitsOf
  rw [List.countP_eq_length_filter]

theorem createMazeZ_counts (t : List Char) :
    ∃ maze, createMazeZ t 0 0 =
      some (((digitLines t).length : Int),
        ((((digitLines t).head?.map (List.countP isBit)).getD 0 : Nat) : Int), maze) := by
  obtain ⟨s, hb, hres⟩ := createMazeZ_total t
  obtain ⟨hr, hc⟩ := buildRows_fields (digitRows t) (digitRows_spec t) initBuild s
    (by simp [initBuild]) hb
  refine ⟨s.maze, ?_⟩
  rw [hres, hr, hc]
  have e1 : (digitRows t).length = (digitLines t).length := by simp [digitRows]
  have e2 : ((digitRows t).head?.map List.length).getD 0
      = ((digitLines t).head?.map (List.countP isBit)).getD 0 := by
    unfold digitRows
    cases digitLines t with
    | nil => rfl
    | cons l ls => simp [length_digitsOf]
  rw [e1, e2]
  simp [initBuild]

/-! ## The reading loop in the integers: the cells of a rectangular input -/

theorem getNode_reallocMaze (maze : Maze) (len k : Int) :
    getNode (reallocMaze maze len) k = getNode maze k := by
  unfold getNode reallocMaze
  by_cases hk : 0 ≤ k
  · rw [if_pos hk, if_pos hk]
    simp only [List.getD_eq_getElem?_getD]
    by_cases hlt : k.toNat < maze.length
    · rw [List.getElem?_append_left hlt]
    · rw [List.getElem?_append_right (by omega)]
      rw [List.getElem?_eq_none (l := maze) (by omega)]
      cases h : (List.replicate (len.toNat - maze.length) (none : Option Node))[k.toNat - maze.length]? with
      | none => rfl
      | some v =>
        have := List.getElem?_mem h
        rw [List.mem_replicate] at this
        rw [this.2]
        rfl
  · rw [if_neg hk, if_neg hk]

theorem getNode_stepMaze (s : BuildState) (k : Int) :
    getNode (stepMaze s) k = getNode s.maze k := by
  unfold stepMaze
  split
  · exact getNode_reallocMaze _ _ _
  · rfl

theorem getNode_of_storeNode {maze maze1 : Maze} {k : Int} {n : Node}
    (h : storeNode maze k n = some maze1) (j : Int) :
    getNode maze1 j = if j = k then some n else getNode maze j := by
  unfold storeNode at h
  split at h
  · rename_i hb
    injection h with h
    subst h
    by_cases hj : j = k
    · subst hj
      rw [if_pos rfl]
      unfold getNode
      rw [if_pos hb.1]
      simp [List.getD_eq_getElem?_getD, List.getElem?_set, hb.2]
    · rw [if_neg hj]
      exact getNode_setNode_other maze n hb.1 hj
  · cases h

theorem grid_index_unique {c y x y1 x1 : Nat} (hx : x < c) (hx1 : x1 < c)
    (h : y * c + x = y1 * c + x1) : y = y1 ∧ x = x1 := by
  have e1 : (y * c + x) % c = x := by
    rw [Nat.add_comm, Nat.add_mul_mod_self_right, Nat.mod_eq_of_lt hx]
  have e2 : (y1 * c + x1) % c = x1 := by
    rw [Nat.add_comm, Nat.add_mul_mod_self_right, Nat.mod_eq_of_lt hx1]
  have hxx : x = x1 := by rw [← e1, ← e2, h]
  subst hxx
  have : y * c = y1 * c := by omega
  exact ⟨Nat.eq_of_mul_eq_mul_right (by omega) this, rfl⟩

/-- The content of the array after one more digit has been stored behind the
digits `flat`. -/
theorem filled_content_step {c : Nat} {flat : List Char} {k j : Nat} {d : Char}
    {s s1 : BuildState} {idx : Int} {n : Node} {m : Maze}
    (hm : ∀ i, getNode m i = getNode s.maze i)
    (hflat : flat.length = k * c + j) (hj : j < c) (hidx : idx = (flat.length : Int))
    (hn : n = freshNode d (j : Int) (k : Int))
    (hcont : ∀ y x : Nat, ∀ ch : Char, x < c → flat[y * c + x]? = some ch →
      getNode s.maze ((y * c + x : Nat) : Int) = some (freshNode ch (x : Int) (y : Int)))
    (hnone : ∀ idx : Int, (flat.length : Int) ≤ idx → getNode s.maze idx = none)
    (hst : storeNode m idx n = some s1.maze) :
    (∀ y x : Nat, ∀ ch : Char, x < c → (flat ++ [d])[y * c + x]? = some ch →
      getNode s1.maze ((y * c + x : Nat) : Int) = some (freshNode ch (x : Int) (y : Int))) ∧
    (∀ idx : Int, ((flat ++ [d]).length : Int) ≤ idx → getNode s1.maze idx = none) := by
  refine ⟨?_, ?_⟩
  · intro y x ch hx hget
    rw [getNode_of_storeNode hst, hm]
    by_cases hlt : y * c + x < flat.length
    · rw [List.getElem?_append_left hlt] at hget
      rw [if_neg (by omega)]
      exact hcont y x ch hx hget
    · have hlen : y * c + x < (flat ++ [d]).length := by
        by_contra hge
        rw [List.getElem?_eq_none (by omega)] at hget
        cases hget
      simp only [List.length_append, List.length_singleton] at hlen
      have heq : y * c + x = k * c + j := by omega
      obtain ⟨hy, hx2⟩ := grid_index_unique hx hj heq
      subst hy hx2
      rw [List.getElem?_append_right (by omega)] at hget
      have : y * c + x - flat.length = 0 := by omega
      rw [this] at hget
      simp only [List.getElem?_cons_zero, Option.some.injEq] at hget
      subst hget
      rw [if_pos (by rw [hidx, hflat]), hn]
  · intro i hi
    simp only [List.length_append, List.length_singleton, Nat.cast_add, Nat.cast_one] at hi
    rw [getNode_of_storeNode hst, hm, if_neg (by omega)]
    exact hnone i (by omega)

theorem buildInv_flag {s : BuildState} (h : BuildInv s) :
    BuildInv { s with newLine := true } := by
  obtain ⟨h1, h2, h3⟩ := h
  refine ⟨h1, h2, ?_⟩
  rcases h3 with ⟨a, b, c, _⟩ | h3
  · exact Or.inl ⟨a, b, c, rfl⟩
  · exact Or.inr h3

/-- One more digit of the current row. -/
theorem filled_step_same {c : Nat} {flat : List Char} {k j : Nat} {s : BuildState} {d : Char}
    (hf : Filled c flat k j s) (hnl : s.newLine = false) (hj : j < c) (hd : isBit d = true) :
    ∃ s1, createMazeStepZ s d = some s1 ∧ Filled c (flat ++ [d]) k (j + 1) s1 ∧
      s1.newLine = false := by
  obtain ⟨hinv, hflat, hj1, -, hrow, hi, hcol, hcont, hnone⟩ := hf
  obtain ⟨s1, hstep, hinv1⟩ := buildInv_step_digit hinv hd
  obtain ⟨f1, f2, f3, f4, -, f6⟩ := createMazeStepZ_digit_fields hd hstep
  have e1 : stepRow s = (k : Int) + 1 := by simp [stepRow, hnl, hrow]
  have e2 : stepCol s = if k = 0 then (j : Int) + 1 else (c : Int) := by
    simp only [stepCol, e1, hcol]
    by_cases hk : k = 0
    · subst hk
      simp
    · rw [if_neg (by omega), if_neg hk, if_neg hk]
  have e3 : stepI s = (j : Int) := by
    simp only [stepI, e1, e2, hi]
    by_cases hk : k = 0
    · subst hk
      simp
    · rw [if_pos (by omega), if_neg hk, tmod_wrap (by omega) (by omega), if_neg (by omega)]
  have e4 : (stepRow s - 1) * stepCol s + stepI s = (flat.length : Int) := by
    rw [e1, e2, e3, hflat]
    by_cases hk : k = 0
    · subst hk
      simp
    · rw [if_neg hk]
      push_cast
      ring
  have e5 : stepNode s d = freshNode d (j : Int) (k : Int) := by
    simp only [stepNode, freshNode, e1, e2, e3]
    by_cases hk : k = 0
    · subst hk
      simp
    · rw [if_neg hk, if_neg (by omega)]
      simp
  rw [e4, e5] at f6
  obtain ⟨c1, c2⟩ := filled_content_step (getNode_stepMaze s) hflat hj rfl rfl hcont hnone f6
  refine ⟨s1, hstep, ⟨hinv1, ?_, by omega, by omega, by rw [f2, e1], ?_, ?_, c1, c2⟩, f1⟩
  · simp only [List.length_append, List.length_singleton]
    omega
  · rw [f4, e3]
    push_cast
    rfl
  · rw [f3, e2]
    push_cast
    rfl

theorem getNode_initBuild (k : Int) : getNode initBuild.maze k = none := by
  unfold getNode initBuild
  split
  · simp only [List.getD_eq_getElem?_getD, List.getElem?_replicate]
    split <;> rfl
  · rfl

/-- The first digit of a new row. -/
theorem boundary_step {c : Nat} {flat : List Char} {k : Nat} {s : BuildState} {d : Char}
    (hb : Boundary c flat k s) (hc : 1 ≤ c) (hd : isBit d = true) :
    ∃ s1, createMazeStepZ { s with newLine := true } d = some s1 ∧
      Filled c (flat ++ [d]) k 1 s1 ∧ s1.newLine = false := by
  rcases hb with ⟨hk, hflat, hs⟩ | ⟨hk, hf⟩
  · subst hk hflat hs
    obtain ⟨s1, hstep, hinv1⟩ := buildInv_step_digit (buildInv_flag buildInv_init) hd
    obtain ⟨f1, f2, f3, f4, -, f6⟩ := createMazeStepZ_digit_fields hd hstep
    have e1 : stepRow { initBuild with newLine := true } = 1 := by decide
    have e2 : stepCol { initBuild with newLine := true } = 1 := by decide
    have e3 : stepI { initBuild with newLine := true } = 0 := by decide
    have e5 : stepNode { initBuild with newLine := true } d = freshNode d 0 0 := by
      simp only [stepNode, freshNode, e1, e2, e3]
      simp
    rw [e1, e2, e3, e5] at f6
    have hst : storeNode (stepMaze initBuild) 0 (freshNode d ((0 : Nat) : Int) ((0 : Nat) : Int))
        = some s1.maze := f6
    obtain ⟨c1, c2⟩ := @filled_content_step c [] 0 0 d initBuild s1 _ _ _
      (getNode_stepMaze initBuild) (by simp) (by omega) (by simp) rfl
      (by intro y x ch _ h; simp at h) (fun idx _ => getNode_initBuild idx) hst
    refine ⟨s1, hstep, ⟨hinv1, by simp, by omega, hc, by rw [f2, e1]; simp, by rw [f4, e3]; simp,
      by rw [f3, e2]; simp, c1, c2⟩, f1⟩
  · obtain ⟨hinv, hflat, hj1, -, hrow, hi, hcol, hcont, hnone⟩ := hf
    have hinv2 := buildInv_flag hinv
    have g1 : ({ s with newLine := true } : BuildState).newLine = true := rfl
    have g2 : ({ s with newLine := true } : BuildState).row = (k : Int) := by
      show s.row = (k : Int)
      omega
    have g3 : ({ s with newLine := true } : BuildState).col = (c : Int) := by
      show s.col = (c : Int)
      rw [hcol]
      split <;> rfl
    have g4 : ({ s with newLine := true } : BuildState).i = (c : Int) := hi
    have g5 : ({ s with newLine := true } : BuildState).maze = s.maze := rfl
    generalize ({ s with newLine := true } : BuildState) = s2 at hinv2 g1 g2 g3 g4 g5 ⊢
    obtain ⟨s1, hstep, hinv1⟩ := buildInv_step_digit hinv2 hd
    obtain ⟨f1, f2, f3, f4, -, f6⟩ := createMazeStepZ_digit_fields hd hstep
    have e1 : stepRow s2 = (k : Int) + 1 := by simp [stepRow, g1, g2]
    have e2 : stepCol s2 = (c : Int) := by
      simp only [stepCol, e1, g3]
      rw [if_neg (by omega)]
    have e3 : stepI s2 = 0 := by
      simp only [stepI, e1, e2, g4]
      rw [if_pos (by omega), tmod_wrap (by omega) (by omega), if_pos rfl]
    have hflat2 : flat.length = k * c + 0 := by
      rw [hflat]
      have : k = (k - 1) + 1 := by omega
      conv_rhs => rw [this]
      ring
    have e4 : (stepRow s2 - 1) * stepCol s2 + stepI s2 = (flat.length : Int) := by
      rw [e1, e2, e3, hflat2]
      push_cast
      ring
    have e5 : stepNode s2 d = freshNode d ((0 : Nat) : Int) (k : Int) := by
      simp only [stepNode, freshNode, e1, e2, e3]
      rw [if_neg (by omega)]
      simp
    rw [e4, e5] at f6
    have hm : ∀ i, getNode (stepMaze s2) i = getNode s.maze i := by
      intro i
      rw [getNode_stepMaze, g5]
    obtain ⟨c1, c2⟩ := filled_content_step hm hflat2 (by omega) rfl rfl hcont hnone f6
    refine ⟨s1, hstep, ⟨hinv1, ?_, by omega, hc, by rw [f2, e1], by rw [f4, e3]; simp, ?_,
      c1, c2⟩, f1⟩
    · simp only [List.length_append, List.length_singleton]
      omega
    · rw [f3, e2, if_neg (by omega)]

/-- The remaining digits of a row. -/
theorem filled_digits {c : Nat} (ds : List Char) (hbits : ∀ d ∈ ds, isBit d = true)
    {flat : List Char} {k j : Nat} {s : BuildState} (hf : Filled c flat k j s)
    (hnl : s.newLine = false) (hj : j + ds.length ≤ c) :
    ∃ s1, createMazeLoopZ s ds = some s1 ∧ Filled c (flat ++ ds) k (j + ds.length) s1 := by
  induction ds generalizing flat j s with
  | nil => exact ⟨s, rfl, by simpa using hf⟩
  | cons d ds ih =>
    simp only [List.length_cons] at hj
    obtain ⟨s1, hstep, hf1, hnl1⟩ :=
      filled_step_same hf hnl (by omega) (hbits d (List.mem_cons_self _ _))
    obtain ⟨s2, hloop, hf2⟩ := ih (fun e he => hbits e (List.mem_cons_of_mem _ he)) hf1 hnl1
      (by omega)
    refine ⟨s2, by simp only [createMazeLoopZ, hstep, hloop], ?_⟩
    have e1 : flat ++ d :: ds = flat ++ [d] ++ ds := by simp
    have e2 : j + (d :: ds).length = j + 1 + ds.length := by
      simp only [List.length_cons]
      omega
    rw [e1, e2]
    exact hf2

/-- One full row of `c` digits read at a row boundary. -/
theorem boundary_row {c : Nat} {flat : List Char} {k : Nat} {s : BuildState} (r : List Char)
    (hb : Boundary c flat k s) (hc : 1 ≤ c) (hlen : r.length = c)
    (hbits : ∀ d ∈ r, isBit d = true) :
    ∃ s1, createMazeLoopZ { s with newLine := true } r = some s1 ∧
      Boundary c (flat ++ r) (k + 1) s1 := by
  cases r with
  | nil =>
    simp only [List.length_nil] at hlen
    omega
  | cons d ds =>
    obtain ⟨s1, hstep, hf1, hnl1⟩ := boundary_step hb hc (hbits d (List.mem_cons_self _ _))
    simp only [List.length_cons] at hlen
    obtain ⟨s2, hloop, hf2⟩ := filled_digits ds
      (fun e he => hbits e (List.mem_cons_of_mem _ he)) hf1 hnl1 (by omega)
    refine ⟨s2, by simp only [createMazeLoopZ, hstep, hloop], Or.inr ⟨by omega, ?_⟩⟩
    have e1 : flat ++ d :: ds = flat ++ [d] ++ ds := by simp
    have e2 : 1 + ds.length = c := by omega
    rw [e1, Nat.add_sub_cancel, ← e2]
    rw [← e2] at hf2
    exact hf2

theorem boundary_rows {c : Nat} (rows : List (List Char)) (hc : 1 ≤ c)
    (hrows : ∀ r ∈ rows, r.length = c ∧ ∀ d ∈ r, isBit d = true)
    {flat : List Char} {k : Nat} {s : BuildState} (hb : Boundary c flat k s) :
    ∃ s1, buildRows s rows = some s1 ∧ Boundary c (flat ++ rows.flatten) (k + rows.length) s1 := by
  induction rows generalizing flat k s with
  | nil => exact ⟨s, rfl, by simpa using hb⟩
  | cons r rs ih =>
    obtain ⟨hlen, hbits⟩ := hrows r (List.mem_cons_self _ _)
    obtain ⟨s1, hrow, hb1⟩ := boundary_row r hb hc hlen hbits
    obtain ⟨s2, hrest, hb2⟩ := ih (fun r hr => hrows r (List.mem_cons_of_mem _ hr)) hb1
    refine ⟨s2, by simp only [buildRows, hrow, hrest], ?_⟩
    have e1 : flat ++ (r :: rs).flatten = flat ++ r ++ rs.flatten := by simp
    have e2 : k + (r :: rs).length = k + 1 + rs.length := by
      simp only [List.length_cons]
      omega
    rw [e1, e2]
    exact hb2

theorem join_getElem? {c : Nat} (rows : List (List Char)) (hrows : ∀ r ∈ rows, r.length = c)
    (y x : Nat) (r : List Char) (ch : Char) (hr : rows[y]? = some r) (hx : r[x]? = some ch) :
    rows.flatten[y * c + x]? = some ch := by
  induction rows generalizing y with
  | nil => simp at hr
  | cons r0 rs ih =>
    have hl0 := hrows r0 (List.mem_cons_self _ _)
    cases y with
    | zero =>
      simp only [List.getElem?_cons_zero, Option.some.injEq] at hr
      subst hr
      have hxlt : x < r0.length := by
        by_contra h
        rw [List.getElem?_eq_none (by omega)] at hx
        cases hx
      simp only [List.flatten_cons, Nat.zero_mul, Nat.zero_add]
      rw [List.getElem?_append_left hxlt]
      exact hx
    | succ y =>
      simp only [List.getElem?_cons_succ] at hr
      have := ih (fun r hr => hrows r (List.mem_cons_of_mem _ hr)) y hr
      simp only [List.flatten_cons]
      rw [List.getElem?_append_right (by rw [hl0]; nlinarith)]
      have e : (y + 1) * c + x - r0.length = y * c + x := by
        rw [hl0, Nat.add_mul]
        omega
      rw [e]
      exact this

theorem createMazeZ_rect_cells (t : List Char) (c : Nat) (hc : 1 ≤ c)
    (hrect : ∀ l ∈ digitLines t, l.countP isBit = c) :
    ∃ rows cols maze, createMazeZ t 0 0 = some (rows, cols, maze) ∧
      rows = ((digitLines t).length : Int) ∧
      (digitLines t ≠ [] → cols = (c : Int)) ∧
      (∀ y x : Nat, (y : Int) < rows → (x : Int) < cols →
        ∃ l ch, (digitLines t)[y]? = some l ∧ (digitsOf l)[x]? = some ch ∧
          getNode maze ((y : Int) * cols + (x : Int)) =
            some { visit := false, c := ch, x := (x : Int), y := (y : Int), i := 0,
                   child := [none, none, none], parent := none }) ∧
      (∀ k : Int, rows * cols ≤ k → getNode maze k = none) := by
  obtain ⟨s, hb, hres⟩ := createMazeZ_total t
  have hrows : ∀ r ∈ digitRows t, r.length = c ∧ ∀ d ∈ r, isBit d = true := by
    intro r hr
    refine ⟨?_, (digitRows_spec t r hr).2⟩
    obtain ⟨l, hl, rfl⟩ := List.mem_map.1 hr
    rw [length_digitsOf]
    exact hrect l hl
  obtain ⟨s1, hb1, hbd⟩ := boundary_rows (digitRows t) hc hrows
    (Or.inl ⟨rfl, rfl, rfl⟩ : Boundary c [] 0 initBuild)
  rw [hb] at hb1
  injection hb1 with hb1
  subst hb1
  have hlenrows : (digitRows t).length = (digitLines t).length := by simp [digitRows]
  simp only [List.nil_append, Nat.zero_add, hlenrows] at hbd
  refine ⟨s.row, s.col, s.maze, hres, ?_⟩
  rcases hbd with ⟨h0, -, hs⟩ | ⟨h1, hf⟩
  · have hnil : digitLines t = [] := List.length_eq_zero.1 h0
    subst hs
    refine ⟨by rw [h0]; rfl, fun h => absurd hnil h, ?_, fun k _ => getNode_initBuild k⟩
    intro y x hy
    have : initBuild.row = 0 := rfl
    omega
  · obtain ⟨-, hflat, -, -, hrow, -, hcol, hcont, hnone⟩ := hf
    have hcol2 : s.col = (c : Int) := by
      rw [hcol]
      split <;> rfl
    have hrow2 : s.row = ((digitLines t).length : Int) := by omega
    refine ⟨hrow2, fun _ => hcol2, ?_, ?_⟩
    · intro y x hy hx
      have hylt : y < (digitLines t).length := by omega
      have hxlt : x < c := by omega
      have hy2 : (digitLines t)[y]? = some (digitLines t)[y] := List.getElem?_eq_getElem hylt
      have hr : (digitRows t)[y]? = some (digitsOf (digitLines t)[y]) := by
        simp [digitRows, hy2]
      have hl2 := (hrows _ (List.getElem?_mem hr)).1
      have hx2 : (digitsOf (digitLines t)[y])[x]? = some (digitsOf (digitLines t)[y])[x] :=
        List.getElem?_eq_getElem (by omega)
      refine ⟨_, _, hy2, hx2, ?_⟩
      have hj := join_getElem? (digitRows t) (fun r hr => (hrows r hr).1) y x _ _ hr hx2
      have := hcont y x _ hxlt hj
      have e : (y : Int) * s.col + (x : Int) = ((y * c + x : Nat) : Int) := by
        rw [hcol2]
        push_cast
        ring
      rw [e]
      exact this
    · intro k hk
      apply hnone
      rw [hflat]
      rw [hrow2, hcol2] at hk
      have e : (((digitLines t).length - 1) * c + c : Nat)
          = (digitLines t).length * c := by
        have : (digitLines t).length = ((digitLines t).length - 1) + 1 := by omega
        conv_rhs => rw [this]
        ring
      rw [e]
      push_cast
      exact hk

/-- From a rectangular input with at least one digit-bearing line `createMazeZ`
builds a fresh rectangular grid. -/
theorem createMazeZ_freshGrid (t : List Char) (c : Nat) (hc : 1 ≤ c)
    (hrect : ∀ l ∈ digitLines t, l.countP isBit = c) (hne : digitLines t ≠ []) :
    ∃ rows cols maze, createMazeZ t 0 0 = some (rows, cols, maze) ∧ FreshGrid rows cols maze := by
  obtain ⟨rows, cols, maze, h1, h2, h3, h4, -⟩ := createMazeZ_rect_cells t c hc hrect
  refine ⟨rows, cols, maze, h1, ?_⟩
  have hcols := h3 hne
  have hrows : 1 ≤ rows := by
    rw [h2]
    have : 0 < (digitLines t).length := List.length_pos.2 hne
    omega
  have key : ∀ x y, InGrid rows cols x y → ∃ ch, (ch = '0' ∨ ch = '1') ∧
      getNode maze (y * cols + x) = some (freshNode ch x y) := by
    intro x y ⟨a1, a2, a3, a4⟩
    have ex : ((x.toNat : Nat) : Int) = x := Int.toNat_of_nonneg a1
    have ey : ((y.toNat : Nat) : Int) = y := Int.toNat_of_nonneg a3
    obtain ⟨l, ch, -, hx, hn⟩ := h4 y.toNat x.toNat (by omega) (by omega)
    rw [ex, ey] at hn
    refine ⟨ch, ?_, hn⟩
    have hmem := List.getElem?_mem hx
    exact (isBit_iff ch).1 (List.mem_filter.1 hmem).2
  refine ⟨⟨hrows, by omega, ?_⟩, ?_⟩
  · intro x y hxy
    obtain ⟨ch, hch, hn⟩ := key x y hxy
    exact ⟨_, hn, rfl, rfl, hch⟩
  · intro x y hxy
    obtain ⟨ch, -, hn⟩ := key x y hxy
    simp [visitAt, parentAt, countAt, hn, freshNode]

/-! ## The reading loop in the integers: ignored characters and blank lines -/

theorem joinLines_append (a b : List (List Char)) (ha : a ≠ []) (hb : b ≠ []) :
    joinLines (a ++ b) = joinLines a ++ '\n' :: joinLines b := by
  induction a with
  | nil => exact absurd rfl ha
  | cons l ls ih =>
    cases ls with
    | nil =>
      cases b with
      | nil => exact absurd rfl hb
      | cons m ms => simp [joinLines]
    | cons l2 ls2 =>
      have := ih (by simp)
      simp only [List.cons_append] at this ⊢
      simp only [joinLines, this, List.append_assoc, List.cons_append]

theorem createMazeZ_newline_first (t : List Char) :
    createMazeZ ('\n' :: t) 0 0 = createMazeZ t 0 0 := by
  rw [createMazeZ_eq, createMazeZ_eq]
  simp only [createMazeLoopZ, createMazeStepZ_newline]
  rfl

theorem createMazeZ_newline_last (t : List Char) :
    createMazeZ (t ++ ['\n']) 0 0 = createMazeZ t 0 0 := by
  rw [createMazeZ_eq, createMazeZ_eq, createMazeLoopZ_append]
  cases createMazeLoopZ initBuild t with
  | none => rfl
  | some s =>
    simp only [Option.some_bind, createMazeLoopZ, createMazeStepZ_newline]
    rfl

theorem createMazeZ_newline_twice (a b : List Char) :
    createMazeZ (a ++ '\n' :: '\n' :: b) 0 0 = createMazeZ (a ++ '\n' :: b) 0 0 := by
  rw [createMazeZ_eq, createMazeZ_eq, createMazeLoopZ_append, createMazeLoopZ_append]
  cases createMazeLoopZ initBuild a with
  | none => rfl
  | some s =>
    simp only [Option.some_bind, createMazeLoopZ, createMazeStepZ_newline]

theorem splitLines_no_newline (l : List Char) (hl : '\n' ∉ l) : splitLines l = [l] := by
  induction l with
  | nil => rfl
  | cons c cs ih =>
    have hc : c ≠ '\n' := fun e => hl (by simp [e])
    have hcs : '\n' ∉ cs := fun e => hl (by simp [e])
    rw [splitLines, if_neg hc, ih hcs]

theorem splitLines_append_newline (l t : List Char) (hl : '\n' ∉ l) :
    splitLines (l ++ '\n' :: t) = l :: splitLines t := by
  induction l with
  | nil => exact splitLines_cons_newline t
  | cons c cs ih =>
    have hc : c ≠ '\n' := fun e => hl (by simp [e])
    have hcs : '\n' ∉ cs := fun e => hl (by simp [e])
    rw [List.cons_append, splitLines, if_neg hc, ih hcs]

theorem splitLines_joinLines (rows : List (List Char)) (hne : rows ≠ [])
    (h : ∀ r ∈ rows, '\n' ∉ r) : splitLines (joinLines rows) = rows := by
  induction rows with
  | nil => exact absurd rfl hne
  | cons r rs ih =>
    cases rs with
    | nil => exact splitLines_no_newline r (h r (by simp))
    | cons r2 rs2 =>
      have e : joinLines (r :: r2 :: rs2) = r ++ '\n' :: joinLines (r2 :: rs2) := rfl
      rw [e, splitLines_append_newline _ _ (h r (by simp)),
        ih (by simp) (fun q hq => h q (List.mem_cons_of_mem _ hq))]

theorem digitRows_joinLines (rows : List (List Char))
    (h : ∀ r ∈ rows, r ≠ [] ∧ ∀ c ∈ r, isBit c = true) : digitRows (joinLines rows) = rows := by
  cases rows with
  | nil => rfl
  | cons r rs =>
    have hnl : ∀ q ∈ r :: rs, '\n' ∉ q := by
      intro q hq hmem
      have := (h q hq).2 _ hmem
      rw [isBit_newline] at this
      cases this
    unfold digitRows digitLines
    rw [splitLines_joinLines (r :: rs) (by simp) hnl]
    have e1 : (r :: rs).filter (fun l => l.any isBit) = r :: rs := by
      rw [List.filter_eq_self]
      intro q hq
      obtain ⟨hne, hb⟩ := h q hq
      cases q with
      | nil => exact absurd rfl hne
      | cons c cs => simp [hb c (by simp)]
    rw [e1]
    have e2 : ∀ q ∈ r :: rs, digitsOf q = q := by
      intro q hq
      unfold digitsOf
      rw [List.filter_eq_self]
      exact (h q hq).2
    calc (r :: rs).map digitsOf = (r :: rs).map id := List.map_congr_left e2
      _ = r :: rs := List.map_id _


/-! ## createMaze: the limits of int and the end of the reading -/

theorem inInt_iff (v : Int) : inInt v = true ↔ (INT_MIN ≤ v ∧ v ≤ INT_MAX) := by
  simp [inInt]

/-- The digit branch of `createMazeStep`, with its intermediate values named. -/
theorem createMazeStep_digit (s : BuildState) {c : Char} (hc : isBit c = true) :
    createMazeStep s c =
      if stepRow s ≠ 1 ∧ stepCol s = 0 then none
      else if stepFits s = true then
        match storeNode (stepMaze s) ((stepRow s - 1) * stepCol s + stepI s) (stepNode s c) with
        | none => none
        | some maze1 =>
          some { newLine := false, row := stepRow s, col := stepCol s, i := stepI s + 1,
                 len := stepLen s, maze := maze1 }
      else none := by
  have hc2 : c = '0' ∨ c = '1' := (isBit_iff c).1 hc
  have hn : c ≠ '\n' := by
    rcases hc2 with h0 | h0 <;> rw [h0] <;> decide
  simp only [createMazeStep, if_neg hn, if_pos hc2]
  rfl

/-- On a digit the iteration of `createMaze` is the iteration computed in the
integers when every `int` result is representable, and undefined otherwise. -/
theorem createMazeStep_digit_eq (s : BuildState) {c : Char} (hc : isBit c = true) :
    createMazeStep s c = if stepFits s = true then createMazeStepZ s c else none := by
  rw [createMazeStepZ_digit s hc, createMazeStep_digit s hc]
  by_cases hz : stepRow s ≠ 1 ∧ stepCol s = 0
  · rw [if_pos hz, if_pos hz]
    split <;> rfl
  · rw [if_neg hz, if_neg hz]

theorem createMazeStep_other_eq (s : BuildState) {c : Char} (hc : isBit c = false) :
    createMazeStep s c = createMazeStepZ s c := by
  have h3 : ¬ (c = '0' ∨ c = '1') := by
    intro h
    rw [← isBit_iff, hc] at h
    cases h
  simp only [createMazeStep, createMazeStepZ, if_neg h3]

/-- An iteration of `createMaze` that is defined is the iteration computed in
the integers. -/
theorem createMazeStep_some {s s1 : BuildState} {c : Char} (h : createMazeStep s c = some s1) :
    createMazeStepZ s c = some s1 ∧ (isBit c = true → stepFits s = true) := by
  cases hb : isBit c with
  | false =>
    rw [createMazeStep_other_eq s hb] at h
    exact ⟨h, fun e => absurd e (by simp)⟩
  | true =>
    rw [createMazeStep_digit_eq s hb] at h
    by_cases hf : stepFits s = true
    · rw [if_pos hf] at h
      exact ⟨h, fun _ => hf⟩
    · rw [if_neg hf] at h
      cases h

/-- From a state satisfying the invariant a digit iteration has every `int`
result representable as soon as the capacity after the growth test is. -/
theorem stepFits_of_inv {s : BuildState} (hinv : BuildInv s) (hlen : stepLen s ≤ INT_MAX) :
    stepFits s = true := by
  obtain ⟨k0, k1, k25, kz, kr, kc, ki0, ki1, krow1, kcol⟩ := step_digit_bounds hinv
  have hnn : 0 ≤ (stepRow s - 1) * stepCol s := mul_nonneg (by omega) (by omega)
  have hrow : stepRow s - 1 ≤ (stepRow s - 1) * stepCol s := by
    have := mul_le_mul_of_nonneg_left kc (show (0 : Int) ≤ stepRow s - 1 by omega)
    simpa using this
  have hsi : 0 ≤ s.i ∧ s.i ≤ stepCol s ∧ (stepRow s - 1) * stepCol s + s.i + 1 ≤ stepLen s := by
    obtain ⟨-, h25, hcase⟩ := hinv
    rcases hcase with ⟨hr, hcl, hi, hnl⟩ | ⟨hr, hcl, hi1, hi2, hrow1, hcap, hcol⟩
    · rw [hi]
      omega
    · have hcc : s.col ≤ stepCol s := by
        unfold stepCol
        split <;> omega
      refine ⟨by omega, by omega, ?_⟩
      by_cases hg : stepGrow s = true
      · have e : stepLen s = s.len * 4 := by simp [stepLen, hg]
        have hmul : (stepRow s - 1) * stepCol s + s.i + 1 ≤ 2 * s.len + 1 := by
          cases hnl : s.newLine with
          | true =>
            have e1 : stepRow s = s.row + 1 := by simp [stepRow, hnl]
            have e2 : stepCol s = s.col := by
              simp only [stepCol, e1]
              rw [if_neg (by omega)]
            rw [e1, e2]
            have : (s.row + 1 - 1) * s.col = (s.row - 1) * s.col + s.col := by ring
            omega
          | false =>
            have e1 : stepRow s = s.row := by simp [stepRow, hnl]
            by_cases hr1 : s.row = 1
            · have e2 : stepCol s = s.col + 1 := by
                simp only [stepCol, e1]
                rw [if_pos hr1]
              rw [e1, e2, hr1]
              simp only [sub_self, zero_mul, zero_add]
              omega
            · have e2 : stepCol s = s.col := by
                simp only [stepCol, e1]
                rw [if_neg hr1]
              rw [e1, e2]
              omega
        omega
      · have e : stepLen s = s.len := by simp [stepLen, hg]
        have hng : ¬ ((stepRow s - 1) * stepCol s + s.i + 1 ≥ s.len) := by
          simpa [stepGrow] using hg
        omega
  obtain ⟨hs0, hs1, hs2⟩ := hsi
  unfold stepFits
  simp only [Bool.and_eq_true, inInt_iff, Bool.not_eq_true', Bool.and_eq_false_imp,
    decide_eq_true_eq, decide_eq_false_iff_not, INT_MIN, INT_MAX] at hlen ⊢
  refine ⟨⟨⟨⟨⟨⟨⟨⟨⟨⟨?_, ?_⟩, ?_⟩, ?_⟩, ?_⟩, ?_⟩, ?_⟩, ?_⟩, ?_⟩, ?_⟩, ?_⟩ <;> omega

theorem step_fields_le (s : BuildState) : s.row ≤ stepRow s ∧ s.col ≤ stepCol s := by
  unfold stepCol stepRow
  refine ⟨?_, ?_⟩
  · split <;> omega
  · split <;> omega

/-- The capacity never exceeds the larger of 25 and four times the number of
slots of the grid plus four. -/
theorem lenBound_stepZ {s s1 : BuildState} {c : Char} (hinv : BuildInv s)
    (hb : s.len ≤ 25 ∨ s.len ≤ 4 * (s.row * s.col + 1))
    (h : createMazeStepZ s c = some s1) :
    (s1.len ≤ 25 ∨ s1.len ≤ 4 * (s1.row * s1.col + 1)) ∧ s.len ≤ s1.len := by
  by_cases hn : c = '\n'
  · subst hn
    rw [createMazeStepZ_newline] at h
    injection h with h
    subst h
    exact ⟨hb, le_refl _⟩
  · cases hbit : isBit c with
    | false =>
      rw [createMazeStepZ_other s c hn hbit] at h
      injection h with h
      subst h
      exact ⟨hb, le_refl _⟩
    | true =>
      obtain ⟨-, f2, f3, -, f5, -⟩ := createMazeStepZ_digit_fields hbit h
      obtain ⟨k0, k1, k25, kz, kr, kc, ki0, ki1, krow1, kcol⟩ := step_digit_bounds hinv
      obtain ⟨g1, g2⟩ := step_fields_le s
      have h25 := hinv.2.1
      have hrc : 0 ≤ s.row ∧ 0 ≤ s.col ∧ s.i ≤ stepCol s := by
        rcases hinv.2.2 with ⟨hr, hcl, hi, -⟩ | ⟨hr, hcl, hi1, hi2, -, -, -⟩ <;> omega
      have hmono : s.row * s.col ≤ stepRow s * stepCol s :=
        mul_le_mul g1 g2 hrc.2.1 (by omega)
      have e : stepRow s * stepCol s = (stepRow s - 1) * stepCol s + stepCol s := by ring
      rw [f2, f3, f5]
      by_cases hg : stepGrow s = true
      · have e2 : stepLen s = s.len * 4 := by simp [stepLen, hg]
        have hge : (stepRow s - 1) * stepCol s + s.i + 1 ≥ s.len := by
          simpa [stepGrow] using hg
        refine ⟨Or.inr ?_, ?_⟩ <;> omega
      · have e2 : stepLen s = s.len := by simp [stepLen, hg]
        refine ⟨?_, by omega⟩
        rcases hb with hb | hb
        · exact Or.inl (by omega)
        · exact Or.inr (by omega)

theorem lenBound_loopZ {s s1 : BuildState} (t : List Char) (hinv : BuildInv s)
    (hb : s.len ≤ 25 ∨ s.len ≤ 4 * (s.row * s.col + 1))
    (h : createMazeLoopZ s t = some s1) :
    BuildInv s1 ∧ (s1.len ≤ 25 ∨ s1.len ≤ 4 * (s1.row * s1.col + 1)) ∧ s.len ≤ s1.len := by
  induction t generalizing s with
  | nil =>
    simp only [createMazeLoopZ, Option.some.injEq] at h
    subst h
    exact ⟨hinv, hb, le_refl _⟩
  | cons c cs ih =>
    simp only [createMazeLoopZ] at h
    obtain ⟨s2, h2, hinv2⟩ := buildInv_step c hinv
    rw [h2] at h
    obtain ⟨b2, l2⟩ := lenBound_stepZ hinv hb h2
    obtain ⟨r1, r2, r3⟩ := ih hinv2 b2 h
    exact ⟨r1, r2, by omega⟩

theorem readText_cons_stop {c : Char} (cs : List Char) (h : c.toNat = 255) :
    readText (c :: cs) = [] := by
  simp [readText, h]

theorem readText_cons_go {c : Char} (cs : List Char) (h : ¬ c.toNat = 255) :
    readText (c :: cs) = c :: readText cs := by
  simp [readText, h]

theorem readText_of_no_stop {t : List Char} (h : ∀ c ∈ t, c.toNat ≠ 255) : readText t = t := by
  unfold readText
  rw [List.takeWhile_eq_self_iff]
  intro c hc
  simpa using h c hc

/-- A reading loop that is defined is the loop computed in the integers over
the bytes before the first byte 0xFF. -/
theorem createMazeLoop_some {s s1 : BuildState} (t : List Char)
    (h : createMazeLoop s t = some s1) : createMazeLoopZ s (readText t) = some s1 := by
  induction t generalizing s with
  | nil => exact h
  | cons c cs ih =>
    by_cases hc : c.toNat = 255
    · rw [readText_cons_stop cs hc]
      simpa only [createMazeLoop, if_pos hc] using h
    · rw [readText_cons_go cs hc]
      simp only [createMazeLoop, if_neg hc] at h
      cases hst : createMazeStep s c with
      | none =>
        rw [hst] at h
        cases h
      | some s2 =>
        rw [hst] at h
        simp only [createMazeLoopZ, (createMazeStep_some hst).1]
        exact ih h

/-- The reading loop is the loop computed in the integers over the bytes
before the first byte 0xFF, provided the final capacity is representable. -/
theorem createMazeLoop_of_Z {s s1 : BuildState} (t : List Char) (hinv : BuildInv s)
    (hb : s.len ≤ 25 ∨ s.len ≤ 4 * (s.row * s.col + 1))
    (h : createMazeLoopZ s (readText t) = some s1) (hlen : s1.len ≤ INT_MAX) :
    createMazeLoop s t = some s1 := by
  induction t generalizing s with
  | nil => exact h
  | cons c cs ih =>
    by_cases hc : c.toNat = 255
    · rw [readText_cons_stop cs hc] at h
      simpa only [createMazeLoop, if_pos hc] using h
    · rw [readText_cons_go cs hc] at h
      simp only [createMazeLoopZ] at h
      obtain ⟨s2, h2, hinv2⟩ := buildInv_step c hinv
      rw [h2] at h
      obtain ⟨b2, -⟩ := lenBound_stepZ hinv hb h2
      obtain ⟨-, -, l3⟩ := lenBound_loopZ _ hinv2 b2 h
      have hstep : createMazeStep s c = some s2 := by
        cases hbit : isBit c with
        | false => rw [createMazeStep_other_eq s hbit, h2]
        | true =>
          obtain ⟨-, -, -, -, f5, -⟩ := createMazeStepZ_digit_fields hbit h2
          rw [createMazeStep_digit_eq s hbit,
            if_pos (stepFits_of_inv hinv (by rw [← f5]; omega)), h2]
      simp only [createMazeLoop, if_neg hc, hstep]
      exact ih hinv2 b2 h

theorem createMaze_eq (t : List Char) :
    createMaze t 0 0 = (createMazeLoop initBuild t).map buildResult := by
  unfold createMaze
  show (match createMazeLoop initBuild t with
    | none => none
    | some s => some (s.row, s.col, s.maze)) = _
  cases createMazeLoop initBuild t <;> rfl

/-- Whenever `createMaze` returns, its result is the one computed in the
integers on the bytes before the first byte 0xFF. -/
theorem createMaze_some {t : List Char} {r : Int × Int × Maze} (h : createMaze t 0 0 = some r) :
    createMazeZ (readText t) 0 0 = some r := by
  rw [createMaze_eq] at h
  rw [createMazeZ_eq]
  cases hl : createMazeLoop initBuild t with
  | none =>
    rw [hl] at h
    cases h
  | some s =>
    rw [hl] at h
    rw [createMazeLoop_some t hl]
    exact h

/-- On a text whose capacity arithmetic stays within `int`, `createMaze`
returns the result computed in the integers on the bytes before the first
byte 0xFF. -/
theorem createMaze_of_fits (t : List Char) (hfit : FitsInt (readText t)) :
    createMaze t 0 0 = createMazeZ (readText t) 0 0 := by
  obtain ⟨s, hs, hinv⟩ := createMazeLoopZ_total buildInv_init (readText t)
  obtain ⟨maze, hm⟩ := createMazeZ_counts (readText t)
  have hz := createMazeZ_eq (readText t)
  rw [hs, hm] at hz
  simp only [Option.map_some', Option.some.injEq, buildResult, Prod.mk.injEq] at hz
  obtain ⟨-, hbound, -⟩ := lenBound_loopZ (readText t) buildInv_init
    (Or.inl (by simp [initBuild])) hs
  have hlen : s.len ≤ INT_MAX := by
    unfold FitsInt textRows textCols at hfit
    rw [← hz.1, ← hz.2.1] at hbound
    rcases hbound with hb | hb
    · have : (25 : Int) ≤ INT_MAX := by decide
      omega
    · omega
  rw [createMaze_eq, createMazeLoop_of_Z t buildInv_init (Or.inl (by simp [initBuild])) hs hlen,
    createMazeZ_eq, hs]

/-! ## createMaze within the limits of int -/

/-- On a text whose bytes before the first byte 0xFF keep the capacity
arithmetic within `int`, `createMaze` returns; the row count is the number of
lines, among these bytes, that contain a maze digit and the column count is
the number of maze digits in the first such line. -/
theorem createMaze_counts (t : List Char) (hfit : FitsInt (readText t)) :
    ∃ maze, createMaze t 0 0 =
      some (((textRows (readText t) : Nat) : Int), ((textCols (readText t) : Nat) : Int), maze) := by
  obtain ⟨maze, hm⟩ := createMazeZ_counts (readText t)
  exact ⟨maze, by rw [createMaze_of_fits t hfit, hm]; rfl⟩

/-! ## createMaze: the byte 0xFF ends the reading -/

/-- C6, evaluated at the failing input: the text `0`, byte 0xFF, `1`, newline,
`0`, `0`, newline has two lines that contain a maze digit, the first with two
maze digits, so the claim gives 2 rows and 2 columns; `createMaze` stops
reading at the byte 0xFF and returns 1 row and 1 column. Without that byte
the same text gives 2 rows and 2 columns. -/
theorem createMaze_counts_stop_at_byte_255 :
    textRows ['0', '\xff', '1', '\n', '0', '0', '\n'] = 2 ∧
    textCols ['0', '\xff', '1', '\n', '0', '0', '\n'] = 2 ∧
    (createMaze ['0', '\xff', '1', '\n', '0', '0', '\n'] 0 0).map (fun r => (r.1, r.2.1))
      = some (1, 1) ∧
    (createMaze ['0', '1', '\n', '0', '0', '\n'] 0 0).map (fun r => (r.1, r.2.1))
      = some (2, 2) := by
  decide

/-- C7, evaluated at the failing input: in the text `0`, `1`, newline, `0`,
byte 0xFF, `1` both lines carry two maze digits, so the claim gives a 2 by 2
grid whose cell at flat index 3 has kind `1`; `createMaze` stops reading at
the byte 0xFF and returns 2 rows and 2 columns with only three cells stored:
the slot at flat index 3 is uninitialised. -/
theorem createMaze_cells_stop_at_byte_255 :
    (∀ l ∈ digitLines ['0', '1', '\n', '0', '\xff', '1'], l.countP isBit = 2) ∧
    ((digitLines ['0', '1', '\n', '0', '\xff', '1'])[1]?.bind (fun l => (digitsOf l)[1]?))
      = some '1' ∧
    (createMaze ['0', '1', '\n', '0', '\xff', '1'] 0 0).map
        (fun r => (r.1, r.2.1, (getNode r.2.2 2).map Node.c, getNode r.2.2 3))
      = some (2, 2, some '0', none) := by
  decide

/-- C9, evaluated at the failing input: the byte 0xFF is a character other
than `0`, `1` and newline, yet deleting it from the text `0`, byte 0xFF, `1`
changes the result of `createMaze`: with the byte the reading stops after the
first digit and the grid has 1 column, without it the grid has 2 columns. -/
theorem createMaze_byte_255_not_ignored :
    stripText ['0', '\xff', '1'] = ['0', '1'] ∧
    createMaze (stripText ['0', '\xff', '1']) 0 0 ≠ createMaze ['0', '\xff', '1'] 0 0 ∧
    (createMaze ['0', '\xff', '1'] 0 0).map (fun r => (r.1, r.2.1)) = some (1, 1) ∧
    (createMaze (stripText ['0', '\xff', '1']) 0 0).map (fun r => (r.1, r.2.1))
      = some (1, 2) := by
  decide

/-- C8, as stated, fails: the line `"0a1"` contains a character other than a
maze digit, yet `createMaze` makes a row of two cells with kinds `0` and `1`
out of it, whereas a text with no line at all yields no row and no cell. -/
theorem createMaze_mixed_line_counterexample :
    (∃ ch ∈ ['0', 'a', '1'], isBit ch = false) ∧
    (createMaze ['0', 'a', '1'] 0 0).map
        (fun r => (r.1, r.2.1, (getNode r.2.2 0).map Node.c, (getNode r.2.2 1).map Node.c))
      = some (1, 2, some '0', some '1') ∧
    (createMaze [] 0 0).map
        (fun r => (r.1, r.2.1, (getNode r.2.2 0).map Node.c, (getNode r.2.2 1).map Node.c))
      = some (0, 0, none, none) := by
  decide


/-! ## createMaze: digit-bearing lines with other characters -/

theorem textRows_eq (t : List Char) : textRows t = (digitRows t).length := by
  simp [textRows, digitRows]

theorem textCols_eq (t : List Char) :
    textCols t = ((digitRows t).head?.map List.length).getD 0 := by
  unfold textCols digitRows
  cases digitLines t with
  | nil => rfl
  | cons l ls => simp [length_digitsOf]

theorem fitsInt_congr {a b : List Char} (h : digitRows a = digitRows b) :
    FitsInt a ↔ FitsInt b := by
  unfold FitsInt
  rw [textRows_eq, textRows_eq, textCols_eq, textCols_eq, h]

theorem joinLines_no_stop (rows : List (List Char))
    (h : ∀ r ∈ rows, ∀ c ∈ r, isBit c = true) : ∀ c ∈ joinLines rows, c.toNat ≠ 255 := by
  have hbit : ∀ c : Char, isBit c = true → c.toNat ≠ 255 := by
    intro c hc
    rcases (isBit_iff c).1 hc with e | e <;> rw [e] <;> decide
  induction rows with
  | nil =>
    intro c hc
    simp [joinLines] at hc
  | cons r rs ih =>
    cases rs with
    | nil =>
      intro c hc
      exact hbit c (h r (List.mem_cons_self _ _) c hc)
    | cons r2 rs2 =>
      intro c hc
      have e : joinLines (r :: r2 :: rs2) = r ++ '\n' :: joinLines (r2 :: rs2) := rfl
      rw [e, List.mem_append, List.mem_cons] at hc
      rcases hc with hc | hc | hc
      · exact hbit c (h r (List.mem_cons_self _ _) c hc)
      · rw [hc]
        decide
      · exact ih (fun q hq => h q (List.mem_cons_of_mem _ hq)) c hc

/-- On a text without the byte 0xFF whose capacity arithmetic stays within
`int`, the result of `createMaze` is the result of reading its digit rows. -/
theorem createMaze_rows {t : List Char} (h255 : ∀ ch ∈ t, ch.toNat ≠ 255) (hfit : FitsInt t) :
    createMaze t 0 0 = (buildRows initBuild (digitRows t)).map buildResult := by
  have e := readText_of_no_stop h255
  rw [createMaze_of_fits t (by rw [e]; exact hfit), e, createMazeZ_rows]

/-- C8, amended: for every input text without the byte 0xFF whose capacity
arithmetic stays within `int`, a line that contains at least one maze digit
defines a maze row also when it contains other characters, which are skipped,
and only the lines without any maze digit are ignored: the result of
`createMaze` is its result on the text whose lines are the digit rows of the
input, the number of rows is the number of digit-bearing lines, and when the
digit-bearing lines all carry the same number `c ≥ 1` of maze digits, the
cells of row `y` are the maze digits of the `y`-th digit-bearing line in
order. -/
theorem createMaze_digit_rows (t : List Char) (c : Nat) (h255 : ∀ ch ∈ t, ch.toNat ≠ 255)
    (hfit : FitsInt t) :
    createMaze t 0 0 = createMaze (joinLines (digitRows t)) 0 0 ∧
    ∃ cols maze, createMaze t 0 0 = some (((digitLines t).length : Int), cols, maze) ∧
      (1 ≤ c → (∀ l ∈ digitLines t, l.countP isBit = c) →
        ∀ y x : Nat, y < (digitLines t).length → x < c →
          ∃ l ch, (digitLines t)[y]? = some l ∧ (digitsOf l)[x]? = some ch ∧
            getNode maze ((y : Int) * (c : Int) + (x : Int))
              = some (freshNode ch (x : Int) (y : Int))) := by
  have e := readText_of_no_stop h255
  have hz : createMaze t 0 0 = createMazeZ t 0 0 := by
    rw [createMaze_of_fits t (by rw [e]; exact hfit), e]
  refine ⟨?_, ?_⟩
  · have hrows := digitRows_joinLines _ (digitRows_spec t)
    rw [createMaze_rows h255 hfit,
      createMaze_rows (joinLines_no_stop _ (fun r hr => (digitRows_spec t r hr).2))
        ((fitsInt_congr hrows).2 hfit), hrows]
  · obtain ⟨maze, hm⟩ := createMazeZ_counts t
    refine ⟨_, maze, by rw [hz, hm], ?_⟩
    intro hc hrect y x hy hx
    obtain ⟨rows, cols, maze2, h1, h2, h3, h4, -⟩ := createMazeZ_rect_cells t c hc hrect
    rw [hm] at h1
    simp only [Option.some.injEq, Prod.mk.injEq] at h1
    obtain ⟨e1, e2, e3⟩ := h1
    have hne : digitLines t ≠ [] := by
      intro h0
      rw [h0] at hy
      simp at hy
    have hcols := h3 hne
    obtain ⟨l, ch, g1, g2, g3⟩ := h4 y x (by rw [h2]; exact_mod_cast hy)
      (by rw [hcols]; exact_mod_cast hx)
    refine ⟨l, ch, g1, g2, ?_⟩
    rw [e3, ← hcols]
    exact g3

/-- Witness for the amended C8 on the input `"0a1\n1 0"`. -/
theorem createMaze_digit_rows_witness :
    (∀ ch ∈ ['0', 'a', '1', '\n', '1', ' ', '0'], ch.toNat ≠ 255) ∧
    FitsInt ['0', 'a', '1', '\n', '1', ' ', '0'] ∧
    (createMaze ['0', 'a', '1', '\n', '1', ' ', '0'] 0 0
      = createMaze (joinLines (digitRows ['0', 'a', '1', '\n', '1', ' ', '0'])) 0 0 ∧
    ∃ cols maze, createMaze ['0', 'a', '1', '\n', '1', ' ', '0'] 0 0
        = some (((digitLines ['0', 'a', '1', '\n', '1', ' ', '0']).length : Int), cols, maze) ∧
      (1 ≤ 2 → (∀ l ∈ digitLines ['0', 'a', '1', '\n', '1', ' ', '0'], l.countP isBit = 2) →
        ∀ y x : Nat, y < (digitLines ['0', 'a', '1', '\n', '1', ' ', '0']).length → x < 2 →
          ∃ l ch, (digitLines ['0', 'a', '1', '\n', '1', ' ', '0'])[y]? = some l ∧
            (digitsOf l)[x]? = some ch ∧
            getNode maze ((y : Int) * ((2 : Nat) : Int) + (x : Int))
              = some (freshNode ch (x : Int) (y : Int)))) :=
  ⟨by decide, by decide,
    createMaze_digit_rows ['0', 'a', '1', '\n', '1', ' ', '0'] 2 (by decide) (by decide)⟩

/-! ## The grid as a graph: indices and adjacency -/

theorem idx_bounds {row col x y : Int} (h : InGrid row col x y) :
    0 ≤ y * col + x ∧ y * col + x < row * col := by
  obtain ⟨h1, h2, h3, h4⟩ := h
  have e1 : 0 ≤ y * col := mul_nonneg h3 (by omega)
  have e2 : (y + 1) * col ≤ row * col := mul_le_mul_of_nonneg_right (by omega) (by omega)
  have e3 : (y + 1) * col = y * col + col := by ring
  omega

theorem idx_inj {row col x y x1 y1 : Int} (h : InGrid row col x y) (h1 : InGrid row col x1 y1)
    (e : y * col + x = y1 * col + x1) : x = x1 ∧ y = y1 := by
  obtain ⟨a1, a2, a3, a4⟩ := h
  obtain ⟨b1, b2, b3, b4⟩ := h1
  have hy : y = y1 := by
    by_contra hne
    rcases lt_or_gt_of_ne hne with hlt | hgt
    · have e2 : (y + 1) * col ≤ y1 * col := mul_le_mul_of_nonneg_right (by omega) (by omega)
      have e3 : (y + 1) * col = y * col + col := by ring
      omega
    · have e2 : (y1 + 1) * col ≤ y * col := mul_le_mul_of_nonneg_right (by omega) (by omega)
      have e3 : (y1 + 1) * col = y1 * col + col := by ring
      omega
  subst hy
  exact ⟨by omega, rfl⟩

theorem cell_bounds {row col k : Int} (h : Cell row col k) : 0 ≤ k ∧ k < row * col := by
  obtain ⟨x, y, hg, rfl⟩ := h
  exact idx_bounds hg

theorem cell_zero {row col : Int} (hr : 1 ≤ row) (hc : 1 ≤ col) : Cell row col 0 :=
  ⟨0, 0, ⟨by omega, by omega, by omega, by omega⟩, by ring⟩

theorem adj_cell_left {row col k j : Int} (h : Adj row col k j) : Cell row col k := by
  obtain ⟨x, y, x1, y1, hg, -, hk, -, -⟩ := h
  exact ⟨x, y, hg, hk⟩

theorem adj_cell_right {row col k j : Int} (h : Adj row col k j) : Cell row col j := by
  obtain ⟨x, y, x1, y1, -, hg, -, hj, -⟩ := h
  exact ⟨x1, y1, hg, hj⟩

theorem stepAdj_symm {p q : Int × Int} (h : StepAdj p q) : StepAdj q p := by
  unfold StepAdj at *
  omega

theorem adj_symm {row col k j : Int} (h : Adj row col k j) : Adj row col j k := by
  obtain ⟨x, y, x1, y1, hg, hg1, hk, hj, hs⟩ := h
  exact ⟨x1, y1, x, y, hg1, hg, hj, hk, stepAdj_symm hs⟩

theorem adj_ne {row col k j : Int} (h : Adj row col k j) : k ≠ j := by
  obtain ⟨x, y, x1, y1, hg, hg1, hk, hj, hs⟩ := h
  intro e
  rw [hk, hj] at e
  obtain ⟨e1, e2⟩ := idx_inj hg hg1 e
  unfold StepAdj at hs
  simp only at hs
  omega

/-- The cells adjacent to the cell at `(x, y)` are the listed neighbours. -/
theorem adj_iff_mem_nbrs {row col x y j : Int} (hg : InGrid row col x y) :
    Adj row col (y * col + x) j ↔ j ∈ nbrs row col x y := by
  obtain ⟨a1, a2, a3, a4⟩ := hg
  have hg : InGrid row col x y := ⟨a1, a2, a3, a4⟩
  constructor
  · rintro ⟨x0, y0, x1, y1, hg0, hg1, hk, hj, hs⟩
    obtain ⟨e1, e2⟩ := idx_inj hg hg0 hk
    subst e1 e2
    obtain ⟨b1, b2, b3, b4⟩ := hg1
    unfold StepAdj at hs
    simp only at hs
    unfold nbrs
    simp only [List.mem_append]
    rcases hs with ⟨s1, s2⟩ | ⟨s1, s2⟩ | ⟨s1, s2⟩ | ⟨s1, s2⟩
    · left
      rw [if_pos (by omega), hj, s1, s2]
      simp
      ring
    · right; left
      rw [if_pos (by omega), hj, s1, s2]
      simp
      ring
    · right; right; left
      rw [if_pos (by omega), hj, s1, s2]
      simp
      ring
    · right; right; right
      rw [if_pos (by omega), hj, s1, s2]
      simp
      ring
  · intro hmem
    unfold nbrs at hmem
    simp only [List.mem_append] at hmem
    rcases hmem with hm | hm | hm | hm
    · split at hm
      · simp only [List.mem_singleton] at hm
        exact ⟨x, y, x - 1, y, hg, ⟨by omega, by omega, a3, a4⟩, rfl, by rw [hm]; ring,
          Or.inl ⟨rfl, rfl⟩⟩
      · simp at hm
    · split at hm
      · simp only [List.mem_singleton] at hm
        exact ⟨x, y, x, y - 1, hg, ⟨a1, a2, by omega, by omega⟩, rfl, by rw [hm]; ring,
          Or.inr (Or.inl ⟨rfl, rfl⟩)⟩
      · simp at hm
    · split at hm
      · simp only [List.mem_singleton] at hm
        exact ⟨x, y, x + 1, y, hg, ⟨by omega, by omega, a3, a4⟩, rfl, by rw [hm]; ring,
          Or.inr (Or.inr (Or.inl ⟨rfl, rfl⟩))⟩
      · simp at hm
    · split at hm
      · simp only [List.mem_singleton] at hm
        exact ⟨x, y, x, y + 1, hg, ⟨a1, a2, by omega, by omega⟩, rfl, by rw [hm]; ring,
          Or.inr (Or.inr (Or.inr ⟨rfl, rfl⟩))⟩
      · simp at hm

/-! ## solve: one neighbour block -/

theorem visitNeighbor_skip {maze : Maze} (q : List Int) {h ni : Int} {curr nb : Node}
    (hc : getNode maze h = some curr) (hn : getNode maze ni = some nb)
    (hcond : ¬ (kindAt maze ni = '0' ∧ parentAt maze h ≠ some ni ∧ visitAt maze ni = false)) :
    visitNeighbor maze q h ni = some (maze, q) := by
  have e1 : kindAt maze ni = nb.c := by simp [kindAt, hn]
  have e2 : parentAt maze h = curr.parent := by simp [parentAt, hc]
  have e3 : visitAt maze ni = nb.visit := by simp [visitAt, hn]
  rw [e1, e2, e3] at hcond
  simp only [visitNeighbor, hc, hn]
  rw [if_neg hcond]

theorem visitNeighbor_adopt {maze : Maze} (q : List Int) {h ni : Int} {curr nb : Node}
    (hc : getNode maze h = some curr) (hn : getNode maze ni = some nb) (hne : h ≠ ni)
    (hk : kindAt maze ni = '0') (hp : parentAt maze h ≠ some ni) (hv : visitAt maze ni = false)
    (hi : 0 ≤ countAt maze h ∧ countAt maze h < 3) :
    ∃ maze1, visitNeighbor maze q h ni = some (maze1, q ++ [ni]) ∧ Adopted maze maze1 h ni := by
  have e1 : kindAt maze ni = nb.c := by simp [kindAt, hn]
  have e2 : parentAt maze h = curr.parent := by simp [parentAt, hc]
  have e3 : visitAt maze ni = nb.visit := by simp [visitAt, hn]
  have e4 : countAt maze h = curr.i := by simp [countAt, hc]
  rw [e4] at hi
  have hcond : nb.c = '0' ∧ curr.parent ≠ some ni ∧ nb.visit = false := by
    rw [← e1, ← e2, ← e3]
    exact ⟨hk, hp, hv⟩
  obtain ⟨h0, -⟩ := getNode_some_bounds hc
  obtain ⟨n0, -⟩ := getNode_some_bounds hn
  let curr1 : Node := { curr with child := curr.child.set curr.i.toNat (some ni), i := curr.i + 1 }
  let nb1 : Node := { nb with parent := some h, visit := true }
  have g1 : getNode (setNode maze h curr1) ni = some nb := by
    rw [getNode_setNode_other maze curr1 h0 (Ne.symm hne), hn]
  have hget : ∀ k, getNode (setNode (setNode maze h curr1) ni nb1) k =
      if k = ni then some nb1 else if k = h then some curr1 else getNode maze k := by
    intro k
    by_cases hk1 : k = ni
    · subst hk1
      rw [if_pos rfl, getNode_setNode_same nb1 g1]
    · rw [if_neg hk1, getNode_setNode_other _ nb1 n0 hk1]
      by_cases hk2 : k = h
      · subst hk2
        rw [if_pos rfl, getNode_setNode_same curr1 hc]
      · rw [if_neg hk2, getNode_setNode_other maze curr1 h0 hk2]
  refine ⟨setNode (setNode maze h curr1) ni nb1, ?_, ?_⟩
  · simp only [visitNeighbor, hc, hn]
    rw [if_pos hcond, if_pos hi]
    simp only [g1]
  · refine ⟨?_, ?_, ?_, ?_, ?_⟩
    · intro k
      unfold kindAt
      rw [hget]
      by_cases hk1 : k = ni
      · subst hk1
        rw [if_pos rfl, hn]
      · rw [if_neg hk1]
        by_cases hk2 : k = h
        · subst hk2
          rw [if_pos rfl, hc]
        · rw [if_neg hk2]
    · intro k
      unfold visitAt
      rw [hget]
      by_cases hk1 : k = ni
      · rw [if_pos hk1, if_pos hk1]
      · rw [if_neg hk1, if_neg hk1]
        by_cases hk2 : k = h
        · subst hk2
          rw [if_pos rfl, hc]
        · rw [if_neg hk2]
    · intro k
      unfold parentAt
      rw [hget]
      by_cases hk1 : k = ni
      · rw [if_pos hk1, if_pos hk1]
      · rw [if_neg hk1, if_neg hk1]
        by_cases hk2 : k = h
        · subst hk2
          rw [if_pos rfl, hc]
        · rw [if_neg hk2]
    · intro k
      unfold countAt
      rw [hget]
      by_cases hk2 : k = h
      · subst hk2
        rw [if_neg hne, if_pos rfl, if_pos rfl, hc]
      · rw [if_neg hk2, if_neg hk2]
        by_cases hk1 : k = ni
        · subst hk1
          rw [if_pos rfl, hn]
        · rw [if_neg hk1]
    · intro k n hkn
      rw [hget]
      by_cases hk1 : k = ni
      · subst hk1
        rw [hn] at hkn
        injection hkn with hkn
        subst hkn
        exact ⟨nb1, by rw [if_pos rfl], rfl, rfl, rfl⟩
      · rw [if_neg hk1]
        by_cases hk2 : k = h
        · subst hk2
          rw [hc] at hkn
          injection hkn with hkn
          subst hkn
          exact ⟨curr1, by rw [if_pos rfl], rfl, rfl, rfl⟩
        · rw [if_neg hk2]
          exact ⟨n, hkn, rfl, rfl, rfl⟩

theorem disc_adopt {row col : Int} {maze maze1 : Maze} {h ni : Int}
    (A : Adopted maze maze1 h ni) (hcell : Cell row col ni) (k : Int) :
    Disc row col maze1 k ↔ (Disc row col maze k ∨ k = ni) := by
  unfold Disc
  rw [A.visit k]
  constructor
  · rintro ⟨hc, hk⟩
    by_cases e : k = ni
    · exact Or.inr e
    · rw [if_neg e] at hk
      exact Or.inl ⟨hc, hk⟩
  · rintro (⟨hc, hk⟩ | e)
    · refine ⟨hc, ?_⟩
      by_cases e : k = ni
      · rw [if_pos e]
        exact Or.inr rfl
      · rw [if_neg e]
        exact hk
    · subst e
      exact ⟨hcell, Or.inr (by rw [if_pos rfl])⟩

/-- The neighbour examined is neither the entry nor discovered when it passes
the test of the neighbour block. -/
theorem adopt_fresh {row col : Int} {m0 maze : Maze} {d : Int → Nat} {h : Int} {t pend : List Int}
    {ni : Int} (M : Mid row col m0 maze d h t (ni :: pend)) (hadj : Adj row col h ni)
    (hp : parentAt maze h ≠ some ni) (hv : visitAt maze ni = false) :
    ni ≠ 0 ∧ ¬ Disc row col maze ni := by
  have hDh : Disc row col maze h := M.core.queue_disc h (List.mem_cons_self _ _)
  have hni0 : ni ≠ 0 := by
    intro e
    subst e
    exact hp (M.core.entry_nbr h hDh (adj_symm hadj))
  refine ⟨hni0, ?_⟩
  rintro ⟨-, e | e⟩
  · exact hni0 e
  · rw [hv] at e
    cases e

theorem head_depth_le {row col : Int} {m0 maze : Maze} {d : Int → Nat} {h : Int} {t : List Int}
    (C : Core row col m0 maze d (h :: t)) {k : Int} (hk : k ∈ h :: t) : d h ≤ d k := by
  rcases List.mem_cons.1 hk with e | e
  · rw [e]
  · exact (List.pairwise_cons.1 C.sorted).1 k e

theorem depth_pos {row col : Int} {m0 maze : Maze} {d : Int → Nat} {q : List Int}
    (C : Core row col m0 maze d q) {k : Int} (hk : Disc row col maze k) (h0 : k ≠ 0) :
    1 ≤ d k := by
  obtain ⟨p, -, -, -, e⟩ := C.disc_parent k hk h0
  omega

/-- The common part of the invariant is preserved by an adoption. -/
theorem core_adopt {row col : Int} {m0 maze maze1 : Maze} {d : Int → Nat} {h : Int}
    {t pend : List Int} {ni : Int} (M : Mid row col m0 maze d h t (ni :: pend))
    (hadj : Adj row col h ni) (hkind : kindAt maze ni = '0') (hp : parentAt maze h ≠ some ni)
    (hv : visitAt maze ni = false) (A : Adopted maze maze1 h ni) :
    Core row col m0 maze1 (Function.update d ni (d h + 1)) (h :: (t ++ [ni])) := by
  have C := M.core
  obtain ⟨hni0, hnD⟩ := adopt_fresh M hadj hp hv
  have hcell : Cell row col ni := adj_cell_right hadj
  have hne : h ≠ ni := adj_ne hadj
  have hDh : Disc row col maze h := C.queue_disc h (List.mem_cons_self _ _)
  have hD := @disc_adopt row col _ _ _ _ A hcell
  have dold : ∀ k, Disc row col maze k → Function.update d ni (d h + 1) k = d k := by
    intro k hk
    rw [Function.update_noteq]
    intro e
    subst e
    exact hnD hk
  have dnew : Function.update d ni (d h + 1) ni = d h + 1 := Function.update_same _ _ _
  have hnq : ni ∉ h :: t := fun hm => hnD (C.queue_disc ni hm)
  refine ⟨C.rows_pos, C.cols_pos, ?_, ?_, ?_, ?_, ?_, ?_, ?_, ?_, ?_, ?_, ?_, ?_, ?_, ?_, ?_⟩
  · intro x y hg
    obtain ⟨n, hn, hx, hy, hc⟩ := C.nodes x y hg
    obtain ⟨n1, hn1, e1, e2, e3⟩ := A.coords _ n hn
    exact ⟨n1, hn1, by rw [e1, hx], by rw [e2, hy], by rw [e3]; exact hc⟩
  · intro k hk
    rw [A.kind, C.kinds k hk]
  · rw [A.visit, if_neg (Ne.symm hni0)]
    exact C.entry_visit
  · rw [A.parent, if_neg (Ne.symm hni0)]
    exact C.entry_parent
  · intro k hk
    rw [A.kind]
    rcases (hD k).1 hk with hk | hk
    · exact C.disc_open k hk
    · rw [hk]
      exact hkind
  · intro k hk h0
    rcases (hD k).1 hk with hk | hk
    · obtain ⟨p, e1, e2, e3, e4⟩ := C.disc_parent k hk h0
      have hkne : k ≠ ni := fun e => hnD (e ▸ hk)
      refine ⟨p, by rw [A.parent, if_neg hkne]; exact e1, (hD p).2 (Or.inl e2), e3, ?_⟩
      rw [dold k hk, dold p e2, e4]
    · subst hk
      refine ⟨h, by rw [A.parent, if_pos rfl], (hD h).2 (Or.inl hDh), hadj, ?_⟩
      rw [dnew, dold h hDh]
  · intro k hk hnd
    have hkne : k ≠ ni := fun e => hnd ((hD k).2 (Or.inr e))
    rw [A.parent, if_neg hkne]
    exact C.undisc_parent k hk (fun e => hnd ((hD k).2 (Or.inl e)))
  · rw [Function.update_noteq (Ne.symm hni0)]
    exact C.d_entry
  · intro k j hk hj hkj
    rcases (hD k).1 hk with hk | hk <;> rcases (hD j).1 hj with hj | hj
    · rw [dold k hk, dold j hj]
      exact C.lip k j hk hj hkj
    · subst hj
      rw [dnew, dold k hk]
      have : k ∈ h :: t := by
        rcases M.closed k j hk hkj hkind with e | e | e
        · exact absurd e hnD
        · exact List.mem_cons_of_mem _ e
        · rw [e.1]
          exact List.mem_cons_self _ _
      have := head_depth_le C this
      omega
    · subst hk
      rw [dnew, dold j hj]
      have := C.near h rfl j hj
      omega
    · subst hk
      exact absurd hj.symm (adj_ne hkj)
  · intro k hk
    rcases List.mem_cons.1 hk with e | e
    · rw [e]
      exact (hD h).2 (Or.inl hDh)
    · rcases List.mem_append.1 e with e | e
      · exact (hD k).2 (Or.inl (C.queue_disc k (List.mem_cons_of_mem _ e)))
      · rw [List.mem_singleton] at e
        exact (hD k).2 (Or.inr e)
  · have : h :: (t ++ [ni]) = (h :: t) ++ [ni] := rfl
    rw [this]
    refine List.Nodup.append C.queue_nodup (List.nodup_singleton ni) ?_
    intro a ha hb
    rw [List.mem_singleton] at hb
    subst hb
    exact hnq ha
  · have : h :: (t ++ [ni]) = (h :: t) ++ [ni] := rfl
    rw [this, List.pairwise_append]
    refine ⟨?_, List.pairwise_singleton _ _, ?_⟩
    · refine C.sorted.imp_of_mem ?_
      intro a b ha hb hab
      rw [dold a (C.queue_disc a ha), dold b (C.queue_disc b hb)]
      exact hab
    · intro a ha b hb
      rw [List.mem_singleton] at hb
      subst hb
      rw [dnew, dold a (C.queue_disc a ha)]
      exact C.near h rfl a (C.queue_disc a ha)
  · intro h1 hh1 k hk
    simp only [List.head?_cons, Option.some.injEq] at hh1
    subst hh1
    rw [dold h hDh]
    rcases (hD k).1 hk with hk | hk
    · rw [dold k hk]
      exact C.near h rfl k hk
    · subst hk
      rw [dnew]
  · intro k hk h0k
    rcases (hD k).1 hk with hk | hk
    · have hkne : k ≠ ni := fun e => hnD (e ▸ hk)
      rw [A.parent, if_neg hkne]
      exact C.entry_nbr k hk h0k
    · subst hk
      rw [A.parent, if_pos rfl]
      have hD0 : Disc row col maze 0 := ⟨cell_zero C.rows_pos C.cols_pos, Or.inl rfl⟩
      have hmem : (0 : Int) ∈ h :: t := by
        rcases M.closed 0 k hD0 h0k hkind with e | e | e
        · exact absurd e hnD
        · exact List.mem_cons_of_mem _ e
        · rw [← e.1]
          exact List.mem_cons_self _ _
      have h1 := head_depth_le C hmem
      rw [C.d_entry] at h1
      by_contra hne0
      have := depth_pos C hDh (fun e => hne0 (by rw [e]))
      omega
  · intro k hk hkq
    rcases (hD k).1 hk with hk | hk
    · apply C.goal_queued k hk
      intro hm
      apply hkq
      rcases List.mem_cons.1 hm with e | e
      · rw [e]
        exact List.mem_cons_self _ _
      · exact List.mem_cons_of_mem _ (List.mem_append_left _ e)
    · exfalso
      apply hkq
      rw [hk]
      exact List.mem_cons_of_mem _ (List.mem_append_right _ (List.mem_singleton_self _))

/-- The invariant of an expansion is preserved by an adoption. -/
theorem mid_adopt {row col : Int} {m0 maze maze1 : Maze} {d : Int → Nat} {h : Int}
    {t pend : List Int} {ni : Int} (M : Mid row col m0 maze d h t (ni :: pend))
    (hadj : Adj row col h ni) (hkind : kindAt maze ni = '0') (hp : parentAt maze h ≠ some ni)
    (hv : visitAt maze ni = false) (A : Adopted maze maze1 h ni) :
    Mid row col m0 maze1 (Function.update d ni (d h + 1)) h (t ++ [ni]) pend := by
  have C := M.core
  obtain ⟨hni0, hnD⟩ := adopt_fresh M hadj hp hv
  have hcell : Cell row col ni := adj_cell_right hadj
  have hne : h ≠ ni := adj_ne hadj
  have hDh : Disc row col maze h := C.queue_disc h (List.mem_cons_self _ _)
  have hD := @disc_adopt row col _ _ _ _ A hcell
  have hht : h ∉ t := (List.nodup_cons.1 C.queue_nodup).1
  refine ⟨core_adopt M hadj hkind hp hv A, ?_, ?_, ?_⟩
  · intro k j hk hkj hj
    rw [A.kind] at hj
    rcases (hD k).1 hk with hk | hk
    · rcases M.closed k j hk hkj hj with e | e | ⟨e1, e2⟩
      · exact Or.inl ((hD j).2 (Or.inl e))
      · exact Or.inr (Or.inl (List.mem_append_left _ e))
      · rcases List.mem_cons.1 e2 with e2 | e2
        · exact Or.inl ((hD j).2 (Or.inr e2))
        · exact Or.inr (Or.inr ⟨e1, e2⟩)
    · exact Or.inr (Or.inl (by rw [hk]; exact List.mem_append_right _ (List.mem_singleton_self _)))
  · intro k hk hcase
    have hkh : k ≠ h := by
      rcases hcase with e | e
      · rcases List.mem_append.1 e with e | e
        · exact fun e2 => hht (e2 ▸ e)
        · rw [List.mem_singleton] at e
          rw [e]
          exact Ne.symm hne
      · exact fun e2 => e ((hD k).2 (Or.inl (e2 ▸ hDh)))
    rw [A.count, if_neg hkh]
    apply M.counts k hk
    rcases hcase with e | e
    · rcases List.mem_append.1 e with e | e
      · exact Or.inl e
      · rw [List.mem_singleton] at e
        rw [e]
        exact Or.inr hnD
    · exact Or.inr (fun e2 => e ((hD k).2 (Or.inl e2)))
  · obtain ⟨c1, c2⟩ := M.head_count
    rw [A.count, if_pos rfl, A.parent, if_neg hne]
    rw [List.filter_cons_of_pos (by simpa using hp)] at c2
    simp only [List.length_cons, Nat.cast_add, Nat.cast_one] at c2
    exact ⟨by omega, by omega⟩

/-- The invariant of an expansion is preserved when the neighbour fails the test. -/
theorem mid_skip {row col : Int} {m0 maze : Maze} {d : Int → Nat} {h : Int}
    {t pend : List Int} {ni : Int} (M : Mid row col m0 maze d h t (ni :: pend))
    (hadj : Adj row col h ni)
    (hcond : ¬ (kindAt maze ni = '0' ∧ parentAt maze h ≠ some ni ∧ visitAt maze ni = false)) :
    Mid row col m0 maze d h t pend := by
  have C := M.core
  have hDh : Disc row col maze h := C.queue_disc h (List.mem_cons_self _ _)
  refine ⟨C, ?_, M.counts, ?_⟩
  · intro k j hk hkj hj
    rcases M.closed k j hk hkj hj with e | e | ⟨e1, e2⟩
    · exact Or.inl e
    · exact Or.inr (Or.inl e)
    · rcases List.mem_cons.1 e2 with e2 | e2
      · subst e2
        left
        by_cases hv : visitAt maze j = true
        · exact ⟨adj_cell_right hadj, Or.inr hv⟩
        · have hv2 : visitAt maze j = false := by simpa using hv
          have hp : parentAt maze h = some j := by
            by_contra hp
            exact hcond ⟨hj, hp, hv2⟩
          have h0 : h ≠ 0 := by
            intro e
            rw [e, C.entry_parent] at hp
            cases hp
          obtain ⟨p, e3, e4, -, -⟩ := C.disc_parent h hDh h0
          rw [hp] at e3
          injection e3 with e3
          rw [e3]
          exact e4
      · exact Or.inr (Or.inr ⟨e1, e2⟩)
  · obtain ⟨c1, c2⟩ := M.head_count
    refine ⟨c1, ?_⟩
    have := (List.Sublist.filter (fun k => decide (parentAt maze h ≠ some k))
      (List.sublist_cons_self ni pend)).length_le
    omega

/-- An adoption takes exactly one cell out of the unvisited cells. -/
theorem unvisited_adopt {row col : Int} {maze maze1 : Maze} {h ni : Int}
    (A : Adopted maze maze1 h ni) (hcell : Cell row col ni) (hv : visitAt maze ni = false) :
    unvisited row col maze1 + 1 = unvisited row col maze := by
  unfold unvisited
  have hmem : ni ∈ (Finset.Ico (0 : Int) (row * col)).filter (fun k => visitAt maze k = false) := by
    rw [Finset.mem_filter, Finset.mem_Ico]
    exact ⟨cell_bounds hcell, hv⟩
  have heq : (Finset.Ico (0 : Int) (row * col)).filter (fun k => visitAt maze1 k = false)
      = ((Finset.Ico (0 : Int) (row * col)).filter (fun k => visitAt maze k = false)).erase ni := by
    ext k
    rw [Finset.mem_erase, Finset.mem_filter, Finset.mem_filter, A.visit]
    by_cases e : k = ni
    · rw [if_pos e]
      simp [e]
    · rw [if_neg e]
      simp [e]
  rw [heq, Finset.card_erase_of_mem hmem]
  have := Finset.card_pos.2 ⟨ni, hmem⟩
  omega

/-- One neighbour block, run on a true neighbour of the queue head. -/
theorem visitNeighbor_mid {row col : Int} {m0 maze : Maze} {d : Int → Nat} {h : Int}
    {t pend : List Int} {ni : Int} (M : Mid row col m0 maze d h t (ni :: pend))
    (hadj : Adj row col h ni) :
    ∃ maze1 t1 d1, visitNeighbor maze (h :: t) h ni = some (maze1, h :: t1) ∧
      Mid row col m0 maze1 d1 h t1 pend ∧
      unvisited row col maze1 + t1.length = unvisited row col maze + t.length := by
  have C := M.core
  obtain ⟨x, y, hgx, hx⟩ := adj_cell_left hadj
  obtain ⟨x1, y1, hgx1, hx1⟩ := adj_cell_right hadj
  obtain ⟨curr, hc, -⟩ := C.nodes x y hgx
  obtain ⟨nb, hn, -⟩ := C.nodes x1 y1 hgx1
  rw [← hx] at hc
  rw [← hx1] at hn
  by_cases hcond : kindAt maze ni = '0' ∧ parentAt maze h ≠ some ni ∧ visitAt maze ni = false
  · obtain ⟨hk, hp, hv⟩ := hcond
    have hi : 0 ≤ countAt maze h ∧ countAt maze h < 3 := by
      obtain ⟨c1, c2⟩ := M.head_count
      rw [List.filter_cons_of_pos (by simpa using hp)] at c2
      simp only [List.length_cons, Nat.cast_add, Nat.cast_one] at c2
      exact ⟨c1, by omega⟩
    obtain ⟨maze1, hvn, A⟩ := visitNeighbor_adopt (h :: t) hc hn (adj_ne hadj) hk hp hv hi
    refine ⟨maze1, t ++ [ni], _, hvn, mid_adopt M hadj hk hp hv A, ?_⟩
    have := unvisited_adopt A (adj_cell_right hadj) hv
    simp only [List.length_append, List.length_singleton]
    omega
  · exact ⟨maze, t, d, visitNeighbor_skip (h :: t) hc hn hcond, mid_skip M hadj hcond, rfl⟩

/-! ## solve: the expansion of the queue head -/

theorem guardedVisit_mid {row col : Int} {m0 maze : Maze} {d : Int → Nat} {h : Int}
    {t pend : List Int} {ni : Int} (b : Bool)
    (M : Mid row col m0 maze d h t ((if b then [ni] else []) ++ pend))
    (hb : b = true → Adj row col h ni) :
    ∃ maze1 t1 d1, guardedVisit b (maze, h :: t) h ni = some (maze1, h :: t1) ∧
      Mid row col m0 maze1 d1 h t1 pend ∧
      unvisited row col maze1 + t1.length = unvisited row col maze + t.length := by
  cases b with
  | false => exact ⟨maze, t, d, rfl, by simpa using M, rfl⟩
  | true =>
    simp only [if_true, List.singleton_append] at M
    exact visitNeighbor_mid M (hb rfl)

theorem length_nbrs_le (row col x y : Int) : (nbrs row col x y).length ≤ 4 := by
  unfold nbrs
  simp only [List.length_append]
  split <;> split <;> split <;> split <;> simp

/-- The invariant between two calls gives the invariant at the start of the
expansion of the queue head. -/
theorem mid_start {row col : Int} {m0 maze : Maze} {d : Int → Nat} {h : Int} {t : List Int}
    {x y : Int} (B : Between row col m0 maze d (h :: t)) (hg : InGrid row col x y)
    (hh : h = y * col + x) : Mid row col m0 maze d h t (nbrs row col x y) := by
  have C := B.core
  have hDh : Disc row col maze h := C.queue_disc h (List.mem_cons_self _ _)
  refine ⟨C, ?_, ?_, ?_⟩
  · intro k j hk hkj hj
    rcases B.closed k j hk hkj hj with e | e
    · exact Or.inl e
    · rcases List.mem_cons.1 e with e | e
      · right; right
        refine ⟨e, ?_⟩
        rw [e, hh] at hkj
        exact (adj_iff_mem_nbrs hg).1 hkj
      · exact Or.inr (Or.inl e)
  · intro k hk hcase
    apply B.counts k hk
    rcases hcase with e | e
    · exact Or.inl (List.mem_cons_of_mem _ e)
    · exact Or.inr e
  · have h0 : countAt maze h = 0 :=
      B.counts h hDh.1 (Or.inl (List.mem_cons_self _ _))
    rw [h0]
    refine ⟨le_refl _, ?_⟩
    have hlen := length_nbrs_le row col x y
    by_cases hz : h = 0
    · have e0 : (0 : Int) * col + 0 = y * col + x := by rw [← hh, hz]; ring
      obtain ⟨ex, ey⟩ := @idx_inj row col _ _ _ _
        ⟨le_refl 0, by have := C.cols_pos; omega, le_refl 0, by have := C.rows_pos; omega⟩ hg e0
      have hl2 : (nbrs row col x y).length ≤ 2 := by
        unfold nbrs
        rw [if_neg (by omega), if_neg (by omega)]
        simp only [List.nil_append, List.length_append]
        split <;> split <;> simp
      have := (List.filter_sublist (p := fun k => decide (parentAt maze h ≠ some k))
        (nbrs row col x y)).length_le
      omega
    · obtain ⟨p, e1, -, e3, -⟩ := C.disc_parent h hDh hz
      have hmem : p ∈ nbrs row col x y := by
        apply (adj_iff_mem_nbrs hg).1
        rw [← hh]
        exact adj_symm e3
      have : ((nbrs row col x y).filter (fun k => decide (parentAt maze h ≠ some k))).length
          < (nbrs row col x y).length := by
        rw [List.length_filter_lt_length_iff_exists]
        exact ⟨p, hmem, by simp [e1]⟩
      omega

/-- The invariant at the end of an expansion gives the invariant for the next call. -/
theorem mid_done {row col : Int} {m0 maze : Maze} {d : Int → Nat} {h : Int} {t : List Int}
    (M : Mid row col m0 maze d h t []) (hgoal : h ≠ (row - 1) * col + (col - 1)) :
    Between row col m0 maze d t := by
  have C := M.core
  have hDh : Disc row col maze h := C.queue_disc h (List.mem_cons_self _ _)
  refine ⟨⟨C.rows_pos, C.cols_pos, C.nodes, C.kinds, C.entry_visit, C.entry_parent, C.disc_open,
    C.disc_parent, C.undisc_parent, C.d_entry, C.lip, ?_, ?_, ?_, ?_, C.entry_nbr, ?_⟩, ?_,
    M.counts⟩
  · intro k hk
    exact C.queue_disc k (List.mem_cons_of_mem _ hk)
  · exact (List.nodup_cons.1 C.queue_nodup).2
  · exact (List.pairwise_cons.1 C.sorted).2
  · intro h2 hh2 k hk
    have hm : h2 ∈ t := List.mem_of_mem_head? hh2
    have e1 := head_depth_le C (List.mem_cons_of_mem h hm)
    have e2 := C.near h rfl k hk
    omega
  · intro k hk hkt
    by_cases e : k = h
    · rw [e]
      exact hgoal
    · apply C.goal_queued k hk
      intro hm
      rcases List.mem_cons.1 hm with e2 | e2
      · exact e e2
      · exact hkt e2
  · intro k j hk hkj hj
    rcases M.closed k j hk hkj hj with e | e | ⟨-, e⟩
    · exact Or.inl e
    · exact Or.inr e
    · simp at e

/-- The four neighbour blocks run on the queue head. -/
theorem expand_between {row col : Int} {m0 maze : Maze} {d : Int → Nat} {h : Int} {t : List Int}
    {x y : Int} (B : Between row col m0 maze d (h :: t)) (hg : InGrid row col x y)
    (hh : h = y * col + x) :
    ∃ maze1 t1 d1, expand row col maze (h :: t) h x y = some (maze1, h :: t1) ∧
      Mid row col m0 maze1 d1 h t1 [] ∧
      unvisited row col maze1 + t1.length = unvisited row col maze + t.length := by
  have M0 := mid_start B hg hh
  have hadj : ∀ j, j ∈ nbrs row col x y → Adj row col h j := by
    intro j hj
    rw [hh]
    exact (adj_iff_mem_nbrs hg).2 hj
  unfold nbrs at M0 hadj
  simp only [List.mem_append] at hadj
  have a1 : decide (x - 1 ≥ 0) = true → Adj row col h (y * col + x - 1) := by
    intro hb
    apply hadj
    left
    rw [if_pos (by simpa using hb)]
    simp
  have a2 : decide (y - 1 ≥ 0) = true → Adj row col h (y * col + x - col) := by
    intro hb
    apply hadj
    right; left
    rw [if_pos (by simpa using hb)]
    simp
  have a3 : decide (x + 1 < col) = true → Adj row col h (y * col + x + 1) := by
    intro hb
    apply hadj
    right; right; left
    rw [if_pos (by simpa using hb)]
    simp
  have a4 : decide (y + 1 < row) = true → Adj row col h (y * col + x + col) := by
    intro hb
    apply hadj
    right; right; right
    rw [if_pos (by simpa using hb)]
    simp
  have c1 : (if x - 1 ≥ 0 then [y * col + x - 1] else [])
      = (if decide (x - 1 ≥ 0) = true then [y * col + x - 1] else []) := by simp
  have c2 : (if y - 1 ≥ 0 then [y * col + x - col] else [])
      = (if decide (y - 1 ≥ 0) = true then [y * col + x - col] else []) := by simp
  have c3 : (if x + 1 < col then [y * col + x + 1] else [])
      = (if decide (x + 1 < col) = true then [y * col + x + 1] else []) := by simp
  have c4 : (if y + 1 < row then [y * col + x + col] else [])
      = (if decide (y + 1 < row) = true then [y * col + x + col] else []) := by simp
  rw [c1, c2, c3, c4] at M0
  obtain ⟨m1, t1, d1, h1, M1, u1⟩ := guardedVisit_mid _ M0 a1
  obtain ⟨m2, t2, d2, h2, M2, u2⟩ := guardedVisit_mid _ M1 a2
  obtain ⟨m3, t3, d3, h3, M3, u3⟩ := guardedVisit_mid _ M2 a3
  have M3b : Mid row col m0 m3 d3 h t3
      ((if decide (y + 1 < row) = true then [y * col + x + col] else []) ++ []) := by
    simpa using M3
  obtain ⟨m4, t4, d4, h4, M4, u4⟩ := guardedVisit_mid _ M3b a4
  refine ⟨m4, t4, d4, ?_, M4, by omega⟩
  simp only [expand, h1, h2, h3, h4]

/-! ## solve: the search as a whole -/

theorem unvisited_pos {row col : Int} {m0 maze : Maze} {d : Int → Nat} {q : List Int}
    (C : Core row col m0 maze d q) : 1 ≤ unvisited row col maze := by
  unfold unvisited
  apply Finset.card_pos.2
  refine ⟨0, ?_⟩
  rw [Finset.mem_filter, Finset.mem_Ico]
  exact ⟨cell_bounds (cell_zero C.rows_pos C.cols_pos), C.entry_visit⟩

theorem goal_index_iff {row col x y : Int} (hg : InGrid row col x y) :
    (x = col - 1 ∧ y = row - 1) ↔ y * col + x = (row - 1) * col + (col - 1) := by
  constructor
  · rintro ⟨rfl, rfl⟩
    rfl
  · intro e
    obtain ⟨a1, a2, a3, a4⟩ := hg
    exact @idx_inj row col _ _ _ _ ⟨a1, a2, a3, a4⟩ ⟨by omega, by omega, by omega, by omega⟩ e

/-- With enough fuel `solve` returns; the invariant holds for the array it
leaves, with the goal at the head of the queue when it answers 1 and with an
empty queue when it answers 0. -/
theorem solve_between {row col : Int} {m0 : Maze} (fuel : Nat) :
    ∀ (maze : Maze) (q : List Int) (d : Int → Nat), Between row col m0 maze d q →
      unvisited row col maze + q.length ≤ fuel →
      ∃ b maze1 d1 q1, solve fuel row col maze q = some (b, maze1) ∧
        Between row col m0 maze1 d1 q1 ∧
        (b = true → q1.head? = some ((row - 1) * col + (col - 1))) ∧
        (b = false → q1 = []) := by
  induction fuel with
  | zero =>
    intro maze q d B hf
    have := unvisited_pos B.core
    omega
  | succ fuel ih =>
    intro maze q d B hf
    cases q with
    | nil => exact ⟨false, maze, d, [], rfl, B, fun e => Bool.noConfusion e, fun _ => rfl⟩
    | cons h t =>
      have C := B.core
      obtain ⟨⟨x, y, hg, hh⟩, -⟩ := C.queue_disc h (List.mem_cons_self _ _)
      obtain ⟨curr, hc, hx, hy, -⟩ := C.nodes x y hg
      rw [← hh] at hc
      by_cases hgoal : curr.x = col - 1 ∧ curr.y = row - 1
      · refine ⟨true, maze, d, h :: t, ?_, B, fun _ => ?_, fun e => Bool.noConfusion e⟩
        · simp only [solve, hc]
          rw [if_pos hgoal]
        · rw [hx, hy] at hgoal
          rw [List.head?_cons, hh, (goal_index_iff hg).1 hgoal]
      · obtain ⟨maze1, t1, d1, he, M, hu⟩ := expand_between B hg hh
        have hne : h ≠ (row - 1) * col + (col - 1) := by
          intro e
          apply hgoal
          rw [hx, hy]
          exact (goal_index_iff hg).2 (by rw [← hh, e])
        have B1 := mid_done M hne
        simp only [List.length_cons] at hf
        obtain ⟨b, maze2, d2, q2, hs, B2, g1, g2⟩ := ih maze1 t1 d1 B1 (by omega)
        refine ⟨b, maze2, d2, q2, ?_, B2, g1, g2⟩
        simp only [solve, hc]
        rw [if_neg hgoal, hx, hy, he]
        exact hs

/-- More fuel does not change a result of `solve`. -/
theorem solve_fuel_mono {row col : Int} (fuel : Nat) :
    ∀ (maze : Maze) (q : List Int) (r : Bool × Maze),
      solve fuel row col maze q = some r → solve (fuel + 1) row col maze q = some r := by
  induction fuel with
  | zero =>
    intro maze q r h
    simp [solve] at h
  | succ fuel ih =>
    intro maze q r h
    cases q with
    | nil =>
      simp only [solve] at h ⊢
      exact h
    | cons hd t =>
      cases hc : getNode maze hd with
      | none =>
        simp only [solve, hc] at h
        cases h
      | some curr =>
        by_cases hg : curr.x = col - 1 ∧ curr.y = row - 1
        · simp only [solve, hc, if_pos hg] at h ⊢
          exact h
        · cases he : expand row col maze (hd :: t) hd curr.x curr.y with
          | none =>
            simp only [solve, hc, if_neg hg, he] at h
            cases h
          | some s =>
            have h2 : solve fuel row col s.1 s.2.tail = some r := by
              have h3 := h
              simp only [solve, hc, he] at h3
              rw [if_neg hg] at h3
              exact h3
            have h4 := ih _ _ _ h2
            show solve (fuel + 1 + 1) row col maze (hd :: t) = some r
            rw [solve]
            simp only [hc, he]
            rw [if_neg hg]
            exact h4

theorem solve_fuel_le {row col : Int} {fuel fuel1 : Nat} (hle : fuel ≤ fuel1) {maze : Maze}
    {q : List Int} {r : Bool × Maze} (h : solve fuel row col maze q = some r) :
    solve fuel1 row col maze q = some r := by
  induction hle with
  | refl => exact h
  | step _ ih => exact solve_fuel_mono _ _ _ _ ih

/-- The invariant holds when `main` calls `solve` on a fresh grid whose entry is open. -/
theorem between_init {row col : Int} {maze : Maze} (hf : FreshGrid row col maze)
    (hopen : kindAt maze 0 = '0') : Between row col maze maze (fun _ => 0) [0] := by
  obtain ⟨⟨hr, hc, hnodes⟩, hfresh⟩ := hf
  have hcell0 := cell_zero hr hc
  have hvis : ∀ k, Cell row col k → visitAt maze k = false := by
    rintro k ⟨x, y, hg, rfl⟩
    exact (hfresh x y hg).1
  have hdisc : ∀ k, Disc row col maze k → k = 0 := by
    rintro k ⟨hk, e | e⟩
    · exact e
    · rw [hvis k hk] at e
      cases e
  have hpar : ∀ k, Cell row col k → parentAt maze k = none := by
    rintro k ⟨x, y, hg, rfl⟩
    exact (hfresh x y hg).2.1
  refine ⟨⟨hr, hc, hnodes, fun _ _ => rfl, hvis 0 hcell0, hpar 0 hcell0, ?_, ?_, ?_, rfl, ?_, ?_,
    List.nodup_singleton 0, List.pairwise_singleton _ _, ?_, ?_, ?_⟩, ?_, ?_⟩
  · intro k hk
    rw [hdisc k hk]
    exact hopen
  · intro k hk h0
    exact absurd (hdisc k hk) h0
  · intro k hk _
    exact hpar k hk
  · intro k j _ _ _
    exact Nat.zero_le _
  · intro k hk
    rw [List.mem_singleton] at hk
    rw [hk]
    exact ⟨hcell0, Or.inl rfl⟩
  · intro h _ k _
    exact Nat.zero_le _
  · intro k hk hadj
    rw [hdisc k hk] at hadj
    exact absurd rfl (adj_ne hadj)
  · intro k hk hq
    exact absurd (List.mem_singleton.2 (hdisc k hk)) hq
  · intro k j hk _ _
    exact Or.inr (List.mem_singleton.2 (hdisc k hk))
  · rintro k ⟨x, y, hg, rfl⟩ _
    exact (hfresh x y hg).2.2

theorem unvisited_le (row col : Int) (maze : Maze) :
    unvisited row col maze ≤ (row * col).toNat := by
  unfold unvisited
  refine le_trans (Finset.card_filter_le _ _) ?_
  simp

/-! ## Paths in the grid and the depth of the discovered cells -/

/-- Along a chain of adjacent open cells the depth rises by at most one per
step, where an undiscovered cell counts as one deeper than the queue head. -/
theorem chain_depth {row col : Int} {m0 maze : Maze} {d : Int → Nat} {g : Int} {t : List Int}
    (B : Between row col m0 maze d (g :: t)) (l : List Int) :
    ∀ (a : Int) (n : Nat), List.Chain (Adj row col) a l → (∀ k ∈ a :: l, kindAt maze k = '0') →
      (Disc row col maze a → d a ≤ n) → (¬ Disc row col maze a → d g + 1 ≤ n) →
      ∀ z, (a :: l).getLast? = some z → Disc row col maze z → d z ≤ n + l.length := by
  have C := B.core
  induction l with
  | nil =>
    intro a n _ _ h1 _ z hz hD
    simp only [List.getLast?_singleton, Option.some.injEq] at hz
    subst hz
    have := h1 hD
    simp only [List.length_nil]
    omega
  | cons b l ih =>
    intro a n hch hopen h1 h2 z hz hD
    rw [List.chain_cons] at hch
    obtain ⟨hab, hch⟩ := hch
    have hz2 : (b :: l).getLast? = some z := by
      rw [List.getLast?_cons_cons] at hz
      exact hz
    have hbo : kindAt maze b = '0' := hopen b (by simp)
    have hb := ih b (n + 1) hch (fun k hk => hopen k (List.mem_cons_of_mem _ hk)) ?_ ?_ z hz2 hD
    · simp only [List.length_cons]
      omega
    · intro hbD
      by_cases ha : Disc row col maze a
      · have := C.lip a b ha hbD hab
        have := h1 ha
        omega
      · have := C.near g rfl b hbD
        have := h2 ha
        omega
    · intro hbD
      by_cases ha : Disc row col maze a
      · rcases B.closed a b ha hab hbo with e | e
        · exact absurd e hbD
        · have := head_depth_le C e
          have := h1 ha
          omega
      · have := h2 ha
        omega

/-- When the queue is empty every cell joined to a discovered cell by a chain
of adjacent open cells is discovered. -/
theorem chain_disc {row col : Int} {m0 maze : Maze} {d : Int → Nat}
    (B : Between row col m0 maze d []) (l : List Int) :
    ∀ a : Int, List.Chain (Adj row col) a l → (∀ k ∈ a :: l, kindAt maze k = '0') →
      Disc row col maze a → ∀ k ∈ a :: l, Disc row col maze k := by
  induction l with
  | nil =>
    intro a _ _ ha k hk
    simp only [List.mem_singleton] at hk
    rw [hk]
    exact ha
  | cons b l ih =>
    intro a hch hopen ha k hk
    rw [List.chain_cons] at hch
    obtain ⟨hab, hch⟩ := hch
    have hbD : Disc row col maze b := by
      rcases B.closed a b ha hab (hopen b (by simp)) with e | e
      · exact e
      · simp at e
    rcases List.mem_cons.1 hk with e | e
    · rw [e]
      exact ha
    · exact ih b hch (fun k hk => hopen k (List.mem_cons_of_mem _ hk)) hbD k e

/-- A path given by coordinates is a chain of adjacent cells given by flat indices. -/
theorem chain_of_path {row col : Int} {maze : Maze} (ps : List (Int × Int)) :
    ∀ p : Int × Int, List.Chain StepAdj p ps → (∀ r ∈ p :: ps, OpenCell row col maze r) →
      List.Chain (Adj row col) (idxOf col p) (ps.map (idxOf col)) ∧
        ∀ k ∈ idxOf col p :: ps.map (idxOf col), Cell row col k ∧ kindAt maze k = '0' := by
  induction ps with
  | nil =>
    intro p _ hopen
    refine ⟨List.Chain.nil, ?_⟩
    intro k hk
    simp only [List.map_nil, List.mem_singleton] at hk
    rw [hk]
    exact ⟨⟨p.1, p.2, (hopen p (by simp)).1, rfl⟩, (hopen p (by simp)).2⟩
  | cons r ps ih =>
    intro p hch hopen
    rw [List.chain_cons] at hch
    obtain ⟨hpr, hch⟩ := hch
    obtain ⟨h1, h2⟩ := ih r hch (fun s hs => hopen s (List.mem_cons_of_mem _ hs))
    refine ⟨?_, ?_⟩
    · rw [List.map_cons, List.chain_cons]
      exact ⟨⟨p.1, p.2, r.1, r.2, (hopen p (by simp)).1, (hopen r (by simp)).1, rfl, rfl, hpr⟩, h1⟩
    · intro k hk
      rw [List.map_cons] at hk
      rcases List.mem_cons.1 hk with e | e
      · rw [e]
        exact ⟨⟨p.1, p.2, (hopen p (by simp)).1, rfl⟩, (hopen p (by simp)).2⟩
      · exact h2 k e

/-- A chain of adjacent open cells given by flat indices is a path given by coordinates. -/
theorem path_of_chain {row col : Int} {maze : Maze} (L : List Int) :
    ∀ k : Int, List.Chain (Adj row col) k L →
      (∀ a ∈ k :: L, Cell row col a ∧ kindAt maze a = '0') →
      ∃ p ps, idxOf col p = k ∧ ps.map (idxOf col) = L ∧ List.Chain StepAdj p ps ∧
        ∀ r ∈ p :: ps, OpenCell row col maze r := by
  induction L with
  | nil =>
    intro k _ hopen
    obtain ⟨⟨x, y, hg, hk⟩, ho⟩ := hopen k (by simp)
    refine ⟨(x, y), [], hk.symm, rfl, List.Chain.nil, ?_⟩
    intro r hr
    simp only [List.mem_singleton] at hr
    subst hr
    exact ⟨hg, by rw [← hk]; exact ho⟩
  | cons b L ih =>
    intro k hch hopen
    rw [List.chain_cons] at hch
    obtain ⟨hkb, hch⟩ := hch
    obtain ⟨q, qs, e1, e2, e3, e4⟩ := ih b hch (fun a ha => hopen a (List.mem_cons_of_mem _ ha))
    obtain ⟨x, y, x1, y1, hg, hg1, hk, hb, hs⟩ := hkb
    have hq := (e4 q (by simp)).1
    have hqe : x1 = q.1 ∧ y1 = q.2 := by
      apply idx_inj hg1 hq
      rw [← hb, ← e1]
      rfl
    have hs2 : StepAdj (x, y) q := by
      have : q = (x1, y1) := by
        rw [hqe.1, hqe.2]
      rw [this]
      exact hs
    refine ⟨(x, y), q :: qs, hk.symm, by rw [List.map_cons, e1, e2], List.Chain.cons hs2 e3, ?_⟩
    intro r hr
    rcases List.mem_cons.1 hr with e | e
    · subst e
      exact ⟨hg, by rw [← hk]; exact (hopen k (by simp)).2⟩
    · exact e4 r e

/-! ## The parent chain of a discovered cell and updateMaze -/

/-- Every discovered cell is joined to the entry by its chain of parents, whose
length is the depth of the cell. -/
theorem parent_chain_exists {row col : Int} {m0 maze : Maze} {d : Int → Nat} {q : List Int}
    (C : Core row col m0 maze d q) (n : Nat) :
    ∀ k, Disc row col maze k → d k = n →
      ∃ L : List Int, ParentChain maze k L ∧ L.length = n ∧ (k :: L).getLast? = some 0 ∧
        List.Chain (fun a b => Adj row col b a) k L ∧
        (∀ a ∈ L, Disc row col maze a ∧ d a < d k) ∧
        (k :: L).Pairwise (fun a b => d b < d a) := by
  have hsome : ∀ k, Disc row col maze k → (getNode maze k).isSome := by
    rintro k ⟨⟨x, y, hg, rfl⟩, -⟩
    obtain ⟨nd, hn, -⟩ := C.nodes x y hg
    rw [hn]
    rfl
  induction n with
  | zero =>
    intro k hk hd
    have hk0 : k = 0 := by
      by_contra h0
      have := depth_pos C hk h0
      omega
    subst hk0
    exact ⟨[], ⟨hsome 0 hk, C.entry_parent⟩, rfl, rfl, List.Chain.nil, by simp, by simp⟩
  | succ n ih =>
    intro k hk hd
    have hk0 : k ≠ 0 := by
      intro e
      rw [e, C.d_entry] at hd
      omega
    obtain ⟨p, e1, e2, e3, e4⟩ := C.disc_parent k hk hk0
    obtain ⟨L, c1, c2, c3, c4, c5, c6⟩ := ih p e2 (by omega)
    refine ⟨p :: L, ⟨hsome k hk, e1, c1⟩, by simp [c2], ?_, List.Chain.cons e3 c4, ?_, ?_⟩
    · rw [List.getLast?_cons_cons]
      exact c3
    · intro a ha
      rcases List.mem_cons.1 ha with e | e
      · rw [e]
        exact ⟨e2, by omega⟩
      · have := c5 a e
        exact ⟨this.1, by omega⟩
    · rw [List.pairwise_cons]
      refine ⟨?_, c6⟩
      intro a ha
      rcases List.mem_cons.1 ha with e | e
      · rw [e]
        omega
      · have := c5 a e
        omega

theorem getNode_mark (maze : Maze) {k : Int} {n : Node} (hn : getNode maze k = some n) (j : Int) :
    getNode (setNode maze k (markNode n)) j =
      if j = k then some (markNode n) else getNode maze j := by
  by_cases e : j = k
  · subst e
    rw [if_pos rfl, getNode_setNode_same _ hn]
  · rw [if_neg e, getNode_setNode_other maze _ (getNode_some_bounds hn).1 e]

theorem parentChain_congr {maze maze1 : Maze} (hp : ∀ j, parentAt maze1 j = parentAt maze j)
    (hs : ∀ j, (getNode maze1 j).isSome = (getNode maze j).isSome) (L : List Int) :
    ∀ k, ParentChain maze k L → ParentChain maze1 k L := by
  induction L with
  | nil =>
    intro k h
    exact ⟨by rw [hs]; exact h.1, by rw [hp]; exact h.2⟩
  | cons p L ih =>
    intro k h
    exact ⟨by rw [hs]; exact h.1, by rw [hp]; exact h.2.1, ih p h.2.2⟩

/-- Run on a cell whose chain of parents is `L`, the loop of `updateMaze`
returns after `L.length + 1` iterations, having counted as many cells and
having replaced the kind of exactly the cells of the chain by the marker. -/
theorem updateMazeLoop_chain (L : List Int) :
    ∀ (fuel : Nat) (maze : Maze) (k : Int) (i : Int), ParentChain maze k L →
      L.length + 1 ≤ fuel →
      ∃ maze1, updateMazeLoop fuel maze (some k) i = some (i + (L.length + 1 : Nat), maze1) ∧
        ∀ j, getNode maze1 j =
          if j ∈ k :: L then (getNode maze j).map markNode else getNode maze j := by
  induction L with
  | nil =>
    intro fuel maze k i h hf
    obtain ⟨h1, h2⟩ := h
    cases fuel with
    | zero => simp at hf
    | succ fuel =>
      cases hn : getNode maze k with
      | none =>
        rw [hn] at h1
        cases h1
      | some n =>
        have hp : n.parent = none := by simpa [parentAt, hn] using h2
        have e : updateMazeLoop (fuel + 1) maze (some k) i
            = updateMazeLoop fuel (setNode maze k (markNode n)) n.parent (i + 1) := by
          simp only [updateMazeLoop, hn]
          rfl
        refine ⟨setNode maze k (markNode n), ?_, ?_⟩
        · rw [e, hp]
          cases fuel <;> simp [updateMazeLoop]
        · intro j
          rw [getNode_mark maze hn]
          by_cases e : j = k
          · subst e
            simp [hn]
          · simp [e]
  | cons p L ih =>
    intro fuel maze k i h hf
    obtain ⟨h1, h2, h3⟩ := h
    cases fuel with
    | zero => simp at hf
    | succ fuel =>
      cases hn : getNode maze k with
      | none =>
        rw [hn] at h1
        cases h1
      | some n =>
        have hp : n.parent = some p := by simpa [parentAt, hn] using h2
        have hget := getNode_mark maze hn
        have hch : ParentChain (setNode maze k (markNode n)) p L := by
          refine parentChain_congr ?_ ?_ L p h3
          · intro j
            unfold parentAt
            rw [hget]
            by_cases e : j = k
            · subst e
              rw [if_pos rfl, hn]
              rfl
            · rw [if_neg e]
          · intro j
            rw [hget]
            by_cases e : j = k
            · subst e
              rw [if_pos rfl, hn]
              rfl
            · rw [if_neg e]
        simp only [List.length_cons] at hf
        obtain ⟨maze1, r1, r2⟩ := ih fuel (setNode maze k (markNode n)) p (i + 1) hch (by omega)
        have e : updateMazeLoop (fuel + 1) maze (some k) i
            = updateMazeLoop fuel (setNode maze k (markNode n)) n.parent (i + 1) := by
          simp only [updateMazeLoop, hn]
          rfl
        refine ⟨maze1, ?_, ?_⟩
        · rw [e, hp, r1]
          simp only [List.length_cons]
          push_cast
          congr 2
          ring
        · intro j
          rw [r2, hget]
          by_cases e : j = k
          · subst e
            simp only [if_pos rfl, List.mem_cons, true_or, if_true, hn, Option.map_some']
            split <;> rfl
          · simp only [List.mem_cons, e, false_or, if_false]

/-! ## The solve sequence of main on a fresh grid -/

theorem goal_idx_eq (row col : Int) : (row - 1) * col + (col - 1) = row * col - 1 := by ring

theorem ingrid_entry {row col : Int} (hr : 1 ≤ row) (hc : 1 ≤ col) : InGrid row col 0 0 :=
  ⟨le_refl 0, by omega, le_refl 0, by omega⟩

theorem ingrid_goal {row col : Int} (hr : 1 ≤ row) (hc : 1 ≤ col) :
    InGrid row col (col - 1) (row - 1) :=
  ⟨by omega, by omega, by omega, by omega⟩

theorem kindAt_of_getNode {maze : Maze} {k : Int} {n : Node} (h : getNode maze k = some n) :
    kindAt maze k = n.c := by
  simp [kindAt, h]

/-- On a rectangular grid the solve sequence of `main` is the wall test on
the entry and the goal followed by `solve` on the queue holding the entry. -/
theorem solveSequence_rect {row col : Int} {maze : Maze} (hg : RectGrid row col maze)
    (fuel : Nat) :
    solveSequence fuel row col maze =
      if kindAt maze 0 ≠ '1' ∧ kindAt maze (row * col - 1) ≠ '1' then
        solve fuel row col maze [0]
      else some (false, maze) := by
  obtain ⟨hr, hc, hnodes⟩ := hg
  obtain ⟨n0, hn0, -⟩ := hnodes 0 0 (ingrid_entry hr hc)
  obtain ⟨ng, hng, -⟩ := hnodes (col - 1) (row - 1) (ingrid_goal hr hc)
  rw [goal_idx_eq] at hng
  have e0 : (0 : Int) * col + 0 = 0 := by ring
  rw [e0] at hn0
  rw [kindAt_of_getNode hn0, kindAt_of_getNode hng]
  simp only [solveSequence, hn0, hng]
  by_cases h1 : n0.c ≠ '1'
  · rw [if_pos h1]
    by_cases h2 : ng.c ≠ '1'
    · rw [if_pos h2, if_pos ⟨h1, h2⟩]
    · rw [if_neg h2, if_neg (fun h => h2 h.2)]
  · rw [if_neg h1, if_neg (fun h => h1 h.1)]

theorem kind_cases {row col : Int} {maze : Maze} (hg : RectGrid row col maze) {x y : Int}
    (hxy : InGrid row col x y) :
    kindAt maze (y * col + x) = '0' ∨ kindAt maze (y * col + x) = '1' := by
  obtain ⟨n, hn, -, -, hc⟩ := hg.2.2 x y hxy
  rw [kindAt_of_getNode hn]
  exact hc

/-- Whatever the fuel, a result of `solve` on a fresh grid with an open entry
leaves an array satisfying the search invariant. -/
theorem solve_result {row col : Int} {maze maze1 : Maze} {fuel : Nat} {b : Bool}
    (hf : FreshGrid row col maze) (hopen : kindAt maze 0 = '0')
    (hs : solve fuel row col maze [0] = some (b, maze1)) :
    ∃ d q, Between row col maze maze1 d q ∧
      (b = true → q.head? = some ((row - 1) * col + (col - 1))) ∧ (b = false → q = []) := by
  have B := between_init hf hopen
  obtain ⟨b2, maze2, d2, q2, hs2, B2, g1, g2⟩ :=
    solve_between (unvisited row col maze + 1) maze [0] _ B (by simp)
  have h1 := solve_fuel_le (Nat.le_max_left fuel (unvisited row col maze + 1)) hs
  have h2 := solve_fuel_le (Nat.le_max_right fuel (unvisited row col maze + 1)) hs2
  rw [h1] at h2
  injection h2 with h2
  injection h2 with e1 e2
  subst e1 e2
  exact ⟨d2, q2, B2, g1, g2⟩

/-- With fuel for one call per cell and one more, `solve` returns on a fresh
grid with an open entry. -/
theorem solve_total {row col : Int} {maze : Maze} {fuel : Nat}
    (hf : FreshGrid row col maze) (hopen : kindAt maze 0 = '0')
    (hfuel : (row * col).toNat + 1 ≤ fuel) :
    ∃ b maze1, solve fuel row col maze [0] = some (b, maze1) := by
  have B := between_init hf hopen
  have hle := unvisited_le row col maze
  obtain ⟨b2, maze2, d2, q2, hs2, -⟩ :=
    solve_between fuel maze [0] _ B (by simp only [List.length_singleton]; omega)
  exact ⟨b2, maze2, hs2⟩

theorem solveSequence_total {row col : Int} {maze : Maze} {fuel : Nat}
    (hf : FreshGrid row col maze) (hfuel : (row * col).toNat + 1 ≤ fuel) :
    ∃ b maze1, solveSequence fuel row col maze = some (b, maze1) := by
  rw [solveSequence_rect hf.1]
  by_cases h : kindAt maze 0 ≠ '1' ∧ kindAt maze (row * col - 1) ≠ '1'
  · rw [if_pos h]
    have h0 : kindAt maze 0 = '0' := by
      have := kind_cases hf.1 (ingrid_entry hf.1.1 hf.1.2.1)
      have e0 : (0 : Int) * col + 0 = 0 := by ring
      rw [e0] at this
      rcases this with e | e
      · exact e
      · exact absurd e h.1
    exact solve_total hf h0 hfuel
  · rw [if_neg h]
    exact ⟨false, maze, rfl⟩

/-- When the solve sequence answers 1 the entry is open and the answer is the
answer of `solve`. -/
theorem solveSequence_true {row col : Int} {maze maze1 : Maze} {fuel : Nat}
    (hf : FreshGrid row col maze)
    (hs : solveSequence fuel row col maze = some (true, maze1)) :
    kindAt maze 0 = '0' ∧ solve fuel row col maze [0] = some (true, maze1) := by
  rw [solveSequence_rect hf.1] at hs
  by_cases h : kindAt maze 0 ≠ '1' ∧ kindAt maze (row * col - 1) ≠ '1'
  · rw [if_pos h] at hs
    refine ⟨?_, hs⟩
    have := kind_cases hf.1 (ingrid_entry hf.1.1 hf.1.2.1)
    have e0 : (0 : Int) * col + 0 = 0 := by ring
    rw [e0] at this
    rcases this with e | e
    · exact e
    · exact absurd e h.1
  · rw [if_neg h] at hs
    injection hs with hs
    injection hs with e1 e2
    cases e1

theorem updateMazeLoop_fuel_mono (fuel : Nat) :
    ∀ (maze : Maze) (node : Option Int) (i : Int) (r : Int × Maze),
      updateMazeLoop fuel maze node i = some r →
      updateMazeLoop (fuel + 1) maze node i = some r := by
  induction fuel with
  | zero =>
    intro maze node i r h
    cases node with
    | none =>
      simp only [updateMazeLoop] at h ⊢
      exact h
    | some k => simp [updateMazeLoop] at h
  | succ fuel ih =>
    intro maze node i r h
    cases node with
    | none =>
      simp only [updateMazeLoop] at h ⊢
      exact h
    | some k =>
      cases hn : getNode maze k with
      | none => simp [updateMazeLoop, hn] at h
      | some n =>
        simp only [updateMazeLoop, hn] at h
        have := ih _ _ _ _ h
        rw [updateMazeLoop]
        simp only [hn]
        exact this

theorem updateMazeLoop_fuel_le {fuel fuel1 : Nat} (hle : fuel ≤ fuel1) {maze : Maze}
    {node : Option Int} {i : Int} {r : Int × Maze}
    (h : updateMazeLoop fuel maze node i = some r) :
    updateMazeLoop fuel1 maze node i = some r := by
  induction hle with
  | refl => exact h
  | step _ ih => exact updateMazeLoop_fuel_mono _ _ _ _ _ ih

theorem length_le_cells {row col : Int} (ks : List Int) (hn : ks.Nodup)
    (hc : ∀ k ∈ ks, Cell row col k) : ks.length ≤ (row * col).toNat := by
  rw [← List.toFinset_card_of_nodup hn]
  have : ks.toFinset ⊆ Finset.Ico (0 : Int) (row * col) := by
    intro k hk
    rw [List.mem_toFinset] at hk
    rw [Finset.mem_Ico]
    exact cell_bounds (hc k hk)
  have h2 := Finset.card_le_card this
  rw [Int.card_Ico] at h2
  simpa using h2

/-- Everything the claims need about a grid on which the solve sequence
answers 1. -/
theorem solved_facts {row col : Int} {maze maze1 : Maze} {fuel : Nat}
    (hf : FreshGrid row col maze)
    (hs : solveSequence fuel row col maze = some (true, maze1)) :
    ∃ n ps ks maze2, Solved row col maze maze1 n ps ks maze2 := by
  obtain ⟨hopen, hsolve⟩ := solveSequence_true hf hs
  obtain ⟨d, q, B, g1, -⟩ := solve_result hf hopen hsolve
  have hhead := g1 rfl
  cases q with
  | nil => simp at hhead
  | cons g t =>
    simp only [List.head?_cons, Option.some.injEq] at hhead
    have C := B.core
    have hDg : Disc row col maze1 g := C.queue_disc g (List.mem_cons_self _ _)
    obtain ⟨L, c1, c2, c3, c4, c5, c6⟩ := parent_chain_exists C (d g) g hDg rfl
    have hg2 : g = row * col - 1 := by rw [hhead, goal_idx_eq]
    have hdisc : ∀ a ∈ g :: L, Disc row col maze1 a := by
      intro a ha
      rcases List.mem_cons.1 ha with e | e
      · rw [e]
        exact hDg
      · exact (c5 a e).1
    have hkinds : ∀ x y, InGrid row col x y →
        kindAt maze1 (y * col + x) = kindAt maze (y * col + x) :=
      fun x y hxy => C.kinds _ ⟨x, y, hxy, rfl⟩
    have hopenL : ∀ a ∈ g :: L, Cell row col a ∧ kindAt maze a = '0' := by
      intro a ha
      have hD := hdisc a ha
      refine ⟨hD.1, ?_⟩
      rw [← C.kinds a hD.1]
      exact C.disc_open a hD
    have hnodup : (g :: L).Nodup := by
      refine c6.imp ?_
      intro a b hab e
      rw [e] at hab
      exact lt_irrefl _ hab
    obtain ⟨p, ps0, e1, e2, e3, e4⟩ :=
      @path_of_chain row col maze L g (c4.imp (fun a b hab => adj_symm hab)) hopenL
    have hmap : (p :: ps0).map (idxOf col) = g :: L := by rw [List.map_cons, e1, e2]
    obtain ⟨maze2, u1, u2⟩ := updateMazeLoop_chain L (L.length + 1) maze1 g 0 c1 (le_refl _)
    refine ⟨L.length + 1, (p :: ps0).reverse, g :: L, maze2, ?_⟩
    refine ⟨⟨⟨?_, ?_⟩, ?_, ?_⟩, ?_, ?_, ?_, ?_, ?_, ⟨L, by rw [hg2], by rw [← hg2]; exact c1⟩, ?_,
      u2, hkinds, ?_⟩
    · intro r hr
      exact e4 r (List.mem_reverse.1 hr)
    · rw [List.chain'_reverse]
      have : List.Chain' StepAdj (p :: ps0) := e3
      exact this.imp (fun {a b} hab => stepAdj_symm hab)
    · rw [List.head?_reverse]
      have h1 : ((p :: ps0).map (idxOf col)).getLast? = some 0 := by rw [hmap]; exact c3
      rw [List.getLast?_map] at h1
      cases hl : (p :: ps0).getLast? with
      | none =>
        rw [hl] at h1
        cases h1
      | some r =>
        rw [hl] at h1
        simp only [Option.map_some', Option.some.injEq] at h1
        have hr := (e4 r (List.mem_of_mem_getLast? hl)).1
        have e0 : r.2 * col + r.1 = 0 * col + 0 := by
          have : idxOf col r = r.2 * col + r.1 := rfl
          rw [← this, h1]
          ring
        obtain ⟨ex, ey⟩ := idx_inj hr (ingrid_entry C.rows_pos C.cols_pos) e0
        congr 1
        exact Prod.ext ex ey
    · rw [List.getLast?_reverse, List.head?_cons]
      have hp := (e4 p (List.mem_cons_self _ _)).1
      have e0 : p.2 * col + p.1 = (row - 1) * col + (col - 1) := by
        have : idxOf col p = p.2 * col + p.1 := rfl
        rw [← this, e1, hhead]
      obtain ⟨ex, ey⟩ := idx_inj hp (ingrid_goal C.rows_pos C.cols_pos) e0
      congr 1
      exact Prod.ext ex ey
    · rw [List.nodup_reverse]
      apply List.Nodup.of_map (idxOf col)
      rw [hmap]
      exact hnodup
    · rw [List.length_reverse, List.length_cons]
      have := congrArg List.length e2
      rw [List.length_map] at this
      omega
    · rw [List.map_reverse, hmap]
    · intro qs hqs
      obtain ⟨⟨ho, hch⟩, hh, hl⟩ := hqs
      cases qs with
      | nil => simp at hh
      | cons q0 rest =>
        simp only [List.head?_cons, Option.some.injEq] at hh
        obtain ⟨k1, k2⟩ := @chain_of_path row col maze rest q0 hch ho
        have hq0 : idxOf col q0 = 0 := by
          rw [hh]
          show (0 : Int) * col + 0 = 0
          ring
        rw [hq0] at k1 k2
        have hlast : ((0 : Int) :: rest.map (idxOf col)).getLast? = some g := by
          have h2 : ((q0 :: rest).map (idxOf col)).getLast? = some (idxOf col (col - 1, row - 1)) := by
            rw [List.getLast?_map, hl]
            rfl
          rw [List.map_cons, hq0] at h2
          rw [h2, hhead]
          rfl
        have hD0 : Disc row col maze1 0 := ⟨cell_zero C.rows_pos C.cols_pos, Or.inl rfl⟩
        have := chain_depth B (rest.map (idxOf col)) 0 0 k1
          (fun k hk => by rw [C.kinds k (k2 k hk).1]; exact (k2 k hk).2)
          (fun _ => by rw [C.d_entry]) (fun h => absurd hD0 h) g hlast hDg
        simp only [List.length_map] at this
        simp only [List.length_cons]
        omega
    · have := length_le_cells (g :: L) hnodup (fun k hk => (hdisc k hk).1)
      simpa using this
    · intro fuel2 hfuel2
      unfold updateMaze
      have := updateMazeLoop_fuel_le hfuel2 u1
      rw [← hg2, this]
      simp
    · intro j hj
      exact ⟨(hdisc j hj).1, C.disc_open j (hdisc j hj)⟩

theorem freshGrid_of_check {row col : Int} {maze : Maze} (h : checkFresh row col maze = true) :
    FreshGrid row col maze := by
  unfold checkFresh at h
  simp only [Bool.and_eq_true, decide_eq_true_eq, List.all_eq_true, List.mem_range] at h
  obtain ⟨⟨hr, hc⟩, hall⟩ := h
  have key : ∀ x y, InGrid row col x y → ∃ n, getNode maze (y * col + x) = some n ∧
      n.x = x ∧ n.y = y ∧ (n.c = '0' ∨ n.c = '1') ∧ n.visit = false ∧ n.parent = none ∧
      n.i = 0 := by
    intro x y ⟨a1, a2, a3, a4⟩
    have := hall y.toNat (by omega) x.toNat (by omega)
    have ex : ((x.toNat : Nat) : Int) = x := Int.toNat_of_nonneg a1
    have ey : ((y.toNat : Nat) : Int) = y := Int.toNat_of_nonneg a3
    rw [ex, ey] at this
    cases hn : getNode maze (y * col + x) with
    | none =>
      rw [hn] at this
      cases this
    | some n =>
      rw [hn] at this
      simp only [Bool.and_eq_true, decide_eq_true_eq, Bool.or_eq_true, Bool.not_eq_true'] at this
      obtain ⟨⟨⟨⟨⟨h1, h2⟩, h3⟩, h4⟩, h5⟩, h6⟩ := this
      exact ⟨n, rfl, h1, h2, h3, h4, h5, h6⟩
  refine ⟨⟨hr, hc, ?_⟩, ?_⟩
  · intro x y hxy
    obtain ⟨n, hn, h1, h2, h3, -⟩ := key x y hxy
    exact ⟨n, hn, h1, h2, h3⟩
  · intro x y hxy
    obtain ⟨n, hn, -, -, -, h4, h5, h6⟩ := key x y hxy
    simp [visitAt, parentAt, countAt, hn, h4, h5, h6]

/-! ## Solvability -/

/-- A path from row `a` to row `b` meets every row in between. -/
theorem path_crosses_row (y0 : Int) (ps : List (Int × Int)) :
    ∀ p : Int × Int, List.Chain StepAdj p ps → p.2 ≤ y0 →
      (∀ z, (p :: ps).getLast? = some z → y0 ≤ z.2) → ∃ r ∈ p :: ps, r.2 = y0 := by
  induction ps with
  | nil =>
    intro p _ h1 h2
    have := h2 p rfl
    exact ⟨p, by simp, by omega⟩
  | cons q ps ih =>
    intro p hch h1 h2
    rw [List.chain_cons] at hch
    obtain ⟨hpq, hch⟩ := hch
    by_cases e : p.2 = y0
    · exact ⟨p, by simp, e⟩
    · have hq : q.2 ≤ y0 := by
        unfold StepAdj at hpq
        omega
      obtain ⟨r, hr, hr2⟩ := ih q hch hq (fun z hz => h2 z (by rw [List.getLast?_cons_cons]; exact hz))
      exact ⟨r, List.mem_cons_of_mem _ hr, hr2⟩

/-- When `solve` answers 0 on a fresh grid with an open entry, no path leads
from the entry to the goal. -/
theorem no_solution_of_solve_false {row col : Int} {maze maze1 : Maze} {fuel : Nat}
    (hf : FreshGrid row col maze) (hopen : kindAt maze 0 = '0')
    (hs : solve fuel row col maze [0] = some (false, maze1)) :
    ¬ ∃ ps, IsSolution row col maze ps := by
  rintro ⟨ps, ⟨ho, hch⟩, hh, hl⟩
  obtain ⟨d, q, B, -, g2⟩ := solve_result hf hopen hs
  have hq := g2 rfl
  subst hq
  have C := B.core
  cases ps with
  | nil => simp at hh
  | cons q0 rest =>
    simp only [List.head?_cons, Option.some.injEq] at hh
    obtain ⟨k1, k2⟩ := @chain_of_path row col maze rest q0 hch ho
    have hq0 : idxOf col q0 = 0 := by
      rw [hh]
      show (0 : Int) * col + 0 = 0
      ring
    rw [hq0] at k1 k2
    have hD0 : Disc row col maze1 0 := ⟨cell_zero C.rows_pos C.cols_pos, Or.inl rfl⟩
    have hall := chain_disc B (rest.map (idxOf col)) 0 k1
      (fun k hk => by rw [C.kinds k (k2 k hk).1]; exact (k2 k hk).2) hD0
    have hlast : ((0 : Int) :: rest.map (idxOf col)).getLast?
        = some ((row - 1) * col + (col - 1)) := by
      have h2 : ((q0 :: rest).map (idxOf col)).getLast?
          = some (idxOf col (col - 1, row - 1)) := by
        rw [List.getLast?_map, hl]
        rfl
      rw [List.map_cons, hq0] at h2
      rw [h2]
      rfl
    have hDg := hall _ (List.mem_of_mem_getLast? hlast)
    exact C.goal_queued _ hDg (by simp) rfl

/-- The cells of a solution are open; in particular the entry and the goal. -/
theorem solution_ends_open {row col : Int} {maze : Maze} {ps : List (Int × Int)}
    (h : IsSolution row col maze ps) :
    kindAt maze 0 = '0' ∧ kindAt maze (row * col - 1) = '0' := by
  obtain ⟨⟨ho, -⟩, hh, hl⟩ := h
  have h1 := (ho _ (List.mem_of_mem_head? hh)).2
  have h2 := (ho _ (List.mem_of_mem_getLast? hl)).2
  simp only at h1 h2
  have e0 : (0 : Int) * col + 0 = 0 := by ring
  rw [e0] at h1
  rw [goal_idx_eq] at h2
  exact ⟨h1, h2⟩

/-! ## The claims about solve and updateMaze -/

/-- C1: on every rectangular grid as `createMaze` builds it (rows and columns
at least 1, every cell `0` or `1`, visit flags clear, parents absent, child
counters 0) on which the solve sequence of `main` reports solvable,
`updateMaze` called on the goal cell returns, given fuel for its iterations,
the number `n` of cells of a shortest 4-directional path through open cells
from `(0, 0)` to `(col - 1, row - 1)`: some such path has `n` cells and none
has fewer.  In particular the program computes 1 for the 1 by 1 grid `"0"`. -/
theorem updateMaze_returns_shortest_length (row col : Int) (maze maze1 : Maze) (fuel : Nat)
    (hf : FreshGrid row col maze)
    (hs : solveSequence fuel row col maze = some (true, maze1)) :
    (∃ (n : Nat) (maze2 : Maze),
      (∀ fuel2, n ≤ fuel2 →
        updateMaze fuel2 maze1 (some (row * col - 1)) = some ((n : Int), maze2)) ∧
      (∃ ps, IsSolution row col maze ps ∧ ps.length = n) ∧
      (∀ qs, IsSolution row col maze qs → n ≤ qs.length)) ∧
    (createMaze ['0'] 0 0).bind (fun r =>
      (solveSequence 2 r.1 r.2.1 r.2.2).bind (fun s =>
        (updateMaze 2 s.2 (some (r.1 * r.2.1 - 1))).map (fun u => (r.1, r.2.1, s.1, u.1))))
      = some (1, 1, true, 1) := by
  obtain ⟨n, ps, ks, maze2, S⟩ := solved_facts hf hs
  exact ⟨⟨n, maze2, S.update, ⟨ps, S.solution, S.length⟩, S.shortest⟩, by decide⟩

/-- Witness for C1 on the 2 by 2 grid without walls. -/
theorem updateMaze_returns_shortest_length_witness :
    FreshGrid 2 2 grid22 ∧ solveSequence 5 2 2 grid22 = some (true, solved22) ∧
    ((∃ (n : Nat) (maze2 : Maze),
      (∀ fuel2, n ≤ fuel2 →
        updateMaze fuel2 solved22 (some (2 * 2 - 1)) = some ((n : Int), maze2)) ∧
      (∃ ps, IsSolution 2 2 grid22 ps ∧ ps.length = n) ∧
      (∀ qs, IsSolution 2 2 grid22 qs → n ≤ qs.length)) ∧
    (createMaze ['0'] 0 0).bind (fun r =>
      (solveSequence 2 r.1 r.2.1 r.2.2).bind (fun s =>
        (updateMaze 2 s.2 (some (r.1 * r.2.1 - 1))).map (fun u => (r.1, r.2.1, s.1, u.1))))
      = some (1, 1, true, 1)) :=
  ⟨freshGrid_of_check (by decide), by decide,
    updateMaze_returns_shortest_length 2 2 grid22 solved22 5 (freshGrid_of_check (by decide))
      (by decide)⟩

/-- C2: on every rectangular grid as `createMaze` builds it, the solve
sequence of `main`, given fuel for one call per cell and one more, returns,
and it reports solvable if and only if there is a sequence of open cells from
`(0, 0)` to `(col - 1, row - 1)` in which consecutive cells differ by one step
west, north, east or south; in particular it reports unsolvable when some row
of the grid consists of walls only. -/
theorem solveSequence_iff_path (row col : Int) (maze : Maze) (fuel : Nat)
    (hf : FreshGrid row col maze) (hfuel : (row * col).toNat + 1 ≤ fuel) :
    ∃ b maze1, solveSequence fuel row col maze = some (b, maze1) ∧
      (b = true ↔ ∃ ps, IsSolution row col maze ps) ∧
      ((∃ y0, 0 ≤ y0 ∧ y0 < row ∧ ∀ x, 0 ≤ x → x < col → kindAt maze (y0 * col + x) = '1') →
        b = false) := by
  obtain ⟨b, maze1, hs⟩ := solveSequence_total hf hfuel
  have hiff : b = true ↔ ∃ ps, IsSolution row col maze ps := by
    constructor
    · intro hb
      subst hb
      obtain ⟨n, ps, ks, maze2, S⟩ := solved_facts hf hs
      exact ⟨ps, S.solution⟩
    · rintro ⟨ps, hps⟩
      cases b with
      | true => rfl
      | false =>
        exfalso
        obtain ⟨h0, hg⟩ := solution_ends_open hps
        rw [solveSequence_rect hf.1, if_pos ⟨by rw [h0]; decide, by rw [hg]; decide⟩] at hs
        exact no_solution_of_solve_false hf h0 hs ⟨ps, hps⟩
  refine ⟨b, maze1, hs, hiff, ?_⟩
  rintro ⟨y0, hy0, hy1, hwall⟩
  cases b with
  | false => rfl
  | true =>
    exfalso
    obtain ⟨ps, ⟨ho, hch⟩, hh, hl⟩ := hiff.1 rfl
    cases ps with
    | nil => simp at hh
    | cons p rest =>
      simp only [List.head?_cons, Option.some.injEq] at hh
      obtain ⟨r, hr, hr2⟩ := path_crosses_row y0 rest p hch (by rw [hh]; exact hy0)
        (fun z hz => by
          rw [hl] at hz
          injection hz with hz
          rw [← hz]
          show y0 ≤ row - 1
          omega)
      obtain ⟨⟨a1, a2, -, -⟩, hk⟩ := ho r hr
      rw [hr2, hwall r.1 a1 a2] at hk
      revert hk
      decide

/-- Witness for C2 on the 3 by 2 grid whose middle row is a row of walls. -/
theorem solveSequence_iff_path_witness :
    FreshGrid 3 2 grid32 ∧ ((3 : Int) * 2).toNat + 1 ≤ 7 ∧
    ∃ b maze1, solveSequence 7 3 2 grid32 = some (b, maze1) ∧
      (b = true ↔ ∃ ps, IsSolution 3 2 grid32 ps) ∧
      ((∃ y0, 0 ≤ y0 ∧ y0 < (3 : Int) ∧
          ∀ x, 0 ≤ x → x < (2 : Int) → kindAt grid32 (y0 * 2 + x) = '1') →
        b = false) :=
  ⟨freshGrid_of_check (by decide), by decide,
    solveSequence_iff_path 3 2 grid32 7 (freshGrid_of_check (by decide)) (by decide)⟩

/-- C3: whenever the entry cell (index 0) is a wall, or the entry is not a
wall and the goal cell (index `row * col - 1`) is a wall, the solve sequence
reports unsolvable and returns the array as it was, whatever the fuel and
whatever the other cells hold: `solve` is not called, so that no visit flag,
parent, child list or kind is changed and no other cell is read.  For the
input `"0\n1"` the program prints `No solution.`. -/
theorem solveSequence_wall (fuel : Nat) (row col : Int) (maze : Maze) (entry : Node)
    (he : getNode maze 0 = some entry)
    (hw : entry.c = '1' ∨ ∃ goal, getNode maze (row * col - 1) = some goal ∧ goal.c = '1') :
    solveSequence fuel row col maze = some (false, maze) ∧
    (∀ fuel1, main fuel1 false true false ['0', '\n', '1'] = some "No solution.\n") := by
  refine ⟨?_, fun fuel1 => rfl⟩
  simp only [solveSequence, he]
  by_cases h1 : entry.c = '1'
  · rw [if_neg (by simpa using h1)]
  · rcases hw with hw | ⟨goal, hg, hgc⟩
    · exact absurd hw h1
    · rw [if_pos h1]
      simp only [hg]
      rw [if_neg (by simpa using hgc)]

/-- Witness for C3 on the 2 by 1 grid `"0\n1"`. -/
theorem solveSequence_wall_witness :
    getNode grid21 0 = some (freshNode '0' 0 0) ∧
    ((freshNode '0' 0 0).c = '1' ∨
      ∃ goal, getNode grid21 (2 * 1 - 1) = some goal ∧ goal.c = '1') ∧
    (solveSequence 0 2 1 grid21 = some (false, grid21) ∧
    (∀ fuel1, main fuel1 false true false ['0', '\n', '1'] = some "No solution.\n")) :=
  ⟨by decide, Or.inr ⟨freshNode '1' 0 1, by decide, by decide⟩,
    solveSequence_wall 0 2 1 grid21 (freshNode '0' 0 0) (by decide)
      (Or.inr ⟨freshNode '1' 0 1, by decide, by decide⟩)⟩

theorem getNode_isSome_of_kind {maze : Maze} {k : Int}
    (h : kindAt maze k = '0' ∨ kindAt maze k = '1') : ∃ n, getNode maze k = some n := by
  cases hn : getNode maze k with
  | some n => exact ⟨n, rfl⟩
  | none =>
    exfalso
    have e : kindAt maze k = ' ' := by simp [kindAt, hn]
    rw [e] at h
    revert h
    decide

/-- C4: on every rectangular grid as `createMaze` builds it on which the solve
sequence reports solvable, after `updateMaze` on the goal cell the cells of
kind `+` are exactly the cells of one path `ps`: its first cell is the entry
`(0, 0)`, its last cell the goal `(col - 1, row - 1)`, consecutive cells are
one step apart, every cell of it was open before the marking, no cell
repeats, and the number of its cells is the step count returned. -/
theorem updateMaze_marks_one_path (row col : Int) (maze maze1 : Maze) (fuel : Nat)
    (hf : FreshGrid row col maze)
    (hs : solveSequence fuel row col maze = some (true, maze1)) :
    ∃ (n : Nat) (maze2 : Maze) (ps : List (Int × Int)),
      (∀ fuel2, n ≤ fuel2 →
        updateMaze fuel2 maze1 (some (row * col - 1)) = some ((n : Int), maze2)) ∧
      IsSolution row col maze ps ∧ IsSolution row col maze1 ps ∧ ps.Nodup ∧ ps.length = n ∧
      ∀ x y, InGrid row col x y → (kindAt maze2 (y * col + x) = '+' ↔ (x, y) ∈ ps) := by
  obtain ⟨n, ps, ks, maze2, S⟩ := solved_facts hf hs
  have hsol1 : IsSolution row col maze1 ps := by
    obtain ⟨⟨ho, hch⟩, hh, hl⟩ := S.solution
    refine ⟨⟨?_, hch⟩, hh, hl⟩
    intro p hp
    obtain ⟨hg, hk⟩ := ho p hp
    exact ⟨hg, by rw [S.kinds p.1 p.2 hg]; exact hk⟩
  refine ⟨n, maze2, ps, S.update, S.solution, hsol1, S.nodup, S.length, ?_⟩
  intro x y hxy
  have hmem : (x, y) ∈ ps ↔ y * col + x ∈ ks := by
    constructor
    · intro h
      have : idxOf col (x, y) ∈ ps.map (idxOf col) := List.mem_map_of_mem _ h
      rw [S.cells, List.mem_reverse] at this
      exact this
    · intro h
      have : y * col + x ∈ ps.map (idxOf col) := by
        rw [S.cells, List.mem_reverse]
        exact h
      obtain ⟨p, hp, hpe⟩ := List.mem_map.1 this
      have hg := (S.solution.1.1 p hp).1
      obtain ⟨e1, e2⟩ := idx_inj hg hxy hpe
      have : p = (x, y) := Prod.ext e1 e2
      rw [← this]
      exact hp
  rw [hmem]
  have hk01 : kindAt maze1 (y * col + x) = '0' ∨ kindAt maze1 (y * col + x) = '1' := by
    rw [S.kinds x y hxy]
    exact kind_cases hf.1 hxy
  obtain ⟨nd, hnd⟩ := getNode_isSome_of_kind hk01
  have hm := S.marked (y * col + x)
  constructor
  · intro hplus
    by_contra hnot
    rw [if_neg hnot] at hm
    have : kindAt maze2 (y * col + x) = kindAt maze1 (y * col + x) := by
      unfold kindAt
      rw [hm]
    rw [this] at hplus
    rw [hplus] at hk01
    revert hk01
    decide
  · intro hin
    rw [if_pos hin, hnd] at hm
    rw [kindAt_of_getNode hm]
    rfl

/-- Witness for C4 on the 2 by 2 grid without walls. -/
theorem updateMaze_marks_one_path_witness :
    FreshGrid 2 2 grid22 ∧ solveSequence 5 2 2 grid22 = some (true, solved22) ∧
    ∃ (n : Nat) (maze2 : Maze) (ps : List (Int × Int)),
      (∀ fuel2, n ≤ fuel2 →
        updateMaze fuel2 solved22 (some (2 * 2 - 1)) = some ((n : Int), maze2)) ∧
      IsSolution 2 2 grid22 ps ∧ IsSolution 2 2 solved22 ps ∧ ps.Nodup ∧ ps.length = n ∧
      ∀ x y, InGrid 2 2 x y → (kindAt maze2 (y * 2 + x) = '+' ↔ (x, y) ∈ ps) :=
  ⟨freshGrid_of_check (by decide), by decide,
    updateMaze_marks_one_path 2 2 grid22 solved22 5 (freshGrid_of_check (by decide))
      (by decide)⟩

/-- C5: on every solved grid `updateMaze` on the goal cell changes nothing but
the kind of the cells on the chain of parents `ks` from the goal: the node of
a cell on the chain was open (so no wall becomes `+`) and only its kind is
replaced by `+`, its coordinates, visit flag, parent, child counter and
children being kept; the node in every slot off the chain is left as it was,
so that such a cell keeps the kind it had before the search, `0` or `1`. -/
theorem updateMaze_frame (row col : Int) (maze maze1 : Maze) (fuel : Nat)
    (hf : FreshGrid row col maze)
    (hs : solveSequence fuel row col maze = some (true, maze1)) :
    ∃ (n : Nat) (maze2 : Maze) (ks : List Int),
      (∀ fuel2, n ≤ fuel2 →
        updateMaze fuel2 maze1 (some (row * col - 1)) = some ((n : Int), maze2)) ∧
      (∃ L, ks = (row * col - 1) :: L ∧ ParentChain maze1 (row * col - 1) L) ∧
      (∀ k, k ∈ ks → ∃ nd, getNode maze1 k = some nd ∧ nd.c = '0' ∧
        getNode maze2 k = some { nd with c := '+' }) ∧
      (∀ k, k ∉ ks → getNode maze2 k = getNode maze1 k) ∧
      (∀ x y, InGrid row col x y → y * col + x ∉ ks →
        kindAt maze2 (y * col + x) = kindAt maze (y * col + x) ∧
        (kindAt maze2 (y * col + x) = '0' ∨ kindAt maze2 (y * col + x) = '1')) := by
  obtain ⟨n, ps, ks, maze2, S⟩ := solved_facts hf hs
  refine ⟨n, maze2, ks, S.update, S.chain, ?_, ?_, ?_⟩
  · intro k hk
    obtain ⟨-, hopen⟩ := S.chain_open k hk
    obtain ⟨nd, hnd⟩ := getNode_isSome_of_kind (Or.inl hopen)
    refine ⟨nd, hnd, by rw [← kindAt_of_getNode hnd]; exact hopen, ?_⟩
    rw [S.marked k, if_pos hk, hnd]
    rfl
  · intro k hk
    rw [S.marked k, if_neg hk]
  · intro x y hxy hk
    have e : kindAt maze2 (y * col + x) = kindAt maze (y * col + x) := by
      rw [← S.kinds x y hxy]
      unfold kindAt
      rw [S.marked, if_neg hk]
    exact ⟨e, by rw [e]; exact kind_cases hf.1 hxy⟩

/-- Witness for C5 on the 2 by 2 grid without walls. -/
theorem updateMaze_frame_witness :
    FreshGrid 2 2 grid22 ∧ solveSequence 5 2 2 grid22 = some (true, solved22) ∧
    ∃ (n : Nat) (maze2 : Maze) (ks : List Int),
      (∀ fuel2, n ≤ fuel2 →
        updateMaze fuel2 solved22 (some (2 * 2 - 1)) = some ((n : Int), maze2)) ∧
      (∃ L, ks = (2 * 2 - 1) :: L ∧ ParentChain solved22 (2 * 2 - 1) L) ∧
      (∀ k, k ∈ ks → ∃ nd, getNode solved22 k = some nd ∧ nd.c = '0' ∧
        getNode maze2 k = some { nd with c := '+' }) ∧
      (∀ k, k ∉ ks → getNode maze2 k = getNode solved22 k) ∧
      (∀ x y, InGrid 2 2 x y → y * 2 + x ∉ ks →
        kindAt maze2 (y * 2 + x) = kindAt grid22 (y * 2 + x) ∧
        (kindAt maze2 (y * 2 + x) = '0' ∨ kindAt maze2 (y * 2 + x) = '1')) :=
  ⟨freshGrid_of_check (by decide), by decide,
    updateMaze_frame 2 2 grid22 solved22 5 (freshGrid_of_check (by decide)) (by decide)⟩

/-! ## The program as a whole: more fuel does not change its output -/

theorem solveSequence_fuel_le {fuel fuel1 : Nat} (hle : fuel ≤ fuel1) {row col : Int}
    {maze : Maze} {r : Bool × Maze} (h : solveSequence fuel row col maze = some r) :
    solveSequence fuel1 row col maze = some r := by
  unfold solveSequence at h ⊢
  cases h0 : getNode maze 0 with
  | none =>
    rw [h0] at h
    cases h
  | some entry =>
    rw [h0] at h
    simp only at h ⊢
    by_cases h1 : entry.c ≠ '1'
    · rw [if_pos h1] at h ⊢
      cases hg : getNode maze (row * col - 1) with
      | none =>
        rw [hg] at h
        cases h
      | some goal =>
        rw [hg] at h
        simp only at h ⊢
        by_cases h2 : goal.c ≠ '1'
        · rw [if_pos h2] at h ⊢
          exact solve_fuel_le hle h
        · rw [if_neg h2] at h ⊢
          exact h
    · rw [if_neg h1] at h ⊢
      exact h

theorem updateMaze_fuel_le {fuel fuel1 : Nat} (hle : fuel ≤ fuel1) {maze : Maze}
    {node : Option Int} {r : Int × Maze} (h : updateMaze fuel maze node = some r) :
    updateMaze fuel1 maze node = some r :=
  updateMazeLoop_fuel_le hle h

theorem solveAndReport_fuel_le {fuel fuel1 : Nat} (hle : fuel ≤ fuel1) {s p : Bool}
    {row col : Int} {maze : Maze} {r : String × Maze}
    (h : solveAndReport fuel s p row col maze = some r) :
    solveAndReport fuel1 s p row col maze = some r := by
  unfold solveAndReport at h ⊢
  cases hs : solveSequence fuel row col maze with
  | none =>
    rw [hs] at h
    cases h
  | some sv =>
    obtain ⟨solveable, maze1⟩ := sv
    rw [hs] at h
    rw [solveSequence_fuel_le hle hs]
    simp only at h ⊢
    by_cases hc : (s && solveable) = true
    · rw [if_pos hc] at h ⊢
      cases hu : updateMaze fuel maze1 (some (row * col - 1)) with
      | none =>
        rw [hu] at h
        cases h
      | some u =>
        rw [hu] at h
        rw [updateMaze_fuel_le hle hu]
        exact h
    · rw [if_neg hc] at h ⊢
      exact h

/-- More fuel does not change the output of the program. -/
theorem main_fuel_le {fuel fuel1 : Nat} (hle : fuel ≤ fuel1) {d s p : Bool} {inFile : List Char}
    {out : String} (h : main fuel d s p inFile = some out) :
    main fuel1 d s p inFile = some out := by
  unfold main at h ⊢
  cases hc : createMaze inFile 0 0 with
  | none =>
    rw [hc] at h
    cases h
  | some r =>
    obtain ⟨row, col, maze⟩ := r
    rw [hc] at h
    simp only at h ⊢
    cases hd : (if d = true then printMaze row col maze else some "") with
    | none =>
      rw [hd] at h
      cases h
    | some outD =>
      rw [hd] at h
      simp only at h ⊢
      by_cases hsp : (s || p) = true
      · rw [if_pos hsp] at h ⊢
        cases hr : solveAndReport fuel s p row col maze with
        | none =>
          rw [hr] at h
          cases h
        | some sr =>
          rw [hr] at h
          rw [solveAndReport_fuel_le hle hr]
          exact h
      · rw [if_neg hsp] at h ⊢
        exact h

/-- C10: for the input `"00\n00"` `createMaze` builds a 2 by 2 grid and,
given fuel for five calls or more, the program run with `-s` prints
`Solution in 3 steps.`; `solve` reports solvable and records the path
`(0,0) -> (1,0) -> (1,1)`: the parent of the goal (index 3) is the cell at
index 1, whose parent is the entry (index 0), which has no parent;
`updateMaze` returns 3 and marks the cells at indices 0, 1 and 3 with `+`,
while the cell at index 2 keeps the kind `0`. -/
theorem two_by_two_scenario (fuel : Nat) (hfuel : 5 ≤ fuel) :
    createMaze ['0', '0', '\n', '0', '0'] 0 0 = some (2, 2, built22) ∧
    main fuel false true false ['0', '0', '\n', '0', '0'] = some "Solution in 3 steps.\n" ∧
    solveSequence fuel 2 2 built22 = some (true, searched22) ∧
    updateMaze fuel searched22 (some (2 * 2 - 1)) = some (3, marked22) ∧
    parentAt searched22 3 = some 1 ∧ parentAt searched22 1 = some 0 ∧
    parentAt searched22 0 = none ∧
    kindAt marked22 0 = '+' ∧ kindAt marked22 1 = '+' ∧ kindAt marked22 3 = '+' ∧
    kindAt marked22 2 = '0' := by
  have h1 : main 5 false true false ['0', '0', '\n', '0', '0']
      = some "Solution in 3 steps.\n" := by decide
  have h2 : solveSequence 5 2 2 built22 = some (true, searched22) := by decide
  have h3 : updateMaze 5 searched22 (some (2 * 2 - 1)) = some (3, marked22) := by decide
  exact ⟨by decide, main_fuel_le hfuel h1, solveSequence_fuel_le hfuel h2,
    updateMaze_fuel_le hfuel h3, by decide, by decide, by decide, by decide, by decide,
    by decide, by decide⟩

/-- Witness for C10 with fuel for exactly five calls. -/
theorem two_by_two_scenario_witness :
    5 ≤ 5 ∧
    (createMaze ['0', '0', '\n', '0', '0'] 0 0 = some (2, 2, built22) ∧
    main 5 false true false ['0', '0', '\n', '0', '0'] = some "Solution in 3 steps.\n" ∧
    solveSequence 5 2 2 built22 = some (true, searched22) ∧
    updateMaze 5 searched22 (some (2 * 2 - 1)) = some (3, marked22) ∧
    parentAt searched22 3 = some 1 ∧ parentAt searched22 1 = some 0 ∧
    parentAt searched22 0 = none ∧
    kindAt marked22 0 = '+' ∧ kindAt marked22 1 = '+' ∧ kindAt marked22 3 = '+' ∧
    kindAt marked22 2 = '0') :=
  ⟨le_refl 5, two_by_two_scenario 5 (le_refl 5)⟩

/-! ## The step count of the 1 by 1 maze -/

theorem main_congr_createMaze {t1 t2 : List Char} (h : createMaze t1 0 0 = createMaze t2 0 0)
    (fuel : Nat) (d s p : Bool) : main fuel d s p t1 = main fuel d s p t2 := by
  unfold main
  rw [h]

/-- C11, as stated, fails: for the 1 by 1 maze `"0"` the program run with
`-s` prints `Solution in 1 steps.`, not the message with step count 0. -/
theorem one_by_one_counterexample :
    main 2 false true false ['0'] = some "Solution in 1 steps.\n" ∧
    main 2 false true false ['0'] ≠ some (solutionMessage 0) ∧
    (createMaze ['0'] 0 0).map (fun r => (r.1, r.2.1, kindAt r.2.2 0)) = some (1, 1, '0') := by
  decide

/-- C11, amended: for every input text whose only digit row, among the bytes
before the first byte 0xFF, is the single open cell `0` (the 1 by 1 maze with
entry = goal) the program run with `-s` reports the maze solvable with step
count 1: `updateMaze` counts the cells of the path, and the path consists of
the entry cell alone. -/
theorem one_by_one_step_count (t : List Char) (fuel : Nat)
    (ht : digitRows (readText t) = [['0']]) (hfuel : 1 ≤ fuel) :
    main fuel false true false t = some "Solution in 1 steps.\n" ∧
    main fuel false true false t = some (solutionMessage 1) := by
  have h0 : digitRows ['0'] = [['0']] := by decide
  have hfit : FitsInt (readText t) := by
    unfold FitsInt
    rw [textRows_eq, textCols_eq, ht]
    decide
  have hc : createMaze t 0 0 = createMaze ['0'] 0 0 := by
    have e0 : readText ['0'] = ['0'] := by decide
    rw [createMaze_of_fits t hfit, createMaze_of_fits ['0'] (by decide), e0,
      createMazeZ_rows (readText t), createMazeZ_rows ['0'], ht, h0]
  have h1 : main 1 false true false ['0'] = some "Solution in 1 steps.\n" := by decide
  have h2 := main_fuel_le hfuel h1
  rw [main_congr_createMaze hc]
  exact ⟨h2, h2⟩

/-- Witness for the amended C11 on the input `"\n0\n"` with fuel 1. -/
theorem one_by_one_step_count_witness :
    digitRows (readText ['\n', '0', '\n']) = [['0']] ∧ 1 ≤ 1 ∧
    (main 1 false true false ['\n', '0', '\n'] = some "Solution in 1 steps.\n" ∧
    main 1 false true false ['\n', '0', '\n'] = some (solutionMessage 1)) :=
  ⟨by decide, le_refl 1, one_by_one_step_count ['\n', '0', '\n'] 1 (by decide) (le_refl 1)⟩

/-! ## Printing after solving -/

/-- C12, evaluated at the failing input: for the solvable 2 by 2 grid
`"00\n00"` the program run with `-p` alone prints the maze without any `+`,
because `updateMaze` is called only inside the message printed for `-s`; run
with `-s -p` it prints the marked path. -/
theorem print_without_steps_unmarked :
    main 5 false false true ['0', '0', '\n', '0', '0']
      = some "|-----|\n  . . |\n| . .  \n|-----|\n" ∧
    main 5 false true true ['0', '0', '\n', '0', '0']
      = some "Solution in 3 steps.\n|-----|\n  + + |\n| . +  \n|-----|\n" := by
  decide

/-! ## printMaze -/

theorem data_foldl_append (l : List String) :
    ∀ acc : String, (List.foldl (fun r s => r ++ s) acc l).data
      = acc.data ++ (l.map String.data).flatten := by
  induction l with
  | nil =>
    intro acc
    simp
  | cons a l ih =>
    intro acc
    rw [List.foldl_cons, ih, String.data_append]
    simp

theorem data_printBorder (cols : Nat) :
    (printBorder (cols : Int)).data = borderLine cols ++ ['\n'] := by
  unfold printBorder borderLine String.join
  rw [String.data_append, String.data_append, data_foldl_append]
  simp only [Int.toNat_ofNat, List.map_replicate]
  have e1 : ("|-" : String).data = ['|', '-'] := rfl
  have e2 : ("|\n" : String).data = ['|', '\n'] := rfl
  have e3 : ("--" : String).data = ['-', '-'] := rfl
  have e4 : ("" : String).data = [] := rfl
  simp

theorem data_cell_glyph {n : Node} (h : n.c = '0' ∨ n.c = '1' ∨ n.c = '+') :
    (if n.c = '0' then ". " else if n.c = '1' then "# " else String.mk [n.c, ' ']).data
      = [glyph n.c, ' '] := by
  rcases h with h | h | h <;> rw [h] <;> rfl

theorem printRowCells_data (cols : Nat) (maze : Maze) (y : Nat) (js : List Nat)
    (hcells : ∀ x ∈ js, ∃ n, getNode maze ((y : Int) * (cols : Int) + (x : Int)) = some n ∧
      (n.c = '0' ∨ n.c = '1' ∨ n.c = '+')) :
    ∃ s, printRowCells (cols : Int) maze (y : Int) js = some s ∧
      s.data = (js.map
        (fun x : Nat => [glyph (kindAt maze ((y : Int) * (cols : Int) + (x : Int))), ' '])).flatten := by
  induction js with
  | nil => exact ⟨"", rfl, rfl⟩
  | cons j js ih =>
    obtain ⟨n, hn, hk⟩ := hcells j (List.mem_cons_self _ _)
    obtain ⟨s, hs, hd⟩ := ih (fun x hx => hcells x (List.mem_cons_of_mem _ hx))
    refine ⟨(if n.c = '0' then ". " else if n.c = '1' then "# " else String.mk [n.c, ' ']) ++ s,
      by simp only [printRowCells, hn, hs], ?_⟩
    rw [String.data_append, data_cell_glyph hk, hd, ← kindAt_of_getNode hn]
    simp

theorem printRows_data (rows cols : Nat) (maze : Maze) (ys : List Nat)
    (hcells : ∀ y ∈ ys, ∀ x, x < cols →
      ∃ n, getNode maze ((y : Int) * (cols : Int) + (x : Int)) = some n ∧
        (n.c = '0' ∨ n.c = '1' ∨ n.c = '+')) :
    ∃ s, printRows (rows : Int) (cols : Int) maze ys = some s ∧
      s.data = unlines (ys.map (rowLine rows cols maze)) := by
  induction ys with
  | nil => exact ⟨"", rfl, rfl⟩
  | cons y ys ih =>
    obtain ⟨cells, hc, hcd⟩ := printRowCells_data cols maze y (List.range cols)
      (fun x hx => hcells y (List.mem_cons_self _ _) x (List.mem_range.1 hx))
    obtain ⟨s, hs, hd⟩ := ih (fun z hz => hcells z (List.mem_cons_of_mem _ hz))
    have hc2 : printRowCells (cols : Int) maze (y : Int) (List.range (cols : Int).toNat)
        = some cells := by
      rw [Int.toNat_ofNat]
      exact hc
    refine ⟨(if (y : Int) = 0 then "  " else "| ") ++ cells
        ++ (if (y : Int) = (rows : Int) - 1 then " " else "|") ++ "\n" ++ s,
      by simp only [printRows, hc2, hs], ?_⟩
    simp only [String.data_append, hcd, hd]
    have e1 : (if (y : Int) = 0 then "  " else "| ").data
        = (if y = 0 then [' ', ' '] else ['|', ' ']) := by
      by_cases h : y = 0
      · subst h
        rfl
      · rw [if_neg (by omega), if_neg h]
    have e2 : (if (y : Int) = (rows : Int) - 1 then " " else "|").data
        = (if y + 1 = rows then [' '] else ['|']) := by
      by_cases h : y + 1 = rows
      · rw [if_pos (by omega), if_pos h]
      · rw [if_neg (by omega), if_neg h]
    rw [e1, e2]
    simp [unlines, rowLine, cellsLine]

theorem printMaze_data (rows cols : Nat) (maze : Maze)
    (hcells : ∀ y x : Nat, y < rows → x < cols →
      ∃ n, getNode maze ((y : Int) * (cols : Int) + (x : Int)) = some n ∧
        (n.c = '0' ∨ n.c = '1' ∨ n.c = '+')) :
    ∃ out, printMaze (rows : Int) (cols : Int) maze = some out ∧
      out.data = unlines (mazeLines rows cols maze) := by
  obtain ⟨s, hs, hd⟩ := printRows_data rows cols maze (List.range rows)
    (fun y hy x hx => hcells y x (List.mem_range.1 hy) hx)
  have hs2 : printRows (rows : Int) (cols : Int) maze (List.range (rows : Int).toNat) = some s := by
    rw [Int.toNat_ofNat]
    exact hs
  refine ⟨printBorder (cols : Int) ++ s ++ printBorder (cols : Int),
    by simp only [printMaze, hs2], ?_⟩
  simp only [String.data_append, data_printBorder, hd]
  simp [unlines, mazeLines]

theorem glyph_ne_newline (k : Char) : glyph k ≠ '\n' := by
  unfold glyph
  split
  · decide
  · split <;> decide

theorem mazeLines_no_newline (rows cols : Nat) (maze : Maze) :
    ∀ l ∈ mazeLines rows cols maze, '\n' ∉ l := by
  have hb : '\n' ∉ borderLine cols := by
    unfold borderLine
    simp only [List.mem_append, List.mem_cons, List.mem_flatten, List.mem_replicate,
      List.mem_singleton, List.not_mem_nil, or_false]
    rintro (h | h | h)
    · revert h
      decide
    · obtain ⟨l, ⟨-, rfl⟩, h⟩ := h
      revert h
      decide
    · revert h
      decide
  intro l hl
  unfold mazeLines at hl
  rcases List.mem_cons.1 hl with e | e
  · rw [e]
    exact hb
  · rcases List.mem_append.1 e with e | e
    · obtain ⟨y, -, rfl⟩ := List.mem_map.1 e
      unfold rowLine cellsLine
      simp only [List.mem_append, List.mem_flatten, List.mem_map, List.mem_range]
      rintro (h | h | h)
      · split at h <;> revert h <;> decide
      · obtain ⟨l, ⟨x, -, rfl⟩, h⟩ := h
        simp only [List.mem_cons, List.mem_singleton, List.not_mem_nil, or_false] at h
        rcases h with h | h
        · exact glyph_ne_newline _ h.symm
        · revert h
          decide
      · split at h <;> revert h <;> decide
    · rw [List.mem_singleton] at e
      rw [e]
      exact hb

theorem grid22_cells : ∀ y x : Nat, y < 2 → x < 2 →
    ∃ n, getNode grid22 ((y : Int) * ((2 : Nat) : Int) + (x : Int)) = some n ∧
      (n.c = '0' ∨ n.c = '1' ∨ n.c = '+') := by
  intro y x hy hx
  interval_cases y <;> interval_cases x <;> exact ⟨_, rfl, Or.inl rfl⟩

/-- C13: for every grid of `rows` by `cols` cells whose kinds are `0`, `1` or
`+`, `printMaze` writes exactly `rows + 2` lines, each ended by a newline:
the first and the last are the border `|-`, `cols` copies of `--`, `|`, and
the line of row `y` between them contains, between its frame pieces, for
`x = 0 .. cols - 1` in order the glyph of the cell at `y * cols + x` followed
by a space, the glyph being `.` for `0`, `#` for `1` and `+` for `+`.  For the
grid built from `"00\n10"` the cell glyphs are `. . ` and `# . `. -/
theorem printMaze_layout (rows cols : Nat) (maze : Maze)
    (hcells : ∀ y x : Nat, y < rows → x < cols →
      ∃ n, getNode maze ((y : Int) * (cols : Int) + (x : Int)) = some n ∧
        (n.c = '0' ∨ n.c = '1' ∨ n.c = '+')) :
    (∃ out, printMaze (rows : Int) (cols : Int) maze = some out ∧
      out.data = unlines (mazeLines rows cols maze)) ∧
    (mazeLines rows cols maze).length = rows + 2 ∧
    (∀ l ∈ mazeLines rows cols maze, '\n' ∉ l) ∧
    (mazeLines rows cols maze).head? = some (borderLine cols) ∧
    (mazeLines rows cols maze).getLast? = some (borderLine cols) ∧
    (∀ y, y < rows → ∃ pre suf,
      (mazeLines rows cols maze)[y + 1]? = some (pre ++ (cellsLine cols maze y ++ suf))) ∧
    (createMaze ['0', '0', '\n', '1', '0'] 0 0).bind (fun r =>
      (printMaze r.1 r.2.1 r.2.2).map (fun out =>
        (out, cellsLine 2 r.2.2 0, cellsLine 2 r.2.2 1)))
      = some ("|-----|\n  . . |\n| # .  \n|-----|\n", ['.', ' ', '.', ' '],
          ['#', ' ', '.', ' ']) := by
  refine ⟨printMaze_data rows cols maze hcells, by simp [mazeLines],
    mazeLines_no_newline rows cols maze, rfl, ?_, ?_, by decide⟩
  · unfold mazeLines
    rw [List.getLast?_eq_some_iff]
    exact ⟨borderLine cols :: List.map (rowLine rows cols maze) (List.range rows), rfl⟩
  · intro y hy
    refine ⟨if y = 0 then [' ', ' '] else ['|', ' '], if y + 1 = rows then [' '] else ['|'], ?_⟩
    unfold mazeLines
    rw [List.getElem?_cons_succ, List.getElem?_append_left (by simpa using hy)]
    simp [hy, rowLine]

/-- Witness for C13 on the 2 by 2 grid without walls. -/
theorem printMaze_layout_witness :
    (∀ y x : Nat, y < 2 → x < 2 →
      ∃ n, getNode grid22 ((y : Int) * ((2 : Nat) : Int) + (x : Int)) = some n ∧
        (n.c = '0' ∨ n.c = '1' ∨ n.c = '+')) ∧
    ((∃ out, printMaze ((2 : Nat) : Int) ((2 : Nat) : Int) grid22 = some out ∧
      out.data = unlines (mazeLines 2 2 grid22)) ∧
    (mazeLines 2 2 grid22).length = 2 + 2 ∧
    (∀ l ∈ mazeLines 2 2 grid22, '\n' ∉ l) ∧
    (mazeLines 2 2 grid22).head? = some (borderLine 2) ∧
    (mazeLines 2 2 grid22).getLast? = some (borderLine 2) ∧
    (∀ y, y < 2 → ∃ pre suf,
      (mazeLines 2 2 grid22)[y + 1]? = some (pre ++ (cellsLine 2 grid22 y ++ suf))) ∧
    (createMaze ['0', '0', '\n', '1', '0'] 0 0).bind (fun r =>
      (printMaze r.1 r.2.1 r.2.2).map (fun out =>
        (out, cellsLine 2 r.2.2 0, cellsLine 2 r.2.2 1)))
      = some ("|-----|\n  . . |\n| # .  \n|-----|\n", ['.', ' ', '.', ' '],
          ['#', ' ', '.', ' '])) :=
  ⟨grid22_cells, printMaze_layout 2 2 grid22 grid22_cells⟩

/-! ## Termination of solve -/

/-- C14: on every rectangular grid as `createMaze` builds it whose entry is
open, `solve` seeded with the entry cell returns within `rows * cols + 1`
calls (the fuel counts the calls, the first one included), and more fuel does
not change its result. -/
theorem solve_terminates (row col : Int) (maze : Maze) (hf : FreshGrid row col maze)
    (hopen : kindAt maze 0 = '0') :
    ∃ b maze1, solve ((row * col).toNat + 1) row col maze [0] = some (b, maze1) ∧
      ∀ fuel, (row * col).toNat + 1 ≤ fuel → solve fuel row col maze [0] = some (b, maze1) := by
  obtain ⟨b, maze1, h⟩ := solve_total hf hopen (le_refl _)
  exact ⟨b, maze1, h, fun fuel hfuel => solve_fuel_le hfuel h⟩

/-- Witness for C14 on the 2 by 2 grid without walls. -/
theorem solve_terminates_witness :
    FreshGrid 2 2 grid22 ∧ kindAt grid22 0 = '0' ∧
    ∃ b maze1, solve (((2 : Int) * 2).toNat + 1) 2 2 grid22 [0] = some (b, maze1) ∧
      ∀ fuel, ((2 : Int) * 2).toNat + 1 ≤ fuel → solve fuel 2 2 grid22 [0] = some (b, maze1) :=
  ⟨freshGrid_of_check (by decide), by decide,
    solve_terminates 2 2 grid22 (freshGrid_of_check (by decide)) (by decide)⟩

/-! ## The stores of createMaze and the capacity of the array -/

theorem stepLen_cases (s : BuildState) : stepLen s = s.len ∨ stepLen s = s.len * 4 := by
  unfold stepLen
  split
  · exact Or.inr rfl
  · exact Or.inl rfl

theorem stepFits_len {s : BuildState} (h : stepFits s = true) : stepLen s ≤ INT_MAX := by
  simp only [stepFits, Bool.and_eq_true, inInt_iff] at h
  exact h.1.1.1.1.2.2

/-- The capacity stays representable along a reading loop that is defined. -/
theorem createMazeLoop_len_le {s s1 : BuildState} (t : List Char) (hlen : s.len ≤ INT_MAX)
    (h : createMazeLoop s t = some s1) : s1.len ≤ INT_MAX := by
  induction t generalizing s with
  | nil =>
    simp only [createMazeLoop, Option.some.injEq] at h
    rw [← h]
    exact hlen
  | cons c cs ih =>
    by_cases hc : c.toNat = 255
    · simp only [createMazeLoop, if_pos hc, Option.some.injEq] at h
      rw [← h]
      exact hlen
    · simp only [createMazeLoop, if_neg hc] at h
      cases hst : createMazeStep s c with
      | none =>
        rw [hst] at h
        cases h
      | some s2 =>
        rw [hst] at h
        refine ih ?_ h
        obtain ⟨hz, hf⟩ := createMazeStep_some hst
        by_cases hn : c = '\n'
        · subst hn
          rw [createMazeStepZ_newline] at hz
          injection hz with hz
          rw [← hz]
          exact hlen
        · cases hbit : isBit c with
          | false =>
            rw [createMazeStepZ_other s c hn hbit] at hz
            injection hz with hz
            rw [← hz]
            exact hlen
          | true =>
            obtain ⟨-, -, -, -, f5, -⟩ := createMazeStepZ_digit_fields hbit hz
            rw [f5]
            exact stepFits_len (hf hbit)

/-- The capacity is 25 times a power of 4. -/
theorem lenPow_loopZ {s s1 : BuildState} (t : List Char) (hp : ∃ j : Nat, s.len = 25 * 4 ^ j)
    (h : createMazeLoopZ s t = some s1) : ∃ j : Nat, s1.len = 25 * 4 ^ j := by
  induction t generalizing s with
  | nil =>
    simp only [createMazeLoopZ, Option.some.injEq] at h
    rw [← h]
    exact hp
  | cons c cs ih =>
    simp only [createMazeLoopZ] at h
    cases hst : createMazeStepZ s c with
    | none =>
      rw [hst] at h
      cases h
    | some s2 =>
      rw [hst] at h
      refine ih ?_ h
      by_cases hn : c = '\n'
      · subst hn
        rw [createMazeStepZ_newline] at hst
        injection hst with hst
        rw [← hst]
        exact hp
      · cases hbit : isBit c with
        | false =>
          rw [createMazeStepZ_other s c hn hbit] at hst
          injection hst with hst
          rw [← hst]
          exact hp
        | true =>
          obtain ⟨-, -, -, -, f5, -⟩ := createMazeStepZ_digit_fields hbit hst
          obtain ⟨j, hj⟩ := hp
          rcases stepLen_cases s with e | e
          · exact ⟨j, by rw [f5, e, hj]⟩
          · exact ⟨j + 1, by rw [f5, e, hj, pow_succ]; ring⟩

/-- While the capacity after the growth test is representable, the store made
for a maze digit read after the bytes `p` targets an index that is
non-negative, less than `row * col` and less than the capacity, the capacity
being the one before the digit or four times it, and the iteration is
defined. -/
theorem createMaze_store_in_bounds_of_fits (p : List Char) (c : Char) (s : BuildState)
    (hc : isBit c = true) (hp : createMazeLoop initBuild p = some s)
    (hlen : stepLen s ≤ INT_MAX) :
    0 ≤ (stepRow s - 1) * stepCol s + stepI s ∧
      (stepRow s - 1) * stepCol s + stepI s < stepRow s * stepCol s ∧
      (stepRow s - 1) * stepCol s + stepI s < stepLen s ∧
      (stepMaze s).length = (stepLen s).toNat ∧
      (stepLen s = s.len ∨ stepLen s = s.len * 4) ∧
      (∃ maze1, storeNode (stepMaze s) ((stepRow s - 1) * stepCol s + stepI s) (stepNode s c)
        = some maze1) ∧
      (∃ s1, createMazeStep s c = some s1) := by
  have hz := createMazeLoop_some p hp
  obtain ⟨hinv, -, -⟩ := lenBound_loopZ _ buildInv_init (Or.inl (by simp [initBuild])) hz
  obtain ⟨k0, k1, k25, kz, kr, kc, ki0, ki1, krow1, kcol⟩ := step_digit_bounds hinv
  have hml := length_stepMaze s hinv.1 (by have := hinv.2.1; omega)
  obtain ⟨s1, hs1, -⟩ := @buildInv_step_digit _ c hinv hc
  refine ⟨k0, ?_, by omega, hml, stepLen_cases s, ?_, ⟨s1, ?_⟩⟩
  · have e : stepRow s * stepCol s = (stepRow s - 1) * stepCol s + stepCol s := by ring
    omega
  · exact ⟨_, storeNode_some _ _ _ k0 (by rw [hml]; omega)⟩
  · rw [createMazeStep_digit_eq s hc, if_pos (stepFits_of_inv hinv hlen), hs1]

/-- A first line of `m` digits: one row of `m` columns. -/
theorem loopZ_first_row {m : Nat} (hm : 1 ≤ m) {s1 : BuildState}
    (h : createMazeLoopZ initBuild (List.replicate m '0') = some s1) :
    BuildInv s1 ∧ s1.newLine = false ∧ s1.row = 1 ∧ s1.col = (m : Int) ∧ s1.i = (m : Int) := by
  obtain ⟨hinv, -, -⟩ := lenBound_loopZ _ buildInv_init (Or.inl (by simp [initBuild])) h
  have hne : List.replicate m '0' ≠ [] := by
    intro e
    have := congrArg List.length e
    simp at this
    omega
  have hbits : ∀ c ∈ List.replicate m '0', isBit c = true := by
    intro c hc
    rw [(List.mem_replicate.1 hc).2]
    decide
  obtain ⟨f1, f2, f3⟩ := createMazeLoopZ_digits_fields _ hne hbits initBuild s1 h
  have e1 : stepRow initBuild = 1 := by decide
  have e2 : stepCol initBuild = 1 := by decide
  rw [e1] at f2 f3
  rw [e2, if_pos rfl, List.length_replicate] at f3
  have hcol : s1.col = (m : Int) := by omega
  refine ⟨hinv, f1, f2, hcol, ?_⟩
  rcases hinv.2.2 with ⟨hr, -⟩ | ⟨-, -, -, -, hrow1, -, -⟩
  · omega
  · rw [hrow1 f2, hcol]

/-- A further line that consists of one digit: one more row, whose cell is
stored at the column after the one of the last store. -/
theorem stepZ_short_row {s s2 : BuildState} (hinv : BuildInv s) (hr : 1 ≤ s.row)
    (h : createMazeStepZ { s with newLine := true } '0' = some s2) :
    BuildInv s2 ∧ s2.newLine = false ∧ s2.row = s.row + 1 ∧ s2.col = s.col ∧
      s2.i = (if s.i = s.col then 0 else s.i) + 1 := by
  obtain ⟨s3, h3, hinv3⟩ := @buildInv_step_digit _ '0' (buildInv_flag hinv) (by decide)
  rw [h] at h3
  injection h3 with h3
  subst h3
  obtain ⟨f1, f2, f3, f4, -, -⟩ := createMazeStepZ_digit_fields (by decide) h
  have hi : 1 ≤ s.i ∧ s.i ≤ s.col := by
    rcases hinv.2.2 with ⟨hr0, -⟩ | ⟨-, -, hi1, hi2, -, -, -⟩
    · omega
    · exact ⟨hi1, hi2⟩
  have e1 : stepRow { s with newLine := true } = s.row + 1 := by simp [stepRow]
  have e2 : stepCol { s with newLine := true } = s.col := by
    simp only [stepCol, e1]
    rw [if_neg (by omega)]
  have e3 : stepI { s with newLine := true } = if s.i = s.col then 0 else s.i := by
    simp only [stepI, e1, e2]
    rw [if_pos (by omega)]
    exact tmod_wrap hi.1 hi.2
  rw [e1] at f2
  rw [e2] at f3
  rw [e3] at f4
  exact ⟨hinv3, f1, f2, f3, f4⟩

theorem short_rows_succ (n : Nat) :
    (List.replicate (n + 1) ['\n', '0']).flatten
      = '\n' :: '0' :: (List.replicate n ['\n', '0']).flatten := by
  simp [List.replicate_succ]

/-- Further `n` lines of one digit each, read while the column index stays
below the column count. -/
theorem loopZ_short_rows (n : Nat) :
    ∀ {s s1 : BuildState}, BuildInv s → 2 ≤ s.row → s.i + (n : Int) ≤ s.col →
      createMazeLoopZ s (List.replicate n ['\n', '0']).flatten = some s1 →
      BuildInv s1 ∧ s1.row = s.row + (n : Int) ∧ s1.col = s.col ∧ s1.i = s.i + (n : Int) := by
  induction n with
  | zero =>
    intro s s1 hinv _ _ h
    simp only [List.replicate_zero, List.flatten_nil, createMazeLoopZ, Option.some.injEq] at h
    subst h
    simp [hinv]
  | succ n ih =>
    intro s s1 hinv hr hi h
    rw [short_rows_succ] at h
    simp only [createMazeLoopZ, createMazeStepZ_newline] at h
    cases hst : createMazeStepZ { s with newLine := true } '0' with
    | none =>
      rw [hst] at h
      cases h
    | some s2 =>
      rw [hst] at h
      obtain ⟨hinv2, -, g2, g3, g4⟩ := stepZ_short_row hinv (by omega) hst
      push_cast at hi
      rw [if_neg (by omega)] at g4
      obtain ⟨r1, r2, r3, r4⟩ := ih hinv2 (by omega) (by omega) h
      refine ⟨r1, ?_, by rw [r3, g3], ?_⟩
      · rw [r2, g2]
        push_cast
        ring
      · rw [r4, g4]
        push_cast
        ring

/-- The final state for a first line of `m` digits followed by `n` lines of
one digit each. -/
theorem loopZ_long_then_short {m n : Nat} (hn : 1 ≤ n) (hnm : n ≤ m) {s1 : BuildState}
    (h : createMazeLoopZ initBuild
      (List.replicate m '0' ++ (List.replicate n ['\n', '0']).flatten) = some s1) :
    BuildInv s1 ∧ s1.row = (n : Int) + 1 ∧ s1.col = (m : Int) ∧ s1.i = (n : Int) := by
  rw [createMazeLoopZ_append] at h
  cases hA : createMazeLoopZ initBuild (List.replicate m '0') with
  | none =>
    rw [hA] at h
    cases h
  | some sA =>
    rw [hA, Option.some_bind] at h
    obtain ⟨hinvA, -, a2, a3, a4⟩ := loopZ_first_row (by omega) hA
    obtain ⟨k, rfl⟩ : ∃ k, n = k + 1 := ⟨n - 1, by omega⟩
    rw [short_rows_succ] at h
    simp only [createMazeLoopZ, createMazeStepZ_newline] at h
    cases hst : createMazeStepZ { sA with newLine := true } '0' with
    | none =>
      rw [hst] at h
      cases h
    | some sB =>
      rw [hst] at h
      obtain ⟨hinvB, -, b2, b3, b4⟩ := stepZ_short_row hinvA (by omega) hst
      rw [if_pos (by omega)] at b4
      obtain ⟨r1, r2, r3, r4⟩ := loopZ_short_rows k hinvB (by omega) (by omega) h
      refine ⟨r1, ?_, by rw [r3, b3, a3], ?_⟩
      · rw [r2, b2, a2]
        push_cast
        ring
      · rw [r4, b4]
        push_cast
        ring

theorem long_then_short_length (m n : Nat) :
    (List.replicate m '0' ++ (List.replicate n ['\n', '0']).flatten).length = m + 2 * n := by
  induction n with
  | zero => simp
  | succ n ih =>
    rw [short_rows_succ]
    simp only [List.length_append, List.length_replicate, List.length_cons] at ih ⊢
    omega

theorem long_then_short_no_stop (m n : Nat) :
    ∀ c ∈ List.replicate m '0' ++ (List.replicate n ['\n', '0']).flatten, c.toNat ≠ 255 := by
  intro c hc
  have hcase : c = '0' ∨ c = '\n' := by
    rcases List.mem_append.1 hc with h | h
    · exact Or.inl (List.mem_replicate.1 h).2
    · obtain ⟨l, hl, hcl⟩ := List.mem_flatten.1 h
      rw [(List.mem_replicate.1 hl).2] at hcl
      simp only [List.mem_cons, List.mem_singleton, List.not_mem_nil, or_false] at hcl
      exact hcl.symm
  rcases hcase with e | e <;> rw [e] <;> decide

/-- Whenever `createMaze` returns on a first line of `m` digits followed by
`n` lines of one digit each, the capacity is 25 times a power of 4, exceeds
the index `n * m + n` reached after the last store, and is representable. -/
theorem createMaze_long_then_short {m n : Nat} (hn : 1 ≤ n) (hnm : n ≤ m)
    {r : Int × Int × Maze}
    (h : createMaze (List.replicate m '0' ++ (List.replicate n ['\n', '0']).flatten) 0 0
      = some r) :
    ∃ j : Nat, (n : Int) * (m : Int) + (n : Int) < 25 * 4 ^ j ∧ (25 : Int) * 4 ^ j ≤ INT_MAX := by
  rw [createMaze_eq] at h
  cases hl : createMazeLoop initBuild
      (List.replicate m '0' ++ (List.replicate n ['\n', '0']).flatten) with
  | none =>
    rw [hl] at h
    cases h
  | some s1 =>
    have hmax := createMazeLoop_len_le _ (show initBuild.len ≤ INT_MAX by decide) hl
    have hz := createMazeLoop_some _ hl
    rw [readText_of_no_stop (long_then_short_no_stop m n)] at hz
    obtain ⟨j, hj⟩ := lenPow_loopZ _ (⟨0, by simp [initBuild]⟩ : ∃ j : Nat, initBuild.len = 25 * 4 ^ j) hz
    obtain ⟨hinv, f1, f2, f3⟩ := loopZ_long_then_short hn hnm hz
    refine ⟨j, ?_, by rw [← hj]; exact hmax⟩
    rcases hinv.2.2 with ⟨hr, -⟩ | ⟨-, -, -, -, -, hcap, -⟩
    · omega
    · rw [f1, f2, f3, hj] at hcap
      have e : ((n : Int) + 1 - 1) * (m : Int) = (n : Int) * (m : Int) := by ring
      rw [e] at hcap
      exact hcap

/-- C20, evaluated at the failing input: on the text of 115852 characters
made of one line of 57930 digits followed by 28961 lines of one digit each,
`createMaze` has no defined result. The last store has index 1677739690 and
the growth test keeps the capacity above 1677739691; the capacity is 25 times
a power of 4, so it would have to pass from 1677721600 to 6710886400 by
`len *= 4`, which is not representable in `int`: the quadrupling overflows. -/
theorem createMaze_capacity_overflow :
    (List.replicate 57930 '0' ++ (List.replicate 28961 ['\n', '0']).flatten).length = 115852 ∧
    createMaze (List.replicate 57930 '0' ++ (List.replicate 28961 ['\n', '0']).flatten) 0 0
      = none := by
  refine ⟨long_then_short_length 57930 28961, ?_⟩
  cases h : createMaze
      (List.replicate 57930 '0' ++ (List.replicate 28961 ['\n', '0']).flatten) 0 0 with
  | none => rfl
  | some r =>
    exfalso
    obtain ⟨j, h1, h2⟩ := createMaze_long_then_short (by norm_num) (by norm_num) h
    have hmaxv : INT_MAX = 2147483647 := rfl
    rw [hmaxv] at h2
    norm_num at h1
    rcases Nat.lt_or_ge j 14 with hj | hj
    · have hp : (4 : Int) ^ j ≤ 4 ^ 13 := pow_le_pow_right₀ (by norm_num) (by omega)
      norm_num at hp
      omega
    · have hp : (4 : Int) ^ 14 ≤ 4 ^ j := pow_le_pow_right₀ (by norm_num) hj
      norm_num at hp
      omega

/-! ## The history of a run of solve: one expansion -/

theorem grown_refl (row col : Int) (maze : Maze) (h : Int) : Grown row col maze maze h [] :=
  ⟨List.nodup_nil, fun k hk => absurd hk (List.not_mem_nil k), fun k => by simp,
    fun k => by simp, by simp, fun _ _ => rfl⟩

theorem grown_adopt {row col : Int} {m0 maze maze1 maze2 : Maze} {d : Int → Nat} {h : Int}
    {t pend new : List Int} {ni : Int} (G : Grown row col maze maze1 h new)
    (M : Mid row col m0 maze1 d h t (ni :: pend)) (hadj : Adj row col h ni)
    (hnD : ¬ Disc row col maze1 ni) (A : Adopted maze1 maze2 h ni) :
    Grown row col maze maze2 h (new ++ [ni]) := by
  have hcell : Cell row col ni := adj_cell_right hadj
  have hnew : ni ∉ new := fun hm => hnD ((G.disc ni).2 (Or.inr hm))
  have hne : h ≠ ni := adj_ne hadj
  refine ⟨?_, ?_, ?_, ?_, ?_, ?_⟩
  · refine List.Nodup.append G.nodup (List.nodup_singleton ni) ?_
    intro a ha hb
    rw [List.mem_singleton] at hb
    subst hb
    exact hnew ha
  · intro k hk
    rcases List.mem_append.1 hk with e | e
    · exact G.fresh k e
    · rw [List.mem_singleton] at e
      subst e
      refine ⟨hadj, fun hD => hnD ((G.disc k).2 (Or.inl hD)), ?_⟩
      have := G.parent k
      rw [if_neg hnew] at this
      rw [← this]
      exact M.core.undisc_parent k hcell hnD
  · intro k
    rw [disc_adopt A hcell, G.disc, List.mem_append, List.mem_singleton, or_assoc]
  · intro k
    rw [A.parent, G.parent]
    by_cases e : k = ni
    · subst e
      rw [if_pos rfl, if_pos (List.mem_append_right _ (List.mem_singleton_self _))]
    · rw [if_neg e]
      by_cases e2 : k ∈ new
      · rw [if_pos e2, if_pos (List.mem_append_left _ e2)]
      · rw [if_neg e2, if_neg]
        intro hm
        rcases List.mem_append.1 hm with e3 | e3
        · exact e2 e3
        · exact e (List.mem_singleton.1 e3)
  · rw [A.count, if_pos rfl, G.count_head]
    simp only [List.length_append, List.length_singleton, Nat.cast_add, Nat.cast_one]
    ring
  · intro k hk
    rw [A.count, if_neg hk, G.count_other k hk]

/-- One neighbour block on a true neighbour of the queue head, with the
cells adopted so far recorded. -/
theorem visitNeighbor_grow {row col : Int} {m0 maze maze1 : Maze} {d : Int → Nat} {h : Int}
    {t pend new : List Int} {ni : Int} (G : Grown row col maze maze1 h new)
    (M : Mid row col m0 maze1 d h (t ++ new) (ni :: pend)) (hadj : Adj row col h ni) :
    ∃ maze2 d2 new2, visitNeighbor maze1 (h :: (t ++ new)) h ni = some (maze2, h :: (t ++ new2)) ∧
      Mid row col m0 maze2 d2 h (t ++ new2) pend ∧ Grown row col maze maze2 h new2 := by
  have C := M.core
  obtain ⟨x, y, hgx, hx⟩ := adj_cell_left hadj
  obtain ⟨x1, y1, hgx1, hx1⟩ := adj_cell_right hadj
  obtain ⟨curr, hc, -⟩ := C.nodes x y hgx
  obtain ⟨nb, hn, -⟩ := C.nodes x1 y1 hgx1
  rw [← hx] at hc
  rw [← hx1] at hn
  by_cases hcond : kindAt maze1 ni = '0' ∧ parentAt maze1 h ≠ some ni ∧ visitAt maze1 ni = false
  · obtain ⟨hk, hp, hv⟩ := hcond
    have hi : 0 ≤ countAt maze1 h ∧ countAt maze1 h < 3 := by
      obtain ⟨c1, c2⟩ := M.head_count
      rw [List.filter_cons_of_pos (by simpa using hp)] at c2
      simp only [List.length_cons, Nat.cast_add, Nat.cast_one] at c2
      exact ⟨c1, by omega⟩
    obtain ⟨maze2, hvn, A⟩ :=
      visitNeighbor_adopt (h :: (t ++ new)) hc hn (adj_ne hadj) hk hp hv hi
    obtain ⟨-, hnD⟩ := adopt_fresh M hadj hp hv
    refine ⟨maze2, Function.update d ni (d h + 1), new ++ [ni], ?_, ?_,
      grown_adopt G M hadj hnD A⟩
    · rw [hvn, List.cons_append, List.append_assoc]
    · have := mid_adopt M hadj hk hp hv A
      rw [List.append_assoc] at this
      exact this
  · exact ⟨maze1, d, new, visitNeighbor_skip (h :: (t ++ new)) hc hn hcond,
      mid_skip M hadj hcond, G⟩

theorem guardedVisit_grow {row col : Int} {m0 maze maze1 : Maze} {d : Int → Nat} {h : Int}
    {t pend new : List Int} {ni : Int} (b : Bool) (G : Grown row col maze maze1 h new)
    (M : Mid row col m0 maze1 d h (t ++ new) ((if b then [ni] else []) ++ pend))
    (hb : b = true → Adj row col h ni) :
    ∃ maze2 d2 new2,
      guardedVisit b (maze1, h :: (t ++ new)) h ni = some (maze2, h :: (t ++ new2)) ∧
      Mid row col m0 maze2 d2 h (t ++ new2) pend ∧ Grown row col maze maze2 h new2 := by
  cases b with
  | false => exact ⟨maze1, d, new, rfl, by simpa using M, G⟩
  | true =>
    simp only [if_true, List.singleton_append] at M
    exact visitNeighbor_grow G M (hb rfl)

/-- The four neighbour blocks run on the queue head, with the cells adopted
recorded. -/
theorem expand_grow {row col : Int} {m0 maze : Maze} {d : Int → Nat} {h : Int} {t : List Int}
    {x y : Int} (B : Between row col m0 maze d (h :: t)) (hg : InGrid row col x y)
    (hh : h = y * col + x) :
    ∃ maze1 d1 new, expand row col maze (h :: t) h x y = some (maze1, h :: (t ++ new)) ∧
      Mid row col m0 maze1 d1 h (t ++ new) [] ∧ Grown row col maze maze1 h new := by
  have M0 := mid_start B hg hh
  have hadj : ∀ j, j ∈ nbrs row col x y → Adj row col h j := by
    intro j hj
    rw [hh]
    exact (adj_iff_mem_nbrs hg).2 hj
  unfold nbrs at M0 hadj
  simp only [List.mem_append] at hadj
  have a1 : decide (x - 1 ≥ 0) = true → Adj row col h (y * col + x - 1) := by
    intro hb
    apply hadj
    left
    rw [if_pos (by simpa using hb)]
    simp
  have a2 : decide (y - 1 ≥ 0) = true → Adj row col h (y * col + x - col) := by
    intro hb
    apply hadj
    right; left
    rw [if_pos (by simpa using hb)]
    simp
  have a3 : decide (x + 1 < col) = true → Adj row col h (y * col + x + 1) := by
    intro hb
    apply hadj
    right; right; left
    rw [if_pos (by simpa using hb)]
    simp
  have a4 : decide (y + 1 < row) = true → Adj row col h (y * col + x + col) := by
    intro hb
    apply hadj
    right; right; right
    rw [if_pos (by simpa using hb)]
    simp
  have c1 : (if x - 1 ≥ 0 then [y * col + x - 1] else [])
      = (if decide (x - 1 ≥ 0) = true then [y * col + x - 1] else []) := by simp
  have c2 : (if y - 1 ≥ 0 then [y * col + x - col] else [])
      = (if decide (y - 1 ≥ 0) = true then [y * col + x - col] else []) := by simp
  have c3 : (if x + 1 < col then [y * col + x + 1] else [])
      = (if decide (x + 1 < col) = true then [y * col + x + 1] else []) := by simp
  have c4 : (if y + 1 < row then [y * col + x + col] else [])
      = (if decide (y + 1 < row) = true then [y * col + x + col] else []) := by simp
  rw [c1, c2, c3, c4] at M0
  have M0b : Mid row col m0 maze d h (t ++ [])
      ((if decide (x - 1 ≥ 0) = true then [y * col + x - 1] else []) ++
        ((if decide (y - 1 ≥ 0) = true then [y * col + x - col] else []) ++
          ((if decide (x + 1 < col) = true then [y * col + x + 1] else []) ++
            (if decide (y + 1 < row) = true then [y * col + x + col] else [])))) := by
    rw [List.append_nil]
    exact M0
  obtain ⟨m1, d1, n1, h1, M1, G1⟩ := guardedVisit_grow _ (grown_refl row col maze h) M0b a1
  obtain ⟨m2, d2, n2, h2, M2, G2⟩ := guardedVisit_grow _ G1 M1 a2
  obtain ⟨m3, d3, n3, h3, M3, G3⟩ := guardedVisit_grow _ G2 M2 a3
  have M3b : Mid row col m0 m3 d3 h (t ++ n3)
      ((if decide (y + 1 < row) = true then [y * col + x + col] else []) ++ []) := by
    simpa using M3
  obtain ⟨m4, d4, n4, h4, M4, G4⟩ := guardedVisit_grow _ G3 M3b a4
  refine ⟨m4, d4, n4, ?_, M4, G4⟩
  rw [List.append_nil] at h1
  simp only [expand, h1, h2, h3, h4]

/-! ## The history of a run of solve: the whole run -/

theorem ran_nil (row col : Int) (maze : Maze) (q : List Int) : Ran row col maze maze q [] :=
  ⟨List.nodup_nil, fun a ha => absurd ha (List.not_mem_nil a), fun k => by simp,
    fun _ _ => rfl, fun a ha => absurd ha (List.not_mem_nil a), fun k => by simp [childrenOf],
    fun k => by simp [childrenOf]⟩

theorem map_fst_adopt (new : List Int) (h : Int) (A1 : List (Int × Int)) :
    (new.map (fun ni => (ni, h)) ++ A1).map Prod.fst = new ++ A1.map Prod.fst := by
  simp [Function.comp_def]

theorem childrenOf_adopt (new : List Int) (h : Int) (A1 : List (Int × Int)) (k : Int) :
    childrenOf (new.map (fun ni => (ni, h)) ++ A1) k
      = (if h = k then new.length else 0) + childrenOf A1 k := by
  unfold childrenOf
  rw [List.filter_append, List.length_append]
  congr 1
  by_cases e : h = k
  · simp [List.filter_map, e, Function.comp_def]
  · simp [List.filter_map, e, Function.comp_def]

/-- The history of a run is the history of the expansion of the queue head
followed by the history of the rest of the run. -/
theorem ran_step {row col : Int} {m0 maze maze1 mazeF : Maze} {d d1 : Int → Nat} {h : Int}
    {t new : List Int} {A1 : List (Int × Int)} (B : Between row col m0 maze d (h :: t))
    (M : Mid row col m0 maze1 d1 h (t ++ new) []) (G : Grown row col maze maze1 h new)
    (R1 : Ran row col maze1 mazeF (t ++ new) A1) :
    Ran row col maze mazeF (h :: t) (new.map (fun ni => (ni, h)) ++ A1) := by
  have C1 := M.core
  have hDh1 : Disc row col maze1 h := C1.queue_disc h (List.mem_cons_self _ _)
  have hDh : Disc row col maze h := B.core.queue_disc h (List.mem_cons_self _ _)
  have hnewD1 : ∀ k ∈ new, Disc row col maze1 k := fun k hk => (G.disc k).2 (Or.inr hk)
  have hA1nD : ∀ k ∈ A1.map Prod.fst, ¬ Disc row col maze1 k := by
    intro k hk
    obtain ⟨a, ha, rfl⟩ := List.mem_map.1 hk
    exact (R1.fresh a ha).2.1
  have hparent_ne : ∀ a ∈ A1, a.2 ≠ h := by
    intro a ha e
    have hm := (R1.order a ha).subset (List.mem_cons_self _ _)
    rw [e] at hm
    rcases List.mem_append.1 hm with e2 | e2
    · exact (List.nodup_cons.1 C1.queue_nodup).1 e2
    · exact hA1nD h e2 hDh1
  have hch : childrenOf A1 h = 0 := by
    unfold childrenOf
    rw [List.length_eq_zero, List.filter_eq_nil_iff]
    intro a ha
    simpa using hparent_ne a ha
  refine ⟨?_, ?_, ?_, ?_, ?_, ?_, ?_⟩
  · rw [map_fst_adopt]
    refine List.Nodup.append G.nodup R1.nodup ?_
    intro k hk1 hk2
    exact hA1nD k hk2 (hnewD1 k hk1)
  · intro a ha
    rcases List.mem_append.1 ha with e | e
    · obtain ⟨ni, hni, rfl⟩ := List.mem_map.1 e
      obtain ⟨f1, f2, f3⟩ := G.fresh ni hni
      refine ⟨adj_cell_right f1, f2, f3, ?_, f1⟩
      show parentAt mazeF ni = some h
      rw [R1.stable ni (hnewD1 ni hni), G.parent, if_pos hni]
    · obtain ⟨f1, f2, f3, f4, f5⟩ := R1.fresh a e
      have hnn : a.1 ∉ new := fun hm => f2 (hnewD1 _ hm)
      refine ⟨f1, fun hD => f2 ((G.disc _).2 (Or.inl hD)), ?_, f4, f5⟩
      have := G.parent a.1
      rw [if_neg hnn] at this
      rw [← this]
      exact f3
  · intro k
    rw [R1.disc, G.disc, map_fst_adopt, List.mem_append, or_assoc]
  · intro k hk
    have hnn : k ∉ new := fun hm => (G.fresh k hm).2.1 hk
    rw [R1.stable k ((G.disc k).2 (Or.inl hk)), G.parent, if_neg hnn]
  · intro a ha
    rw [map_fst_adopt]
    have e : (h :: t) ++ (new ++ A1.map Prod.fst) = h :: ((t ++ new) ++ A1.map Prod.fst) := by
      simp
    rw [e]
    rcases List.mem_append.1 ha with e2 | e2
    · obtain ⟨ni, hni, rfl⟩ := List.mem_map.1 e2
      apply List.Sublist.cons₂
      rw [List.singleton_sublist]
      exact List.mem_append_left _ (List.mem_append_right _ hni)
    · exact List.Sublist.cons _ (R1.order a e2)
  · intro k
    rw [childrenOf_adopt, R1.counts]
    by_cases e : h = k
    · subst e
      rw [if_pos rfl, G.count_head, hch]
      push_cast
      ring
    · rw [if_neg e, G.count_other k (Ne.symm e)]
      push_cast
      ring
  · intro k
    rw [childrenOf_adopt]
    by_cases e : h = k
    · subst e
      rw [if_pos rfl, hch]
      have h0 : countAt maze h = 0 :=
        B.counts h hDh.1 (Or.inl (List.mem_cons_self _ _))
      have h3 := M.head_count.2
      rw [G.count_head, h0] at h3
      simp only [List.filter_nil, List.length_nil, Nat.cast_zero] at h3
      omega
    · rw [if_neg e]
      have := R1.children_le k
      omega

/-- Whenever `solve` returns, so does the record of its adoptions, and the
record is related to the arrays before and after the run. -/
theorem solve_ran {row col : Int} {m0 : Maze} (fuel : Nat) :
    ∀ (maze : Maze) (q : List Int) (d : Int → Nat) (b : Bool) (mazeF : Maze),
      Between row col m0 maze d q → solve fuel row col maze q = some (b, mazeF) →
      ∃ A, solveAdopted fuel row col maze q = some A ∧ Ran row col maze mazeF q A := by
  induction fuel with
  | zero =>
    intro maze q d b mazeF _ hs
    simp [solve] at hs
  | succ fuel ih =>
    intro maze q d b mazeF B hs
    cases q with
    | nil =>
      simp only [solve, Option.some.injEq, Prod.mk.injEq] at hs
      rw [← hs.2]
      exact ⟨[], rfl, ran_nil row col maze []⟩
    | cons h t =>
      have C := B.core
      obtain ⟨⟨x, y, hg, hh⟩, -⟩ := C.queue_disc h (List.mem_cons_self _ _)
      obtain ⟨curr, hc, hx, hy, -⟩ := C.nodes x y hg
      rw [← hh] at hc
      by_cases hgoal : curr.x = col - 1 ∧ curr.y = row - 1
      · simp only [solve, hc, if_pos hgoal, Option.some.injEq, Prod.mk.injEq] at hs
        rw [← hs.2]
        refine ⟨[], ?_, ran_nil row col maze (h :: t)⟩
        simp only [solveAdopted, hc]
        rw [if_pos hgoal]
      · obtain ⟨maze1, d1, new, he, M, G⟩ := expand_grow B hg hh
        have hne : h ≠ (row - 1) * col + (col - 1) := by
          intro e
          apply hgoal
          rw [hx, hy]
          exact (goal_index_iff hg).2 (by rw [← hh, e])
        have B1 := mid_done M hne
        have hs1 : solve fuel row col maze1 (t ++ new) = some (b, mazeF) := by
          have h2 := hs
          simp only [solve, hc] at h2
          rw [if_neg hgoal, hx, hy, he] at h2
          exact h2
        obtain ⟨A1, hA1, R1⟩ := ih maze1 (t ++ new) d1 b mazeF B1 hs1
        refine ⟨new.map (fun ni => (ni, h)) ++ A1, ?_, ran_step B M G R1⟩
        simp only [solveAdopted, hc]
        rw [if_neg hgoal, hx, hy, he]
        simp only [List.tail_cons, hA1, List.length_cons, List.drop_succ_cons, List.drop_left]

/-! ## The history of a run seeded with the entry cell -/

theorem fresh_disc {row col : Int} {maze : Maze} (hf : FreshGrid row col maze) {k : Int}
    (hk : Disc row col maze k) : k = 0 := by
  obtain ⟨⟨x, y, hg, rfl⟩, e | e⟩ := hk
  · exact e
  · rw [(hf.2 x y hg).1] at e
    exact absurd e (by decide)

/-- On a fresh grid with an open entry `solve` returns, the record of its
adoptions exists, and both are related by `Ran` and the search invariant. -/
theorem solve_history {row col : Int} {maze : Maze} {fuel : Nat}
    (hf : FreshGrid row col maze) (hopen : kindAt maze 0 = '0')
    (hfuel : (row * col).toNat + 1 ≤ fuel) :
    ∃ b maze1 A d q, solve fuel row col maze [0] = some (b, maze1) ∧
      solveAdopted fuel row col maze [0] = some A ∧ Ran row col maze maze1 [0] A ∧
      Between row col maze maze1 d q ∧
      (b = true → q.head? = some ((row - 1) * col + (col - 1))) ∧ (b = false → q = []) := by
  obtain ⟨b, maze1, hs⟩ := solve_total hf hopen hfuel
  obtain ⟨A, hA, R⟩ := solve_ran fuel maze [0] _ b maze1 (between_init hf hopen) hs
  obtain ⟨d, q, B, g1, g2⟩ := solve_result hf hopen hs
  exact ⟨b, maze1, A, d, q, hs, hA, R, B, g1, g2⟩

theorem history_disc {row col : Int} {maze maze1 : Maze} {A : List (Int × Int)}
    (hf : FreshGrid row col maze) (R : Ran row col maze maze1 [0] A) (k : Int) :
    Disc row col maze1 k ↔ k ∈ enqueued A := by
  have h0 : Disc row col maze 0 := ⟨cell_zero hf.1.1 hf.1.2.1, Or.inl rfl⟩
  rw [R.disc, enqueued, List.mem_cons]
  constructor
  · rintro (h | h)
    · exact Or.inl (fresh_disc hf h)
    · exact Or.inr h
  · rintro (h | h)
    · rw [h]
      exact Or.inl h0
    · exact Or.inr h

theorem history_entry {row col : Int} {maze maze1 : Maze} {A : List (Int × Int)}
    (hf : FreshGrid row col maze) (R : Ran row col maze maze1 [0] A) :
    (0 : Int) ∉ A.map Prod.fst := by
  intro h
  obtain ⟨a, ha, e⟩ := List.mem_map.1 h
  have h0 : Disc row col maze 0 := ⟨cell_zero hf.1.1 hf.1.2.1, Or.inl rfl⟩
  apply (R.fresh a ha).2.1
  rw [e]
  exact h0

theorem history_nodup {row col : Int} {maze maze1 : Maze} {A : List (Int × Int)}
    (hf : FreshGrid row col maze) (R : Ran row col maze maze1 [0] A) :
    (enqueued A).Nodup :=
  List.nodup_cons.2 ⟨history_entry hf R, R.nodup⟩

theorem history_length {row col : Int} {maze maze1 : Maze} {A : List (Int × Int)}
    (hf : FreshGrid row col maze) (R : Ran row col maze maze1 [0] A) :
    (enqueued A).length ≤ (row * col).toNat := by
  have hsub : (enqueued A).toFinset ⊆ Finset.Ico (0 : Int) (row * col) := by
    intro k hk
    rw [List.mem_toFinset] at hk
    have := cell_bounds ((history_disc hf R k).2 hk).1
    exact Finset.mem_Ico.2 this
  have hc := Finset.card_le_card hsub
  rw [List.toFinset_card_of_nodup (history_nodup hf R), Int.card_Ico] at hc
  simpa using hc

theorem history_parent {row col : Int} {maze maze1 : Maze} {A : List (Int × Int)}
    {d : Int → Nat} {q : List Int} (hf : FreshGrid row col maze)
    (R : Ran row col maze maze1 [0] A) (B : Between row col maze maze1 d q) {k : Int}
    (hk : k ∈ enqueued A) (hne : k ≠ 0) :
    ∃ p, parentAt maze1 k = some p ∧ Adj row col p k ∧ kindAt maze p = '0' ∧
      List.Sublist [p, k] (enqueued A) := by
  rw [enqueued, List.mem_cons] at hk
  rcases hk with e | hk
  · exact absurd e hne
  obtain ⟨a, ha, rfl⟩ := List.mem_map.1 hk
  obtain ⟨-, -, -, f4, f5⟩ := R.fresh a ha
  have hord : List.Sublist [a.2, a.1] (enqueued A) := R.order a ha
  have hp : a.2 ∈ enqueued A := hord.subset (List.mem_cons_self _ _)
  have hD := (history_disc hf R a.2).2 hp
  refine ⟨a.2, f4, f5, ?_, hord⟩
  rw [← B.core.kinds a.2 hD.1]
  exact B.core.disc_open a.2 hD

theorem history_chain {row col : Int} {maze maze1 : Maze} {A : List (Int × Int)}
    {d : Int → Nat} {q : List Int} (hf : FreshGrid row col maze)
    (R : Ran row col maze maze1 [0] A) (B : Between row col maze maze1 d q) {k : Int}
    (hk : k ∈ enqueued A) :
    ∃ L : List Int, ParentChain maze1 k L ∧ (k :: L).getLast? = some 0 ∧ (k :: L).Nodup ∧
      ∀ a ∈ L, a ∈ enqueued A := by
  have hD := (history_disc hf R k).2 hk
  obtain ⟨L, h1, -, h3, -, h5, h6⟩ := parent_chain_exists B.core (d k) k hD rfl
  refine ⟨L, h1, h3, ?_, fun a ha => (history_disc hf R a).1 (h5 a ha).1⟩
  exact h6.imp (fun {a b} hab e => by rw [e] at hab; exact absurd hab (lt_irrefl _))

theorem history_unreached {row col : Int} {maze maze1 : Maze} {A : List (Int × Int)}
    {d : Int → Nat} {q : List Int} (hf : FreshGrid row col maze)
    (R : Ran row col maze maze1 [0] A) (B : Between row col maze maze1 d q) {k : Int}
    (hc : Cell row col k) (hk : k ∉ A.map Prod.fst) : parentAt maze1 k = none := by
  by_cases h0 : k = 0
  · rw [h0]
    exact B.core.entry_parent
  · apply B.core.undisc_parent k hc
    intro hD
    have := (history_disc hf R k).1 hD
    rw [enqueued, List.mem_cons] at this
    rcases this with e | e
    · exact h0 e
    · exact hk e

theorem history_visit {row col : Int} {maze maze1 : Maze} {A : List (Int × Int)}
    (hf : FreshGrid row col maze) (R : Ran row col maze maze1 [0] A) {k : Int}
    (hk : k ∈ A.map Prod.fst) : visitAt maze1 k = true := by
  have hD := (R.disc k).2 (Or.inr hk)
  rcases hD.2 with e | e
  · rw [e] at hk
    exact absurd hk (history_entry hf R)
  · exact e

theorem history_count {row col : Int} {maze maze1 : Maze} {A : List (Int × Int)}
    (hf : FreshGrid row col maze) (R : Ran row col maze maze1 [0] A) {k : Int}
    (hc : Cell row col k) : countAt maze1 k = (childrenOf A k : Int) := by
  obtain ⟨x, y, hg, rfl⟩ := hc
  rw [R.counts, (hf.2 x y hg).2.2, zero_add]

theorem visitNeighbor_store {maze : Maze} {queue : List Int} {ci ni : Int}
    {r : Maze × List Int} (h : visitNeighbor maze queue ci ni = some r) (hq : r.2 ≠ queue) :
    0 ≤ countAt maze ci ∧ countAt maze ci < 3 := by
  unfold visitNeighbor at h
  split at h
  · rename_i curr neighbor hcurr hnb
    split at h
    · split at h
      · rename_i hb
        simp only [countAt, hcurr]
        exact hb
      · exact absurd h (by simp)
    · simp only [Option.some.injEq] at h
      rw [← h] at hq
      exact absurd rfl hq
  · exact absurd h (by simp)

/-! ## Every cell is enqueued at most once -/

/-- C15: on every rectangular grid as `createMaze` builds it whose entry is
open, `solve` seeded with the entry cell returns, and in the list of all
enqueues of the run (`enqueued A`: the seeding of index 0 followed by the
adoptions in the order they happen) every index occurs at most once, every
member is a cell of the grid, the number of enqueues is at most `rows * cols`,
and index 0 occurs exactly once: it is never enqueued by an adoption. -/
theorem solve_enqueues_each_cell_once (row col : Int) (maze : Maze) (fuel : Nat)
    (hf : FreshGrid row col maze) (hopen : kindAt maze 0 = '0')
    (hfuel : (row * col).toNat + 1 ≤ fuel) :
    ∃ b maze1 A, solve fuel row col maze [0] = some (b, maze1) ∧
      solveAdopted fuel row col maze [0] = some A ∧
      (∀ k, (enqueued A).count k ≤ 1) ∧ (enqueued A).Nodup ∧
      (∀ k ∈ enqueued A, Cell row col k) ∧
      (enqueued A).length ≤ (row * col).toNat ∧
      (enqueued A).count 0 = 1 ∧ (0 : Int) ∉ A.map Prod.fst := by
  obtain ⟨b, maze1, A, d, q, hs, hA, R, -, -, -⟩ := solve_history hf hopen hfuel
  have hnd := history_nodup hf R
  refine ⟨b, maze1, A, hs, hA, fun k => List.nodup_iff_count_le_one.1 hnd k, hnd,
    fun k hk => ((history_disc hf R k).2 hk).1, history_length hf R,
    List.count_eq_one_of_mem hnd (List.mem_cons_self _ _), history_entry hf R⟩

/-- Witness for C15 on the 2 by 2 grid without walls. -/
theorem solve_enqueues_each_cell_once_witness :
    FreshGrid 2 2 grid22 ∧ kindAt grid22 0 = '0' ∧ ((2 : Int) * 2).toNat + 1 ≤ 5 ∧
    ∃ b maze1 A, solve 5 2 2 grid22 [0] = some (b, maze1) ∧
      solveAdopted 5 2 2 grid22 [0] = some A ∧
      (∀ k, (enqueued A).count k ≤ 1) ∧ (enqueued A).Nodup ∧
      (∀ k ∈ enqueued A, Cell 2 2 k) ∧
      (enqueued A).length ≤ ((2 : Int) * 2).toNat ∧
      (enqueued A).count 0 = 1 ∧ (0 : Int) ∉ A.map Prod.fst :=
  ⟨freshGrid_of_check (by decide), by decide, by decide,
    solve_enqueues_each_cell_once 2 2 grid22 5 (freshGrid_of_check (by decide)) (by decide)
      (by decide)⟩

/-! ## The parent relation is a tree rooted at the entry -/

/-- C16: after `solve` on a rectangular grid as `createMaze` builds it whose
entry is open, the entry has no parent; every other enqueued cell `k` has a
parent `p` that is one step away from it, open, and enqueued before it (the
pair `p, k` is a subsequence of the duplicate-free list of enqueues); and from
every enqueued cell the parent links form a finite chain `L` that ends at the
entry, has no repeated cell and stays among the enqueued cells. When the
answer is 1 the goal is among the enqueued cells. -/
theorem solve_parent_tree (row col : Int) (maze : Maze) (fuel : Nat)
    (hf : FreshGrid row col maze) (hopen : kindAt maze 0 = '0')
    (hfuel : (row * col).toNat + 1 ≤ fuel) :
    ∃ b maze1 A, solve fuel row col maze [0] = some (b, maze1) ∧
      solveAdopted fuel row col maze [0] = some A ∧ (enqueued A).Nodup ∧
      parentAt maze1 0 = none ∧
      (∀ k ∈ enqueued A, k ≠ 0 → ∃ p, parentAt maze1 k = some p ∧ Adj row col p k ∧
        kindAt maze p = '0' ∧ List.Sublist [p, k] (enqueued A)) ∧
      (∀ k ∈ enqueued A, ∃ L : List Int, ParentChain maze1 k L ∧
        (k :: L).getLast? = some 0 ∧ (k :: L).Nodup ∧ ∀ a ∈ L, a ∈ enqueued A) ∧
      (b = true → (row - 1) * col + (col - 1) ∈ enqueued A) := by
  obtain ⟨b, maze1, A, d, q, hs, hA, R, B, g1, -⟩ := solve_history hf hopen hfuel
  refine ⟨b, maze1, A, hs, hA, history_nodup hf R, B.core.entry_parent,
    fun k hk hne => history_parent hf R B hk hne, fun k hk => history_chain hf R B hk, ?_⟩
  intro hb
  have hq := g1 hb
  apply (history_disc hf R _).1
  apply B.core.queue_disc
  cases q with
  | nil => simp at hq
  | cons g t =>
    simp only [List.head?_cons, Option.some.injEq] at hq
    rw [hq]
    exact List.mem_cons_self _ _

/-- Witness for C16 on the 2 by 2 grid without walls. -/
theorem solve_parent_tree_witness :
    FreshGrid 2 2 grid22 ∧ kindAt grid22 0 = '0' ∧ ((2 : Int) * 2).toNat + 1 ≤ 5 ∧
    ∃ b maze1 A, solve 5 2 2 grid22 [0] = some (b, maze1) ∧
      solveAdopted 5 2 2 grid22 [0] = some A ∧ (enqueued A).Nodup ∧
      parentAt maze1 0 = none ∧
      (∀ k ∈ enqueued A, k ≠ 0 → ∃ p, parentAt maze1 k = some p ∧ Adj 2 2 p k ∧
        kindAt grid22 p = '0' ∧ List.Sublist [p, k] (enqueued A)) ∧
      (∀ k ∈ enqueued A, ∃ L : List Int, ParentChain maze1 k L ∧
        (k :: L).getLast? = some 0 ∧ (k :: L).Nodup ∧ ∀ a ∈ L, a ∈ enqueued A) ∧
      (b = true → ((2 : Int) - 1) * 2 + (2 - 1) ∈ enqueued A) :=
  ⟨freshGrid_of_check (by decide), by decide, by decide,
    solve_parent_tree 2 2 grid22 5 (freshGrid_of_check (by decide)) (by decide) (by decide)⟩

/-! ## A parent is assigned at most once -/

/-- C17: in the run of `solve` on a rectangular grid as `createMaze` builds it
whose entry is open, the assignments `neighbor->parent = curr` are the pairs
`(neighbor, curr)` of the record `A`, in the order they happen. No cell is the
target of two of them; the target of each had no parent before the run, so,
being assigned only once, it has none when it is assigned; the parent it is
given is the one it has when `solve` returns; and every cell that is the
target of no assignment has no parent when `solve` returns. -/
theorem solve_parent_assigned_once (row col : Int) (maze : Maze) (fuel : Nat)
    (hf : FreshGrid row col maze) (hopen : kindAt maze 0 = '0')
    (hfuel : (row * col).toNat + 1 ≤ fuel) :
    ∃ b maze1 A, solve fuel row col maze [0] = some (b, maze1) ∧
      solveAdopted fuel row col maze [0] = some A ∧
      (A.map Prod.fst).Nodup ∧ (∀ k, (A.map Prod.fst).count k ≤ 1) ∧
      (∀ a ∈ A, Cell row col a.1 ∧ parentAt maze a.1 = none ∧
        parentAt maze1 a.1 = some a.2) ∧
      (∀ k, Cell row col k → k ∉ A.map Prod.fst → parentAt maze1 k = none) := by
  obtain ⟨b, maze1, A, d, q, hs, hA, R, B, -, -⟩ := solve_history hf hopen hfuel
  refine ⟨b, maze1, A, hs, hA, R.nodup, fun k => List.nodup_iff_count_le_one.1 R.nodup k,
    fun a ha => ⟨(R.fresh a ha).1, (R.fresh a ha).2.2.1, (R.fresh a ha).2.2.2.1⟩,
    fun k hc hk => history_unreached hf R B hc hk⟩

/-- Witness for C17 on the 2 by 2 grid without walls. -/
theorem solve_parent_assigned_once_witness :
    FreshGrid 2 2 grid22 ∧ kindAt grid22 0 = '0' ∧ ((2 : Int) * 2).toNat + 1 ≤ 5 ∧
    ∃ b maze1 A, solve 5 2 2 grid22 [0] = some (b, maze1) ∧
      solveAdopted 5 2 2 grid22 [0] = some A ∧
      (A.map Prod.fst).Nodup ∧ (∀ k, (A.map Prod.fst).count k ≤ 1) ∧
      (∀ a ∈ A, Cell 2 2 a.1 ∧ parentAt grid22 a.1 = none ∧
        parentAt maze1 a.1 = some a.2) ∧
      (∀ k, Cell 2 2 k → k ∉ A.map Prod.fst → parentAt maze1 k = none) :=
  ⟨freshGrid_of_check (by decide), by decide, by decide,
    solve_parent_assigned_once 2 2 grid22 5 (freshGrid_of_check (by decide)) (by decide)
      (by decide)⟩

/-! ## The visit flag of the entry cell -/

/-- C18, as stated, fails: for the input `"00\n00"` the solve sequence of
`main` answers 1 and leaves the visit flag of the entry cell clear, while the
flags of the three cells enqueued by an adoption are set. -/
theorem entry_visit_counterexample :
    createMaze ['0', '0', '\n', '0', '0'] 0 0 = some (2, 2, built22) ∧
    kindAt built22 0 = '0' ∧ kindAt built22 (2 * 2 - 1) = '0' ∧
    solveSequence 5 2 2 built22 = some (true, searched22) ∧
    solveAdopted 5 2 2 built22 [0] = some [(1, 0), (2, 0), (3, 1)] ∧
    visitAt searched22 0 = false ∧ visitAt searched22 0 ≠ true ∧
    visitAt searched22 1 = true ∧ visitAt searched22 2 = true ∧
    visitAt searched22 3 = true := by
  decide

/-- C18, amended: for every rectangular grid as `createMaze` builds it with
open entry and goal, the solve sequence returns and leaves the visit flag of
the entry cell clear; the flag is set for every cell enqueued by an adoption,
and the entry is none of them: index 0 occurs once among the enqueues, by the
seeding. -/
theorem solveSequence_entry_visit_clear (row col : Int) (maze : Maze) (fuel : Nat)
    (hf : FreshGrid row col maze) (hentry : kindAt maze 0 = '0')
    (hgoal : kindAt maze (row * col - 1) = '0') (hfuel : (row * col).toNat + 1 ≤ fuel) :
    ∃ b maze1 A, solveSequence fuel row col maze = some (b, maze1) ∧
      solveAdopted fuel row col maze [0] = some A ∧
      visitAt maze1 0 = false ∧ (∀ k ∈ A.map Prod.fst, visitAt maze1 k = true) ∧
      (0 : Int) ∉ A.map Prod.fst ∧ (enqueued A).count 0 = 1 := by
  obtain ⟨b, maze1, A, d, q, hs, hA, R, B, -, -⟩ := solve_history hf hentry hfuel
  have hseq : solveSequence fuel row col maze = some (b, maze1) := by
    rw [solveSequence_rect hf.1, if_pos, hs]
    rw [hentry, hgoal]
    decide
  exact ⟨b, maze1, A, hseq, hA, B.core.entry_visit, fun k hk => history_visit hf R hk,
    history_entry hf R,
    List.count_eq_one_of_mem (history_nodup hf R) (List.mem_cons_self _ _)⟩

/-- Witness for the amended C18 on the 2 by 2 grid without walls. -/
theorem solveSequence_entry_visit_clear_witness :
    FreshGrid 2 2 grid22 ∧ kindAt grid22 0 = '0' ∧ kindAt grid22 (2 * 2 - 1) = '0' ∧
    ((2 : Int) * 2).toNat + 1 ≤ 5 ∧
    ∃ b maze1 A, solveSequence 5 2 2 grid22 = some (b, maze1) ∧
      solveAdopted 5 2 2 grid22 [0] = some A ∧
      visitAt maze1 0 = false ∧ (∀ k ∈ A.map Prod.fst, visitAt maze1 k = true) ∧
      (0 : Int) ∉ A.map Prod.fst ∧ (enqueued A).count 0 = 1 :=
  ⟨freshGrid_of_check (by decide), by decide, by decide, by decide,
    solveSequence_entry_visit_clear 2 2 grid22 5 (freshGrid_of_check (by decide)) (by decide)
      (by decide) (by decide)⟩

/-! ## The child counter stays within the child array -/

/-- C19: in the run of `solve` on a rectangular grid as `createMaze` builds it
whose entry is open, every cell adopts at most 3 neighbours; when `solve`
returns the counter `i` of every cell is the number of neighbours it adopted,
so it lies between 0 and 3; and every neighbour block that stores into
`curr->child[curr->i++]` finds `0 ≤ curr->i < 3` (a store outside the array
would leave `solve` without a result, and it returns one). -/
theorem solve_child_count_le_three (row col : Int) (maze : Maze) (fuel : Nat)
    (hf : FreshGrid row col maze) (hopen : kindAt maze 0 = '0')
    (hfuel : (row * col).toNat + 1 ≤ fuel) :
    ∃ b maze1 A, solve fuel row col maze [0] = some (b, maze1) ∧
      solveAdopted fuel row col maze [0] = some A ∧
      (∀ k, childrenOf A k ≤ 3) ∧
      (∀ k, Cell row col k → countAt maze1 k = (childrenOf A k : Int) ∧
        0 ≤ countAt maze1 k ∧ countAt maze1 k ≤ 3) ∧
      (∀ (m : Maze) (queue : List Int) (ci ni : Int) (r : Maze × List Int),
        visitNeighbor m queue ci ni = some r → r.2 ≠ queue →
          0 ≤ countAt m ci ∧ countAt m ci < 3) := by
  obtain ⟨b, maze1, A, d, q, hs, hA, R, -, -, -⟩ := solve_history hf hopen hfuel
  refine ⟨b, maze1, A, hs, hA, R.children_le, ?_,
    fun m queue ci ni r h hq => visitNeighbor_store h hq⟩
  intro k hc
  have h1 := history_count hf R hc
  have h2 := R.children_le k
  refine ⟨h1, ?_, ?_⟩
  · rw [h1]
    exact Int.natCast_nonneg _
  · rw [h1]
    exact_mod_cast h2

/-- Witness for C19 on the 2 by 2 grid without walls. -/
theorem solve_child_count_le_three_witness :
    FreshGrid 2 2 grid22 ∧ kindAt grid22 0 = '0' ∧ ((2 : Int) * 2).toNat + 1 ≤ 5 ∧
    ∃ b maze1 A, solve 5 2 2 grid22 [0] = some (b, maze1) ∧
      solveAdopted 5 2 2 grid22 [0] = some A ∧
      (∀ k, childrenOf A k ≤ 3) ∧
      (∀ k, Cell 2 2 k → countAt maze1 k = (childrenOf A k : Int) ∧
        0 ≤ countAt maze1 k ∧ countAt maze1 k ≤ 3) ∧
      (∀ (m : Maze) (queue : List Int) (ci ni : Int) (r : Maze × List Int),
        visitNeighbor m queue ci ni = some r → r.2 ≠ queue →
          0 ≤ countAt m ci ∧ countAt m ci < 3) :=
  ⟨freshGrid_of_check (by decide), by decide, by decide,
    solve_child_count_le_three 2 2 grid22 5 (freshGrid_of_check (by decide)) (by decide)
      (by decide)⟩

end Mopsolver
